import Mathlib

/-!
# secure-password-manager: the encrypted-vault core

A shallow embedding of `src/crypto.cpp` and `src/vault.cpp`.

Modelling conventions
* `uint8_t` / `char` is `Byte = Fin 256`; `std::vector<uint8_t>` and `std::string` are
  `List Byte` (a `std::string` is a byte string, and the code moves freely between the two
  with `reinterpret_cast`).
* `size_t` is 64 bits wide and never wraps on the container sizes that occur, so it is `Nat`;
  `uint32_t` is `Nat` reduced `% 2 ^ 32`; `int` is `Int` wrapped to 32 bits two's complement.
* A C++ exception derived from `std::exception` is `Except.error` carrying `what()`.
-/

deriving instance DecidableEq for Except

namespace Vault

/-- One `uint8_t` (or `char`). -/
abbrev Byte := Fin 256

/-- Narrowing conversion to `uint8_t`. -/
def toByte (n : Nat) : Byte := ⟨n % 256, Nat.mod_lt _ (by decide)⟩

end Vault

namespace Crypto

open Vault

/-- `struct EncryptedData` of `crypto.hpp`. -/
structure EncryptedData where
  salt : List Byte
  iv : List Byte
  ciphertext : List Byte
deriving DecidableEq, Repr

/-- The `what()` of the `std::runtime_error` thrown by `deserialize`. -/
def formatError : String := "Invalid encrypted data format"

/-- The lambda `writeSize` inside `serialize`: its parameter is a `uint32_t`, so the `size_t`
argument is narrowed first; four `push_back`s follow. -/
def writeSize (result : List Byte) (size : Nat) : List Byte :=
  let size := size % 2 ^ 32
  result ++ [toByte (size &&& 0xFF), toByte ((size >>> 8) &&& 0xFF),
    toByte ((size >>> 16) &&& 0xFF), toByte ((size >>> 24) &&& 0xFF)]

/-- `Crypto::serialize`. -/
def serialize (encData : EncryptedData) : List Byte :=
  let result : List Byte := []
  let result := writeSize result encData.salt.length
  let result := result ++ encData.salt
  let result := writeSize result encData.iv.length
  let result := result ++ encData.iv
  let result := writeSize result encData.ciphertext.length
  let result := result ++ encData.ciphertext
  result

/-- The lambda `readSize` inside `deserialize`, with the captured `offset` passed in and the
advanced `offset` returned next to the value. The four bytes are promoted to `int`, shifted
and or-ed, and the result is converted to `uint32_t`. -/
def readSize (data : List Byte) (offset : Nat) : Except String (Nat × Nat) :=
  if offset + 4 > data.length then .error formatError
  else
    let size := ((data.getD offset 0).val ||| ((data.getD (offset + 1) 0).val <<< 8) |||
      ((data.getD (offset + 2) 0).val <<< 16) ||| ((data.getD (offset + 3) 0).val <<< 24)) % 2 ^ 32
    .ok (size, offset + 4)

/-- The lambda `readBytes` inside `deserialize`. -/
def readBytes (data : List Byte) (offset size : Nat) : Except String (List Byte × Nat) :=
  if offset + size > data.length then .error formatError
  else .ok ((data.drop offset).take size, offset + size)

/-- `Crypto::deserialize`. -/
def deserialize (data : List Byte) : Except String EncryptedData :=
  if data.length < 12 then .error formatError
  else
    match readSize data 0 with
    | .error e => .error e
    | .ok (saltSize, offset) =>
    match readBytes data offset saltSize with
    | .error e => .error e
    | .ok (salt, offset) =>
    match readSize data offset with
    | .error e => .error e
    | .ok (ivSize, offset) =>
    match readBytes data offset ivSize with
    | .error e => .error e
    | .ok (iv, offset) =>
    match readSize data offset with
    | .error e => .error e
    | .ok (cipherSize, offset) =>
    match readBytes data offset cipherSize with
    | .error e => .error e
    | .ok (ciphertext, _) => .ok { salt := salt, iv := iv, ciphertext := ciphertext }

/-! ### The wire format as the specification words it -/

/-- The 4-byte little-endian encoding of a length: base-256 digits, least significant first. -/
def le32 (n : Nat) : List Byte :=
  [toByte n, toByte (n / 256), toByte (n / 65536), toByte (n / 16777216)]

/-- The little-endian length prefix declared at `offset` (bytes beyond the end count as 0). -/
def le32At (data : List Byte) (offset : Nat) : Nat :=
  (data.getD offset 0).val + 256 * (data.getD (offset + 1) 0).val +
    65536 * (data.getD (offset + 2) 0).val + 16777216 * (data.getD (offset + 3) 0).val

/-- The length prefix at `offset`, or the field it declares, runs past the end of the input. -/
def runsPastEnd (data : List Byte) (offset : Nat) : Prop :=
  data.length < offset + 4 ∨ data.length < offset + 4 + le32At data offset

/-- Where the field whose prefix sits at `offset` ends. -/
def fieldEnd (data : List Byte) (offset : Nat) : Nat := offset + 4 + le32At data offset

/-- The input is shorter than three prefixes, or one of the three length-prefixed fields, read
in the order salt, iv, ciphertext, runs past the end. -/
def Truncated (data : List Byte) : Prop :=
  data.length < 12 ∨ runsPastEnd data 0 ∨ runsPastEnd data (fieldEnd data 0) ∨
    runsPastEnd data (fieldEnd data (fieldEnd data 0))

instance (data : List Byte) (offset : Nat) : Decidable (runsPastEnd data offset) := by
  unfold runsPastEnd; infer_instance

instance (data : List Byte) : Decidable (Truncated data) := by
  unfold Truncated; infer_instance

end Crypto

/-! ## The cipher layer (`Crypto::encrypt`, `Crypto::decrypt`)

The OpenSSL primitives are not code of this repository: they are a parameter. A buffer handed
to the library (pointer and length) travels as a list. -/

namespace Vault

/-- Conversion of an integer value to the 32-bit `int`. -/
def wrapInt32 (n : Int) : Int := (n + 2 ^ 31) % 2 ^ 32 - 2 ^ 31

end Vault

namespace Crypto

open Vault

/-- `AES_KEY_SIZE` of `crypto.hpp`. -/
def AES_KEY_SIZE : Nat := 32
/-- `AES_IV_SIZE` of `crypto.hpp`. -/
def AES_IV_SIZE : Nat := 16
/-- `SALT_SIZE` of `crypto.hpp`. -/
def SALT_SIZE : Nat := 16
/-- `PBKDF2_ITERATIONS` of `crypto.hpp`. -/
def PBKDF2_ITERATIONS : Nat := 100000
/-- `AES_BLOCK_SIZE` of `crypto.cpp`. -/
def AES_BLOCK_SIZE : Nat := 16

/-- The OpenSSL calls made by `crypto.cpp`. A call that does not return 1 gives `none`
(or `false`); otherwise the bytes it wrote to its output buffer. A cipher context is
determined by the key and iv it was initialised with and the input fed to it so far, so the
`Update`/`Final` calls take these instead of the context. -/
structure OpenSSL where
  /-- `PKCS5_PBKDF2_HMAC(pass, passlen, salt, saltlen, iter, EVP_sha256(), keylen, out)`:
  the bytes at `pass`, the `int passlen`, the bytes at `salt`, the `int saltlen`. -/
  PKCS5_PBKDF2_HMAC : List Byte → Int → List Byte → Int → Nat → Nat → Option (List Byte)
  /-- `EVP_EncryptInit_ex(ctx, EVP_aes_256_cbc(), nullptr, key, iv)`. -/
  EVP_EncryptInit_ex : List Byte → List Byte → Bool
  /-- `EVP_EncryptUpdate` on a context initialised with key and iv, fed the whole input. -/
  EVP_EncryptUpdate : List Byte → List Byte → List Byte → Option (List Byte)
  /-- `EVP_EncryptFinal_ex` on the context after that `Update`. -/
  EVP_EncryptFinal_ex : List Byte → List Byte → List Byte → Option (List Byte)
  /-- `EVP_DecryptInit_ex(ctx, EVP_aes_256_cbc(), nullptr, key, iv)`. -/
  EVP_DecryptInit_ex : List Byte → List Byte → Bool
  /-- `EVP_DecryptUpdate` on a context initialised with key and iv, fed the whole input. -/
  EVP_DecryptUpdate : List Byte → List Byte → List Byte → Option (List Byte)
  /-- `EVP_DecryptFinal_ex` on the context after that `Update`. -/
  EVP_DecryptFinal_ex : List Byte → List Byte → List Byte → Option (List Byte)

/-- One call of `RAND_bytes`: `none` when it does not return 1, otherwise the stream the
buffer is filled from. -/
abbrev Draw := Option (Nat → Byte)

/-- The two draws of one `encrypt` call. -/
structure Entropy where
  salt : Draw
  iv : Draw

/-- `Crypto::deriveKey`. `password.length()` and `salt.size()` are `size_t` values passed
for the `int` parameters `passlen` and `saltlen`. -/
def deriveKey (O : OpenSSL) (password : List Byte) (salt : List Byte) (iterations : Nat) :
    Except String (List Byte) :=
  let passlen : Int := wrapInt32 (password.length : Int)
  let saltlen : Int := wrapInt32 (salt.length : Int)
  match O.PKCS5_PBKDF2_HMAC password passlen salt saltlen iterations AES_KEY_SIZE with
  | none => .error "Key derivation failed"
  | some key => .ok key

/-- `Crypto::generateRandomBytes`. -/
def generateRandomBytes (size : Nat) (draw : Draw) : Except String (List Byte) :=
  match draw with
  | none => .error "Random byte generation failed"
  | some rand => .ok ((List.range size).map rand)

/-- `Crypto::encrypt`. `max_len` is an `int`; `resize` with a negative `int` asks for more
than `max_size()` elements and throws `std::length_error`. Output that would not fit the
`max_len` bytes of the buffer is undefined behaviour, modelled as a failure. -/
def encrypt (O : OpenSSL) (plaintext password : List Byte) (rnd : Entropy) :
    Except String EncryptedData :=
  match generateRandomBytes SALT_SIZE rnd.salt with
  | .error e => .error e
  | .ok salt =>
  match generateRandomBytes AES_IV_SIZE rnd.iv with
  | .error e => .error e
  | .ok iv =>
  match deriveKey O password salt PBKDF2_ITERATIONS with
  | .error e => .error e
  | .ok key =>
  if !O.EVP_EncryptInit_ex key iv then .error "Encryption initialization failed"
  else
    let max_len : Int := wrapInt32 ((plaintext.length + AES_BLOCK_SIZE : Nat) : Int)
    if max_len < 0 then .error "vector::_M_default_append"
    else
      match O.EVP_EncryptUpdate key iv plaintext with
      | none => .error "Encryption update failed"
      | some out1 =>
      let total_len : Nat := out1.length
      match O.EVP_EncryptFinal_ex key iv plaintext with
      | none => .error "Encryption finalization failed"
      | some out2 =>
      let total_len : Nat := total_len + out2.length
      if (total_len : Int) > max_len then .error "undefined behaviour: buffer overrun"
      else .ok { salt := salt, iv := iv, ciphertext := out1 ++ out2 }

/-- `Crypto::decrypt`. The plaintext buffer has `ciphertext.size() + AES_BLOCK_SIZE` bytes;
output that would not fit is undefined behaviour, modelled as a failure. -/
def decrypt (O : OpenSSL) (encData : EncryptedData) (password : List Byte) :
    Except String (List Byte) :=
  match deriveKey O password encData.salt PBKDF2_ITERATIONS with
  | .error e => .error e
  | .ok key =>
  if !O.EVP_DecryptInit_ex key encData.iv then .error "Decryption initialization failed"
  else
    match O.EVP_DecryptUpdate key encData.iv encData.ciphertext with
    | none => .error "Decryption update failed - incorrect password?"
    | some out1 =>
    let total_len : Nat := out1.length
    match O.EVP_DecryptFinal_ex key encData.iv encData.ciphertext with
    | none => .error "Decryption finalization failed - incorrect password?"
    | some out2 =>
    let total_len : Nat := total_len + out2.length
    if total_len > encData.ciphertext.length + AES_BLOCK_SIZE then
      .error "undefined behaviour: buffer overrun"
    else .ok (out1 ++ out2)

/-- `Crypto::verifyPassword`. -/
def verifyPassword (O : OpenSSL) (encData : EncryptedData) (password : List Byte) : Bool :=
  match decrypt O encData password with
  | .ok _ => true
  | .error _ => false

/-- What the OpenSSL documentation promises of the calls above, for AES-256-CBC with a
32-byte key and a 16-byte iv: the key derivation, given a password and a salt with their
lengths (which an `int` holds below `2 ^ 31`), succeeds and fills the 32 bytes asked for;
encrypting an input shorter than `2 ^ 31` bytes succeeds and writes at most one block more
than the input; decrypting that output under the same key and iv succeeds and gives the
input back; and decryption never writes more than one block more than its input. -/
structure Lawful (O : OpenSSL) : Prop where
  kdf : ∀ password salt : List Byte, password.length < 2 ^ 31 → salt.length < 2 ^ 31 →
    ∃ key, O.PKCS5_PBKDF2_HMAC password (password.length : Int) salt (salt.length : Int)
        PBKDF2_ITERATIONS AES_KEY_SIZE = some key ∧
      key.length = AES_KEY_SIZE
  cipher : ∀ key iv input, key.length = AES_KEY_SIZE → iv.length = AES_IV_SIZE →
    input.length < 2 ^ 31 →
    O.EVP_EncryptInit_ex key iv = true ∧ O.EVP_DecryptInit_ex key iv = true ∧
    ∃ out1 out2, O.EVP_EncryptUpdate key iv input = some out1 ∧
      O.EVP_EncryptFinal_ex key iv input = some out2 ∧
      out1.length + out2.length ≤ input.length + AES_BLOCK_SIZE ∧
      ∃ dec1 dec2, O.EVP_DecryptUpdate key iv (out1 ++ out2) = some dec1 ∧
        O.EVP_DecryptFinal_ex key iv (out1 ++ out2) = some dec2 ∧ dec1 ++ dec2 = input
  decryptBound : ∀ key iv input dec1 dec2, O.EVP_DecryptUpdate key iv input = some dec1 →
    O.EVP_DecryptFinal_ex key iv input = some dec2 →
    dec1.length + dec2.length ≤ input.length + AES_BLOCK_SIZE

/-- The key derivation of the stand-ins for the library. A negative length is refused,
except that `passlen = -1` asks for the password up to its first NUL; otherwise the key is the
first `passlen` bytes of the password, cut or zero-padded to the requested length. -/
def padKey (password : List Byte) (passlen saltlen : Int) (keylen : Nat) :
    Option (List Byte) :=
  if passlen < -1 ∨ saltlen < 0 then none
  else
    let seen : List Byte :=
      if passlen = -1 then password.takeWhile (fun b => b != 0)
      else password.take passlen.toNat
    some ((seen ++ List.replicate keylen 0).take keylen)

/-- A stand-in for the library, used to show that `Lawful` can be met and to run the model:
the key is the password cut or zero-padded to the requested length, `Update` copies its
input, and `Final` appends one block holding the first 16 key bytes, which decryption checks
and removes. -/
def toyOpenSSL : OpenSSL where
  PKCS5_PBKDF2_HMAC := fun password passlen _ saltlen _ keylen =>
    padKey password passlen saltlen keylen
  EVP_EncryptInit_ex := fun _ _ => true
  EVP_EncryptUpdate := fun _ _ input => some input
  EVP_EncryptFinal_ex := fun key _ _ => some ((key ++ List.replicate 16 0).take 16)
  EVP_DecryptInit_ex := fun _ _ => true
  EVP_DecryptUpdate := fun _ _ input => some (input.take (input.length - 16))
  EVP_DecryptFinal_ex := fun key _ input =>
    if 16 ≤ input.length ∧ input.drop (input.length - 16) = (key ++ List.replicate 16 0).take 16
    then some [] else none

end Crypto

/-! ## The credential store and its text payload (`vault.hpp`, `vault.cpp`) -/

namespace Vault

/-- A string literal as the bytes of a `std::string` (the literals of the source are ASCII). -/
def ascii (s : String) : List Byte := s.toList.map (fun c => toByte c.toNat)

/-- `struct Credential` of `vault.hpp`. -/
structure Credential where
  service : List Byte
  username : List Byte
  password : List Byte
deriving DecidableEq, Repr

/-- The default-constructed `Credential()`. -/
def Credential.empty : Credential := { service := [], username := [], password := [] }

/-- `operator<` of `std::string`: lexicographic on the bytes as unsigned values. -/
def strLt : List Byte → List Byte → Bool
  | [], [] => false
  | [], _ :: _ => true
  | _ :: _, [] => false
  | a :: as, b :: bs => if a < b then true else if b < a then false else strLt as bs

/-- `std::map<std::string, Credential>`: the entries in increasing key order. -/
abbrev CredMap := List (List Byte × Credential)

/-- `credentials[key] = value` on a `std::map`. -/
def mapAssign : CredMap → List Byte → Credential → CredMap
  | [], key, value => [(key, value)]
  | (k, v) :: rest, key, value =>
    if strLt key k then (key, value) :: (k, v) :: rest
    else if strLt k key then (k, v) :: mapAssign rest key value
    else (k, value) :: rest

/-- `credentials.find(key)`: the entry whose key is equivalent to `key`, if any. -/
def mapFind : CredMap → List Byte → Option Credential
  | [], _ => none
  | (k, v) :: rest, key => if !strLt key k && !strLt k key then some v else mapFind rest key

/-- `credentials.erase(it)` for the iterator returned by `find(key)`. -/
def mapErase : CredMap → List Byte → CredMap
  | [], _ => []
  | (k, v) :: rest, key =>
    if !strLt key k && !strLt k key then rest else (k, v) :: mapErase rest key

/-- The data members of `class PasswordManager`. -/
structure PasswordManager where
  vaultFilePath : List Byte
  masterPassword : List Byte
  credentials : CredMap
  isLocked : Bool
  authData : Crypto.EncryptedData
deriving DecidableEq, Repr

/-- `isspace` in the "C" locale. -/
def isspace (c : Byte) : Bool := c.val = 32 || (9 ≤ c.val && c.val ≤ 13)

/-- `isdigit`. -/
def isdigit (c : Byte) : Bool := 48 ≤ c.val && c.val ≤ 57

/-- The decimal digits of `n`, least significant first; `fuel` bounds their number. -/
def digitsLE : Nat → Nat → List Nat
  | 0, _ => []
  | fuel + 1, n => if n < 10 then [n] else (n % 10) :: digitsLE fuel (n / 10)

/-- What `operator<<` writes for a non-negative integer: its decimal digits. -/
def decimal (n : Nat) : List Byte := ((digitsLE (n + 1) n).reverse).map (fun d => toByte (48 + d))

/-- The value of a run of decimal digit characters. -/
def digitsValue (ds : List Byte) : Nat := ds.foldl (fun acc c => 10 * acc + (c.val - 48)) 0

/-- `std::stoul(line)`: `strtoul` in base 10 skips white space, takes an optional sign and the
longest run of digits; no digits throws `std::invalid_argument`, a value above `ULONG_MAX`
throws `std::out_of_range`, and a minus sign negates the value as an `unsigned long`. -/
def stoul (s : List Byte) : Except String Nat :=
  let s := s.dropWhile isspace
  let (neg, s) : Bool × List Byte :=
    match s with
    | c :: t => if c.val = 45 then (true, t) else if c.val = 43 then (false, t) else (false, c :: t)
    | [] => (false, [])
  let ds := s.takeWhile isdigit
  if ds = [] then .error "stoul"
  else
    let v := digitsValue ds
    if v ≥ 2 ^ 64 then .error "stoul"
    else .ok (if neg then (2 ^ 64 - v) % 2 ^ 64 else v)

/-- One `authStream >> byte` for an `int`: skip white space, take an optional sign and the
longest run of digits; the extraction fails when there is no digit or the value does not fit
an `int`. Returns the value and the rest of the stream. -/
def extractInt (s : List Byte) : Option (Int × List Byte) :=
  let s := s.dropWhile isspace
  let (neg, s) : Bool × List Byte :=
    match s with
    | c :: t => if c.val = 45 then (true, t) else if c.val = 43 then (false, t) else (false, c :: t)
    | [] => (false, [])
  let ds := s.takeWhile isdigit
  if ds = [] then none
  else
    let v : Int := if neg then - (digitsValue ds : Int) else (digitsValue ds : Int)
    if v > 2 ^ 31 - 1 ∨ v < - 2 ^ 31 then none
    else some (v, s.dropWhile isdigit)

/-- `static_cast<uint8_t>(byte)` for an `int`. -/
def toByteInt (v : Int) : Byte := toByte (v % 256).toNat

/-- `while (authStream >> byte) authBytes.push_back(static_cast<uint8_t>(byte));` with the
number of iterations bounded by `fuel`. -/
def readIntsLoop : Nat → List Byte → List Byte
  | 0, _ => []
  | fuel + 1, s =>
    match extractInt s with
    | none => []
    | some (v, rest) => toByteInt v :: readIntsLoop fuel rest

/-- The extraction loop over one line: every successful extraction consumes a character, so
`line.length` iterations exhaust it. -/
def readInts (line : List Byte) : List Byte := readIntsLoop line.length line

/-- The lines `std::getline` returns one after the other from a stream holding `data`, the
line read so far being `cur` (reversed): a newline ends a line, and a last line without a
newline is returned if it is not empty. -/
def splitLinesAux : List Byte → List Byte → List (List Byte)
  | cur, [] => if cur = [] then [] else [cur.reverse]
  | cur, c :: cs => if c.val = 10 then cur.reverse :: splitLinesAux [] cs else splitLinesAux (c :: cur) cs

/-- An `std::istringstream` that is read with `std::getline` only: the list of lines still to
be returned; `getline` fails on the empty list. -/
def splitLines (data : List Byte) : List (List Byte) := splitLinesAux [] data

/-- `while (std::getline(iss, line) && line != marker) {}`. -/
def skipPast (marker : List Byte) : List (List Byte) → List (List Byte)
  | [] => []
  | line :: iss => if line = marker then iss else skipPast marker iss

/-- One `if (std::getline(iss, line) && line.substr(0, n) == prefix) field = line.substr(n);`
on an empty field. -/
def readField (pre : List Byte) (iss : List (List Byte)) : List Byte × List (List Byte) :=
  match iss with
  | [] => ([], [])
  | line :: iss => (if line.take pre.length = pre then line.drop pre.length else [], iss)

/-- The `for (size_t i = 0; i < credCount; ++i)` loop of `deserializeCredentials`. -/
def parseRecords : Nat → List (List Byte) → CredMap → CredMap
  | 0, _, credentials => credentials
  | credCount + 1, iss, credentials =>
    let (service, iss) := readField (ascii "SERVICE:") iss
    let (username, iss) := readField (ascii "USERNAME:") iss
    let (password, iss) := readField (ascii "PASSWORD:") iss
    let cred : Credential := { service := service, username := username, password := password }
    let credentials := if service ≠ [] then mapAssign credentials service cred else credentials
    parseRecords credCount iss.tail credentials

/-- `PasswordManager::serializeCredentials`. -/
def serializeCredentials (pm : PasswordManager) : List Byte :=
  let authSerialized := Crypto.serialize pm.authData
  ascii "AUTH_DATA_START\n" ++ decimal authSerialized.length ++ ascii "\n" ++
    authSerialized.flatMap (fun byte => decimal byte.val ++ ascii " ") ++
    ascii "\nAUTH_DATA_END\n" ++
    ascii "CREDENTIALS_START\n" ++ decimal pm.credentials.length ++ ascii "\n" ++
    pm.credentials.flatMap (fun pair =>
      ascii "SERVICE:" ++ pair.2.service ++ ascii "\n" ++
      ascii "USERNAME:" ++ pair.2.username ++ ascii "\n" ++
      ascii "PASSWORD:" ++ pair.2.password ++ ascii "\n" ++
      ascii "---\n") ++
    ascii "CREDENTIALS_END\n"

/-- The authentication section of `deserializeCredentials`: on success the manager (with
`authData` possibly replaced) and the rest of the stream; an exception of `std::stoul` or
`Crypto::deserialize` leaves `authData` as it was. -/
def parseAuthSection (pm : PasswordManager) (iss : List (List Byte)) :
    Except String (PasswordManager × List (List Byte)) :=
  match iss with
  | [] => .ok (pm, [])
  | line :: iss =>
    match stoul line with
    | .error e => .error e
    | .ok authSize =>
      let (authBytes, iss) : List Byte × List (List Byte) :=
        match iss with
        | [] => ([], [])
        | line :: iss => (readInts line, iss)
      if authBytes.length = authSize then
        match Crypto.deserialize authBytes with
        | .error e => .error e
        | .ok auth => .ok ({ pm with authData := auth }, iss)
      else .ok (pm, iss)

/-- `PasswordManager::deserializeCredentials`: the manager after the call, and whether the
call returned or threw. The members keep what was assigned before a throw. -/
def deserializeCredentials (pm : PasswordManager) (data : List Byte) :
    PasswordManager × Except String Unit :=
  let pm := { pm with credentials := [] }
  let iss := splitLines data
  let iss := skipPast (ascii "AUTH_DATA_START") iss
  match parseAuthSection pm iss with
  | .error e => (pm, .error e)
  | .ok (pm, iss) =>
    let iss := skipPast (ascii "CREDENTIALS_START") iss
    match iss with
    | [] => (pm, .ok ())
    | line :: iss =>
      match stoul line with
      | .error e => (pm, .error e)
      | .ok credCount =>
        ({ pm with credentials := parseRecords credCount iss pm.credentials }, .ok ())

/-- `PasswordManager::createAuthData`. -/
def createAuthData (O : Crypto.OpenSSL) (password : List Byte) (rnd : Crypto.Entropy) :
    Except String Crypto.EncryptedData :=
  let authPlaintext := ascii "VAULT_AUTH_CHECK"
  Crypto.encrypt O authPlaintext password rnd

end Vault

/-! ## The vault controller (`class PasswordManager`) -/

namespace Vault

/-- The manager together with the one file it reads and writes: `none` when the file at
`vaultFilePath` cannot be opened for reading. -/
structure World where
  pm : PasswordManager
  file : Option (List Byte)
deriving DecidableEq, Repr

/-- What the environment does during one `saveVault`: the two random draws of `encrypt`,
whether the output file opens, whether the stream is `good()` right after `write`, whether
all the bytes have reached the file when the stream is destroyed, and how many bytes have
reached it otherwise. -/
structure SaveEnv where
  rnd : Crypto.Entropy
  openOk : Bool
  writeOk : Bool
  flushOk : Bool
  written : Nat

/-- The constructor `PasswordManager(vaultPath)`. -/
def PasswordManager.init (vaultPath : List Byte) : PasswordManager :=
  { vaultFilePath := vaultPath, masterPassword := [], credentials := [], isLocked := true,
    authData := { salt := [], iv := [], ciphertext := [] } }

/-- `PasswordManager::isVaultLocked`. -/
def isVaultLocked (pm : PasswordManager) : Bool := pm.isLocked

/-- `PasswordManager::getCredentialCount`. -/
def getCredentialCount (pm : PasswordManager) : Nat := pm.credentials.length

/-- `PasswordManager::vaultExists`. -/
def vaultExists (w : World) : Bool := w.file.isSome

/-- `PasswordManager::saveVault`. Every `std::exception` is caught, so the call returns a
`bool`. Opening the `ofstream` truncates the file. The value returned is `file.good()` right
after `write`, when bytes may still sit in the stream buffer: they are written out when the
stream is destroyed, and a failure there is not reported. -/
def saveVault (O : Crypto.OpenSSL) (env : SaveEnv) (w : World) : World × Bool :=
  if w.pm.isLocked then (w, false)
  else
    let serialized := serializeCredentials w.pm
    match Crypto.encrypt O serialized w.pm.masterPassword env.rnd with
    | .error _ => (w, false)
    | .ok encrypted =>
      let fileData := Crypto.serialize encrypted
      if !env.openOk then (w, false)
      else
        let onDisk := if env.writeOk && env.flushOk then fileData else fileData.take env.written
        ({ w with file := some onDisk }, env.writeOk)

/-- `PasswordManager::loadVault`. Every `std::exception` is caught, so the call returns a
`bool`; what `deserializeCredentials` assigned before it threw stays assigned. -/
def loadVault (O : Crypto.OpenSSL) (w : World) : World × Bool :=
  match w.file with
  | none => (w, false)
  | some fileData =>
    match Crypto.deserialize fileData with
    | .error _ => (w, false)
    | .ok encrypted =>
      if w.pm.isLocked then ({ w with pm := { w.pm with authData := encrypted } }, true)
      else
        match Crypto.decrypt O encrypted w.pm.masterPassword with
        | .error _ => (w, false)
        | .ok decrypted =>
          match deserializeCredentials w.pm decrypted with
          | (pm, .error _) => ({ w with pm := pm }, false)
          | (pm, .ok _) => ({ w with pm := pm }, true)

/-- `PasswordManager::initializeVault`. `createAuthData` is called outside any `try`, so an
exception of `Crypto::encrypt` leaves the function, after the two assignments. -/
def initializeVault (O : Crypto.OpenSSL) (authRnd : Crypto.Entropy) (env : SaveEnv) (w : World)
    (password : List Byte) : World × Except String Bool :=
  if vaultExists w then (w, .ok false)
  else
    let w := { w with pm := { w.pm with masterPassword := password, isLocked := false } }
    match createAuthData O password authRnd with
    | .error e => (w, .error e)
    | .ok auth =>
      let w := { w with pm := { w.pm with authData := auth } }
      let r := saveVault O env w
      (r.1, .ok r.2)

/-- `PasswordManager::unlock`. -/
def unlock (O : Crypto.OpenSSL) (w : World) (password : List Byte) : World × Bool :=
  if !vaultExists w then (w, false)
  else
    let r := loadVault O w
    if !r.2 then (r.1, false)
    else if !Crypto.verifyPassword O r.1.pm.authData password then (r.1, false)
    else
      let w := { r.1 with pm := { r.1.pm with masterPassword := password, isLocked := false } }
      loadVault O w

/-- `Utils::secureErase`: every character is overwritten with `'\0'`, then the string is
cleared. -/
def secureErase (str : List Byte) : List Byte :=
  let filled : List Byte := str.map (fun _ => 0)
  filled.drop filled.length

/-- `PasswordManager::clearSensitiveData`. -/
def clearSensitiveData (pm : PasswordManager) : PasswordManager :=
  { pm with masterPassword := secureErase pm.masterPassword, credentials := [] }

/-- `PasswordManager::lock`. -/
def lock (w : World) : World :=
  { w with pm := { clearSensitiveData w.pm with isLocked := true } }

/-- `PasswordManager::addCredential`. -/
def addCredential (O : Crypto.OpenSSL) (env : SaveEnv) (w : World)
    (service username password : List Byte) : World × Bool :=
  if w.pm.isLocked then (w, false)
  else
    let cred : Credential := { service := service, username := username, password := password }
    let w := { w with pm := { w.pm with credentials := mapAssign w.pm.credentials service cred } }
    saveVault O env w

/-- `PasswordManager::getCredential`. -/
def getCredential (pm : PasswordManager) (service : List Byte) : Credential :=
  if pm.isLocked then Credential.empty
  else
    match mapFind pm.credentials service with
    | some cred => cred
    | none => Credential.empty

/-- Insertion of one string into a sorted list. -/
def insertSorted (s : List Byte) : List (List Byte) → List (List Byte)
  | [] => [s]
  | t :: ts => if strLt t s then t :: insertSorted s ts else s :: t :: ts

/-- `std::sort(services.begin(), services.end())`: the strings in increasing order. -/
def stdSort : List (List Byte) → List (List Byte)
  | [] => []
  | s :: ss => insertSorted s (stdSort ss)

/-- `PasswordManager::getServices`. -/
def getServices (pm : PasswordManager) : List (List Byte) :=
  if pm.isLocked then []
  else stdSort (pm.credentials.map (fun pair => pair.1))

/-- `PasswordManager::removeCredential`. -/
def removeCredential (O : Crypto.OpenSSL) (env : SaveEnv) (w : World) (service : List Byte) :
    World × Bool :=
  if w.pm.isLocked then (w, false)
  else
    match mapFind w.pm.credentials service with
    | some _ =>
      let w := { w with pm := { w.pm with credentials := mapErase w.pm.credentials service } }
      saveVault O env w
    | none => (w, false)

/-- Lower-case ASCII letter: the class `[a-z]`. -/
def islower (c : Byte) : Bool := 97 ≤ c.val && c.val ≤ 122

/-- Upper-case ASCII letter: the class `[A-Z]`. -/
def isupper (c : Byte) : Bool := 65 ≤ c.val && c.val ≤ 90

/-- `std::regex_search(password, std::regex("[...]"))` for a bracket expression that matches
one character: some character of the string is in the class. -/
def regexSearchClass (cls : Byte → Bool) (password : List Byte) : Bool := password.any cls

/-- `PasswordManager::validatePasswordStrength`. -/
def validatePasswordStrength (password : List Byte) : Int × List Byte :=
  let score : Int := 0
  let feedback : List Byte := []
  let (score, feedback) :=
    if password.length ≥ 8 then (score + 20, feedback)
    else (score, feedback ++ ascii "Use at least 8 characters. ")
  let score := if password.length ≥ 12 then score + 10 else score
  let (score, feedback) :=
    if regexSearchClass islower password then (score + 15, feedback)
    else (score, feedback ++ ascii "Add lowercase letters. ")
  let (score, feedback) :=
    if regexSearchClass isupper password then (score + 15, feedback)
    else (score, feedback ++ ascii "Add uppercase letters. ")
  let (score, feedback) :=
    if regexSearchClass isdigit password then (score + 15, feedback)
    else (score, feedback ++ ascii "Add numbers. ")
  let (score, feedback) :=
    if regexSearchClass (fun c => !(islower c || isupper c || isdigit c)) password then
      (score + 25, feedback)
    else (score, feedback ++ ascii "Add special characters. ")
  let strength : List Byte :=
    if score < 40 then ascii "Weak"
    else if score < 70 then ascii "Moderate"
    else if score < 90 then ascii "Strong"
    else ascii "Very Strong"
  let feedback := if feedback = [] then ascii "Good password!" else feedback
  (score, strength ++ ascii ": " ++ feedback)

end Vault

/-! ## The strength rubric as the specification words it -/

namespace Vault

/-- The password has a character in `a-z`. -/
def hasLower (password : List Byte) : Prop := ∃ c ∈ password, 97 ≤ c.val ∧ c.val ≤ 122

/-- The password has a character in `A-Z`. -/
def hasUpper (password : List Byte) : Prop := ∃ c ∈ password, 65 ≤ c.val ∧ c.val ≤ 90

/-- The password has a character in `0-9`. -/
def hasDigit (password : List Byte) : Prop := ∃ c ∈ password, 48 ≤ c.val ∧ c.val ≤ 57

/-- The password has a character outside `a-zA-Z0-9`. -/
def hasSymbol (password : List Byte) : Prop :=
  ∃ c ∈ password, ¬ ((97 ≤ c.val ∧ c.val ≤ 122) ∨ (65 ≤ c.val ∧ c.val ≤ 90) ∨
    (48 ≤ c.val ∧ c.val ≤ 57))

instance (password : List Byte) : Decidable (hasLower password) := by
  unfold hasLower; infer_instance

instance (password : List Byte) : Decidable (hasUpper password) := by
  unfold hasUpper; infer_instance

instance (password : List Byte) : Decidable (hasDigit password) := by
  unfold hasDigit; infer_instance

instance (password : List Byte) : Decidable (hasSymbol password) := by
  unfold hasSymbol; infer_instance

/-- The additive rubric: +20 length ≥ 8, +10 length ≥ 12, +15 lower case, +15 upper case,
+15 digit, +25 symbol. -/
def rubricScore (password : List Byte) : Int :=
  (if password.length ≥ 8 then 20 else 0) + (if password.length ≥ 12 then 10 else 0) +
    (if hasLower password then 15 else 0) + (if hasUpper password then 15 else 0) +
    (if hasDigit password then 15 else 0) + (if hasSymbol password then 25 else 0)

/-- The bands: below 40 Weak, below 70 Moderate, below 90 Strong, else Very Strong. -/
def band (score : Int) : List Byte :=
  if score < 40 then ascii "Weak"
  else if score < 70 then ascii "Moderate"
  else if score < 90 then ascii "Strong"
  else ascii "Very Strong"

/-- The sentences of the criteria that have one and are not met, in the order of the code:
length ≥ 8, lower case, upper case, digit, symbol. -/
def unmetFeedback (password : List Byte) : List Byte :=
  (if password.length ≥ 8 then [] else ascii "Use at least 8 characters. ") ++
    (if hasLower password then [] else ascii "Add lowercase letters. ") ++
    (if hasUpper password then [] else ascii "Add uppercase letters. ") ++
    (if hasDigit password then [] else ascii "Add numbers. ") ++
    (if hasSymbol password then [] else ascii "Add special characters. ")

end Vault

/-! ## Well-formed maps -/

namespace Vault

/-- The keys of the map, in iteration order. -/
def mapKeys (m : CredMap) : List (List Byte) := m.map (fun pair => pair.1)

/-- The invariant of `std::map`: the keys are strictly increasing. -/
def MapOk (m : CredMap) : Prop := (mapKeys m).Pairwise (fun a b => strLt a b = true)

/-- The store after `addCredential` of each record of the list in turn, from the empty store. -/
def insertAll (records : List Credential) : CredMap :=
  records.foldl (fun m cred => mapAssign m cred.service cred) []

end Vault

/-! ## The text payload, piece by piece -/

namespace Vault

/-- The newline character. -/
def newline : Byte := 10

/-- The line of decimal byte values that `serializeCredentials` writes for the auth blob. -/
def authLine (bytes : List Byte) : List Byte :=
  bytes.flatMap (fun byte => decimal byte.val ++ ascii " ")

/-- The four lines that `serializeCredentials` writes for one record. -/
def recordText (cred : Credential) : List Byte :=
  ascii "SERVICE:" ++ cred.service ++ ascii "\n" ++
    ascii "USERNAME:" ++ cred.username ++ ascii "\n" ++
    ascii "PASSWORD:" ++ cred.password ++ ascii "\n" ++
    ascii "---\n"

/-- The records section that `serializeCredentials` writes. -/
def recordsText (m : CredMap) : List Byte := m.flatMap (fun pair => recordText pair.2)

/-- A record that the text payload can carry: it sits under its own service name, the name is
not empty, and no field holds a newline. -/
def RecordOk (pair : List Byte × Credential) : Prop :=
  pair.2.service = pair.1 ∧ pair.1 ≠ [] ∧ newline ∉ pair.2.service ∧
    newline ∉ pair.2.username ∧ newline ∉ pair.2.password

/-- A map that the text payload can carry: a well-formed map of such records. -/
def Storable (m : CredMap) : Prop := MapOk m ∧ ∀ pair ∈ m, RecordOk pair

/-- Each field of the blob is shorter than `2 ^ 32` bytes, so `Crypto::serialize` can be
undone. -/
def BlobOk (b : Crypto.EncryptedData) : Prop :=
  b.salt.length < 2 ^ 32 ∧ b.iv.length < 2 ^ 32 ∧ b.ciphertext.length < 2 ^ 32

end Vault

/-! ## Assumptions on the environment used by the scenarios -/

namespace Vault

/-- One `saveVault` in which the random draws succeed, the file opens and every byte written
reaches the file. -/
def okEnv (salt iv : Nat → Byte) : SaveEnv :=
  { rnd := { salt := some salt, iv := some iv }, openOk := true, writeOk := true,
    flushOk := true, written := 0 }

/-- Whatever was encrypted under `password` does not decrypt under `other`. -/
def WrongPasswordFails (O : Crypto.OpenSSL) (password other : List Byte) : Prop :=
  ∀ plaintext rnd blob, Crypto.encrypt O plaintext password rnd = .ok blob →
    Crypto.verifyPassword O blob other = false

end Vault

/-! ## What the vault file decodes to -/

namespace Vault

end Vault

/-! ## Sequences of calls on the controller -/

namespace Vault

/-- One call of a public member function that can change the manager or the vault file, with
its arguments and with what the environment does during the call. -/
inductive Op where
  | initializeVault (authRnd : Crypto.Entropy) (env : SaveEnv) (password : List Byte)
  | unlock (password : List Byte)
  | lock
  | addCredential (env : SaveEnv) (service username password : List Byte)
  | removeCredential (env : SaveEnv) (service : List Byte)
  | saveVault (env : SaveEnv)
  | loadVault
  | clearSensitiveData

/-- The state after the call; for `initializeVault` also when it leaves by an exception. -/
def Op.run (O : Crypto.OpenSSL) (op : Op) (w : World) : World :=
  match op with
  | .initializeVault authRnd env password => (Vault.initializeVault O authRnd env w password).1
  | .unlock password => (Vault.unlock O w password).1
  | .lock => Vault.lock w
  | .addCredential env service username password =>
    (Vault.addCredential O env w service username password).1
  | .removeCredential env service => (Vault.removeCredential O env w service).1
  | .saveVault env => (Vault.saveVault O env w).1
  | .loadVault => (Vault.loadVault O w).1
  | .clearSensitiveData => { w with pm := Vault.clearSensitiveData w.pm }

/-- The state after the calls of the list, made in order. -/
def runOps (O : Crypto.OpenSSL) (ops : List Op) (w : World) : World :=
  ops.foldl (fun w op => op.run O w) w

/-- A call of the day-to-day use of an initialised vault: `lock`, `unlock`, and
`addCredential` or `removeCredential` during which the vault file opens and every byte
written reaches the file. -/
def Op.isSessionCall : Op → Bool
  | .unlock _ => true
  | .lock => true
  | .addCredential env _ _ _ => env.openOk && env.writeOk && env.flushOk
  | .removeCredential env _ => env.openOk && env.writeOk && env.flushOk
  | _ => false

/-- In each `unlock` call of the list, made in order from the given state, the password is
`password` or is refused by the check that `unlock` makes: `verifyPassword` on the auth blob
held after its first `loadVault`. -/
def WrongPasswordsRejected (O : Crypto.OpenSSL) (password : List Byte) : World → List Op → Prop
  | _, [] => True
  | w, op :: ops =>
    (match op with
      | .unlock attempt =>
        attempt = password ∨
          Crypto.verifyPassword O (Vault.loadVault O w).1.pm.authData attempt = false
      | _ => True) ∧
    WrongPasswordsRejected O password (op.run O w) ops

/-- After each call of the list, if the vault is unlocked then its text payload is shorter
than `2 ^ 32 - 16` bytes. -/
def PayloadsFit (O : Crypto.OpenSSL) : World → List Op → Prop
  | _, [] => True
  | w, op :: ops =>
    ((op.run O w).pm.isLocked = false →
      (serializeCredentials (op.run O w).pm).length + Crypto.AES_BLOCK_SIZE < 2 ^ 32) ∧
    PayloadsFit O (op.run O w) ops

/-- The auth blob embedded in the payload of the vault file: the file content is
deserialized, decrypted under `password` and decoded by `deserializeCredentials` in a newly
constructed manager; `none` when one of the three steps fails. -/
def diskAuthData (O : Crypto.OpenSSL) (password : List Byte) (w : World) :
    Option Crypto.EncryptedData :=
  match w.file with
  | none => none
  | some fileData =>
    match Crypto.deserialize fileData with
    | .error _ => none
    | .ok blob =>
      match Crypto.decrypt O blob password with
      | .error _ => none
      | .ok payload =>
        match deserializeCredentials (PasswordManager.init w.pm.vaultFilePath) payload with
        | (pm, .ok _) => some pm.authData
        | (_, .error _) => none

/-- What the calls of a session keep true of a vault initialised with `password` and auth
blob `auth`: the vault file holds a blob that decrypts under `password` to the payload of a
manager whose auth blob is `auth`, and an unlocked manager holds `auth` and `password`. -/
def AuthKept (O : Crypto.OpenSSL) (password : List Byte) (auth : Crypto.EncryptedData)
    (w : World) : Prop :=
  ∃ pm blob, w.file = some (Crypto.serialize blob) ∧ BlobOk blob ∧
    Crypto.decrypt O blob password = .ok (serializeCredentials pm) ∧
    pm.authData = auth ∧ pm.credentials.length < 2 ^ 64 ∧
    (w.pm.isLocked = false → w.pm.authData = auth ∧ w.pm.masterPassword = password)

/-- A second stand-in for the library, in which decryption under another password succeeds
and gives other bytes (as AES-CBC does when the padding of the last block happens to check
out): the key is the password cut or zero-padded, `Update` adds the first key byte to every
input byte, `Final` appends a block of zero bytes, and decryption removes the block and
subtracts the first key byte. -/
def shiftOpenSSL : Crypto.OpenSSL where
  PKCS5_PBKDF2_HMAC := fun password passlen _ saltlen _ keylen =>
    Crypto.padKey password passlen saltlen keylen
  EVP_EncryptInit_ex := fun _ _ => true
  EVP_EncryptUpdate := fun key _ input => some (input.map (fun b => b + key.headD 0))
  EVP_EncryptFinal_ex := fun _ _ _ => some (List.replicate 16 0)
  EVP_DecryptInit_ex := fun _ _ => true
  EVP_DecryptUpdate := fun key _ input =>
    some ((input.take (input.length - 16)).map (fun b => b - key.headD 0))
  EVP_DecryptFinal_ex := fun _ _ input => if 16 ≤ input.length then some [] else none

end Vault

/-! ## Lemmas: the blob codec -/

namespace Crypto

open Vault

theorem or_shift_eq_add (b0 b1 b2 b3 : Nat) (h0 : b0 < 256) (h1 : b1 < 256) (h2 : b2 < 256)
    (_h3 : b3 < 256) :
    (b0 ||| (b1 <<< 8) ||| (b2 <<< 16) ||| (b3 <<< 24)) =
      b0 + 256 * b1 + 65536 * b2 + 16777216 * b3 := by
  have e1 : b0 ||| (b1 <<< 8) = 2 ^ 8 * b1 + b0 := by
    rw [Nat.or_comm, Nat.shiftLeft_eq, Nat.mul_comm]
    exact (Nat.mul_add_lt_is_or (by simpa using h0) b1).symm
  have l1 : 2 ^ 8 * b1 + b0 < 2 ^ 16 := by omega
  have e2 : (2 ^ 8 * b1 + b0) ||| (b2 <<< 16) = 2 ^ 16 * b2 + (2 ^ 8 * b1 + b0) := by
    rw [Nat.or_comm, Nat.shiftLeft_eq, Nat.mul_comm b2]
    exact (Nat.mul_add_lt_is_or l1 b2).symm
  have l2 : 2 ^ 16 * b2 + (2 ^ 8 * b1 + b0) < 2 ^ 24 := by omega
  have e3 : (2 ^ 16 * b2 + (2 ^ 8 * b1 + b0)) ||| (b3 <<< 24) =
      2 ^ 24 * b3 + (2 ^ 16 * b2 + (2 ^ 8 * b1 + b0)) := by
    rw [Nat.or_comm, Nat.shiftLeft_eq, Nat.mul_comm b3]
    exact (Nat.mul_add_lt_is_or l2 b3).symm
  rw [e1, e2, e3]
  omega

end Crypto

namespace Crypto

open Vault

theorem toByte_val (n : Nat) : (toByte n).val = n % 256 := rfl

theorem toByte_congr {m n : Nat} (h : m % 256 = n % 256) : toByte m = toByte n :=
  Fin.ext (by simp [toByte_val, h])

theorem writeSize_eq (result : List Byte) (n : Nat) : writeSize result n = result ++ le32 n := by
  have a0 : ∀ k : Nat, k &&& 0xFF = k % 256 := fun k => Nat.and_pow_two_sub_one_eq_mod k 8
  unfold writeSize le32
  simp only [a0, Nat.shiftRight_eq_div_pow]
  congr 2
  · exact toByte_congr (by omega)
  congr 1
  · exact toByte_congr (by omega)
  congr 1
  · exact toByte_congr (by omega)
  congr 1
  exact toByte_congr (by omega)

theorem le32_length (n : Nat) : (le32 n).length = 4 := rfl

theorem le32At_lt (data : List Byte) (offset : Nat) : le32At data offset < 2 ^ 32 := by
  unfold le32At
  have h0 := (data.getD offset 0).isLt
  have h1 := (data.getD (offset + 1) 0).isLt
  have h2 := (data.getD (offset + 2) 0).isLt
  have h3 := (data.getD (offset + 3) 0).isLt
  omega

theorem getD_append_add {α : Type} (pre l : List α) (k : Nat) (d : α) :
    (pre ++ l).getD (pre.length + k) d = l.getD k d := by
  rw [List.getD_append_right _ _ _ _ (Nat.le_add_right _ _), Nat.add_sub_cancel_left]

theorem le32At_append (pre rest : List Byte) (n : Nat) :
    le32At (pre ++ (le32 n ++ rest)) pre.length = n % 2 ^ 32 := by
  unfold le32At
  have h0 := getD_append_add pre (le32 n ++ rest) 0 0
  rw [Nat.add_zero] at h0
  rw [h0, getD_append_add, getD_append_add, getD_append_add]
  simp only [le32, List.cons_append, List.getD_cons_zero, List.getD_cons_succ, toByte_val]
  omega

theorem readSize_eq (data : List Byte) (offset : Nat) :
    readSize data offset =
      if offset + 4 > data.length then .error formatError
      else .ok (le32At data offset, offset + 4) := by
  unfold readSize
  split
  · rfl
  · have h := or_shift_eq_add _ _ _ _ (data.getD offset 0).isLt (data.getD (offset + 1) 0).isLt
      (data.getD (offset + 2) 0).isLt (data.getD (offset + 3) 0).isLt
    have hl := le32At_lt data offset
    simp only [h]
    unfold le32At at hl ⊢
    rw [Nat.mod_eq_of_lt hl]

end Crypto

namespace Crypto

open Vault

/-- What `deserialize` computes, in one expression. -/
theorem deserialize_eq (data : List Byte) :
    deserialize data =
      if Truncated data then .error formatError
      else .ok
        { salt := (data.drop 4).take (le32At data 0)
          iv := (data.drop (fieldEnd data 0 + 4)).take (le32At data (fieldEnd data 0))
          ciphertext := (data.drop (fieldEnd data (fieldEnd data 0) + 4)).take
            (le32At data (fieldEnd data (fieldEnd data 0))) } := by
  unfold deserialize Truncated runsPastEnd
  simp only [readSize_eq, readBytes, fieldEnd]
  by_cases h12 : data.length < 12
  · simp [h12]
  by_cases h1 : 0 + 4 + le32At data 0 > data.length
  · have : ¬ (0 + 4 > data.length) := by omega
    simp [h12, h1, this]
  by_cases h2 : 0 + 4 + le32At data 0 + 4 > data.length
  · have : ¬ (0 + 4 > data.length) := by omega
    simp [h12, h1, h2, this]
  by_cases h3 : 0 + 4 + le32At data 0 + 4 + le32At data (0 + 4 + le32At data 0) > data.length
  · have : ¬ (0 + 4 > data.length) := by omega
    simp [h12, h1, h2, h3, this]
  by_cases h4 : 0 + 4 + le32At data 0 + 4 + le32At data (0 + 4 + le32At data 0) + 4 >
      data.length
  · have : ¬ (0 + 4 > data.length) := by omega
    simp [h12, h1, h2, h3, h4, this]
  by_cases h5 : 0 + 4 + le32At data 0 + 4 + le32At data (0 + 4 + le32At data 0) + 4 +
      le32At data (0 + 4 + le32At data 0 + 4 + le32At data (0 + 4 + le32At data 0)) >
      data.length
  · have : ¬ (0 + 4 > data.length) := by omega
    simp [h12, h1, h2, h3, h4, h5, this]
  · have : ¬ (0 + 4 > data.length) := by omega
    simp [h12, h1, h2, h3, h4, h5, this]

theorem serialize_eq (b : EncryptedData) :
    serialize b = le32 b.salt.length ++ (b.salt ++ (le32 b.iv.length ++ (b.iv ++
      (le32 b.ciphertext.length ++ b.ciphertext)))) := by
  simp [serialize, writeSize_eq, List.append_assoc]

theorem deserialize_serialize (b : EncryptedData) (hs : b.salt.length < 2 ^ 32)
    (hi : b.iv.length < 2 ^ 32) (hc : b.ciphertext.length < 2 ^ 32) :
    deserialize (serialize b) = .ok b := by
  obtain ⟨salt, iv, ct⟩ := b
  simp only at hs hi hc
  rw [deserialize_eq, serialize_eq]
  simp only
  set data := le32 salt.length ++ (salt ++ (le32 iv.length ++ (iv ++ (le32 ct.length ++ ct))))
    with hdata
  have e0 : le32At data 0 = salt.length := by
    have := le32At_append [] (salt ++ (le32 iv.length ++ (iv ++ (le32 ct.length ++ ct))))
      salt.length
    simp only [List.nil_append, List.length_nil] at this
    rw [hdata, this, Nat.mod_eq_of_lt hs]
  have f0 : fieldEnd data 0 = 4 + salt.length := by simp [fieldEnd, e0]
  have e1 : le32At data (4 + salt.length) = iv.length := by
    have := le32At_append (le32 salt.length ++ salt) (iv ++ (le32 ct.length ++ ct)) iv.length
    simp only [List.append_assoc, List.length_append, le32_length] at this
    rw [hdata, this, Nat.mod_eq_of_lt hi]
  have f1 : fieldEnd data (4 + salt.length) = 4 + salt.length + 4 + iv.length := by
    simp [fieldEnd, e1]
  have e2 : le32At data (4 + salt.length + 4 + iv.length) = ct.length := by
    have := le32At_append (le32 salt.length ++ (salt ++ (le32 iv.length ++ iv))) ct ct.length
    simp only [List.append_assoc, List.length_append, le32_length] at this
    rw [Nat.mod_eq_of_lt hc] at this
    have hoff : 4 + salt.length + 4 + iv.length = 4 + (salt.length + (4 + iv.length)) := by omega
    rw [hoff]
    exact this
  have hlen : data.length = 12 + salt.length + iv.length + ct.length := by
    simp [hdata, le32_length]; omega
  have hT : ¬ Truncated data := by
    unfold Truncated runsPastEnd
    rw [f0, f1, e0, e1, e2, hlen]
    omega
  rw [if_neg hT, f0, f1, e0, e1, e2]
  have d0 : (data.drop 4).take salt.length = salt := by
    have : data = le32 salt.length ++ (salt ++ (le32 iv.length ++ (iv ++ (le32 ct.length ++ ct)))) :=
      hdata
    rw [this, List.drop_left' (le32_length _)]
    simp
  have d1 : (data.drop (4 + salt.length + 4)).take iv.length = iv := by
    have : data = (le32 salt.length ++ salt ++ le32 iv.length) ++ (iv ++ (le32 ct.length ++ ct)) := by
      simp [hdata]
    rw [this, List.drop_left' (by simp [le32_length]; omega)]
    simp
  have d2 : (data.drop (4 + salt.length + 4 + iv.length + 4)).take ct.length = ct := by
    have : data = (le32 salt.length ++ salt ++ le32 iv.length ++ iv ++ le32 ct.length) ++ ct := by
      simp [hdata]
    rw [this, List.drop_left' (by simp [le32_length]; omega)]
    simp
  rw [d0, d1, d2]

end Crypto

/-! ## Lemmas: the cipher layer -/

namespace Crypto

open Vault

theorem wrapInt32_of_lt (n : Nat) (h : n < 2 ^ 31) : wrapInt32 (n : Int) = n := by
  unfold wrapInt32
  omega

theorem wrapInt32_neg (n : Nat) (h1 : 2 ^ 31 ≤ n) (h2 : n < 2 ^ 32) : wrapInt32 (n : Int) < 0 := by
  unfold wrapInt32
  omega

theorem generateRandomBytes_length (size : Nat) (draw : Draw) (bytes : List Byte)
    (h : generateRandomBytes size draw = .ok bytes) : bytes.length = size := by
  unfold generateRandomBytes at h
  cases draw with
  | none => simp at h
  | some rand =>
    simp only [Except.ok.injEq] at h
    rw [← h]; simp

theorem deriveKey_eq (O : OpenSSL) (password salt : List Byte) (iterations : Nat) :
    deriveKey O password salt iterations =
      match O.PKCS5_PBKDF2_HMAC password (wrapInt32 (password.length : Int)) salt
          (wrapInt32 (salt.length : Int)) iterations AES_KEY_SIZE with
      | none => .error "Key derivation failed"
      | some key => .ok key := rfl

theorem deriveKey_of_lt (O : OpenSSL) (password salt : List Byte) (iterations : Nat)
    (hp : password.length < 2 ^ 31) (hs : salt.length < 2 ^ 31) :
    deriveKey O password salt iterations =
      match O.PKCS5_PBKDF2_HMAC password (password.length : Int) salt (salt.length : Int)
          iterations AES_KEY_SIZE with
      | none => .error "Key derivation failed"
      | some key => .ok key := by
  rw [deriveKey_eq, wrapInt32_of_lt _ hp, wrapInt32_of_lt _ hs]

/-- Under the documented behaviour of the library, encrypting an input with
`length + 16 < 2 ^ 31` under a password shorter than `2 ^ 31` bytes succeeds, and decrypting
the result under the same password gives the input back. -/
theorem decrypt_encrypt (O : OpenSSL) (hO : Lawful O) (plaintext password : List Byte)
    (salt iv : Nat → Byte) (hlen : plaintext.length + AES_BLOCK_SIZE < 2 ^ 31)
    (hpw : password.length < 2 ^ 31) :
    ∃ blob, encrypt O plaintext password ⟨some salt, some iv⟩ = .ok blob ∧
      decrypt O blob password = .ok plaintext ∧
      blob.salt = (List.range SALT_SIZE).map salt ∧ blob.iv = (List.range AES_IV_SIZE).map iv ∧
      blob.ciphertext.length ≤ plaintext.length + AES_BLOCK_SIZE := by
  have hsl : ((List.range SALT_SIZE).map salt).length < 2 ^ 31 := by
    simp [SALT_SIZE]
  obtain ⟨key, hkey, hkl⟩ := hO.kdf password ((List.range SALT_SIZE).map salt) hpw hsl
  have hdk := deriveKey_of_lt O password ((List.range SALT_SIZE).map salt) PBKDF2_ITERATIONS
    hpw hsl
  rw [hkey] at hdk
  simp only at hdk
  have hivl : ((List.range AES_IV_SIZE).map iv).length = AES_IV_SIZE := by simp
  have hpl : plaintext.length < 2 ^ 31 := by omega
  obtain ⟨hei, hdi, out1, out2, he1, he2, hb, dec1, dec2, hd1, hd2, hdec⟩ :=
    hO.cipher key _ plaintext hkl hivl hpl
  have hdb := hO.decryptBound key _ _ dec1 dec2 hd1 hd2
  refine ⟨⟨(List.range SALT_SIZE).map salt, (List.range AES_IV_SIZE).map iv, out1 ++ out2⟩,
    ?_, ?_, rfl, rfl, ?_⟩
  · have hw := wrapInt32_of_lt (plaintext.length + AES_BLOCK_SIZE) hlen
    simp only [encrypt, generateRandomBytes, hdk, hei, he1, he2, Bool.not_true,
      Bool.false_eq_true, if_false, hw]
    clear hw
    rw [if_neg (by omega), if_neg (by omega)]
  · have hfit : ¬ (dec1.length + dec2.length > (out1 ++ out2).length + AES_BLOCK_SIZE) := by
      omega
    simp only [decrypt, hdk, hdi, hd1, hd2, Bool.not_true, Bool.false_eq_true,
      if_false, hfit, hdec]
  · simpa using hb

/-- For an input of `2 ^ 31 - 16` up to `2 ^ 32 - 17` bytes `max_len` is negative and
`encrypt` throws, whatever the library does. -/
theorem encrypt_error_of_large (O : OpenSSL) (plaintext password : List Byte) (rnd : Entropy)
    (h1 : 2 ^ 31 ≤ plaintext.length + AES_BLOCK_SIZE)
    (h2 : plaintext.length + AES_BLOCK_SIZE < 2 ^ 32) :
    ∃ e, encrypt O plaintext password rnd = .error e := by
  have hneg := wrapInt32_neg (plaintext.length + AES_BLOCK_SIZE) h1 h2
  unfold encrypt
  split
  · exact ⟨_, rfl⟩
  split
  · exact ⟨_, rfl⟩
  split
  · exact ⟨_, rfl⟩
  split
  · exact ⟨_, rfl⟩
  simp only [hneg, if_true]
  exact ⟨_, rfl⟩

theorem padKey_of_length (password : List Byte) (saltlen keylen : Nat) :
    padKey password (password.length : Int) (saltlen : Int) keylen =
      some ((password ++ List.replicate keylen 0).take keylen) := by
  unfold padKey
  rw [if_neg (by omega)]
  simp only
  rw [if_neg (by omega), Int.toNat_ofNat, List.take_length]

theorem toy_kdf (password : List Byte) (passlen : Int) (salt : List Byte) (saltlen : Int)
    (iter keylen : Nat) :
    toyOpenSSL.PKCS5_PBKDF2_HMAC password passlen salt saltlen iter keylen =
      padKey password passlen saltlen keylen := rfl

/-- The key derivation of the stand-in, as `deriveKey` calls it. -/
theorem toy_deriveKey (password salt : List Byte) (iterations : Nat)
    (hp : password.length < 2 ^ 31) (hs : salt.length < 2 ^ 31) :
    deriveKey toyOpenSSL password salt iterations =
      .ok ((password ++ List.replicate AES_KEY_SIZE 0).take AES_KEY_SIZE) := by
  rw [deriveKey_of_lt _ _ _ _ hp hs, toy_kdf, padKey_of_length]

theorem toy_encUpdate (key iv input : List Byte) :
    toyOpenSSL.EVP_EncryptUpdate key iv input = some input := rfl

theorem toy_encFinal (key iv input : List Byte) :
    toyOpenSSL.EVP_EncryptFinal_ex key iv input = some ((key ++ List.replicate 16 0).take 16) :=
  rfl

theorem toy_decUpdate (key iv input : List Byte) :
    toyOpenSSL.EVP_DecryptUpdate key iv input = some (input.take (input.length - 16)) := rfl

theorem toy_decFinal (key iv input : List Byte) :
    toyOpenSSL.EVP_DecryptFinal_ex key iv input =
      if 16 ≤ input.length ∧
        input.drop (input.length - 16) = (key ++ List.replicate 16 0).take 16
      then some [] else none := rfl

theorem wrapInt32_lt_neg_one (n : Nat) (h1 : 2 ^ 31 ≤ n) (h2 : n + 1 < 2 ^ 32) :
    wrapInt32 (n : Int) < -1 := by
  unfold wrapInt32
  omega

theorem padKey_refused (password : List Byte) (passlen saltlen : Int) (keylen : Nat)
    (h : passlen < -1) : padKey password passlen saltlen keylen = none := by
  unfold padKey
  rw [if_pos (Or.inl h)]

/-- A password of `2 ^ 31` up to `2 ^ 32 - 2` bytes reaches the library with a negative
`passlen`, which the stand-in refuses: `deriveKey` throws. -/
theorem toy_deriveKey_long (password salt : List Byte) (iterations : Nat)
    (h1 : 2 ^ 31 ≤ password.length) (h2 : password.length + 1 < 2 ^ 32) :
    deriveKey toyOpenSSL password salt iterations = .error "Key derivation failed" := by
  rw [deriveKey_eq, toy_kdf, padKey_refused _ _ _ _ (wrapInt32_lt_neg_one _ h1 h2)]

theorem encrypt_of_deriveKey_error (O : OpenSSL) (plaintext password : List Byte)
    (salt iv : Nat → Byte) (e : String)
    (h : deriveKey O password ((List.range SALT_SIZE).map salt) PBKDF2_ITERATIONS = .error e) :
    encrypt O plaintext password ⟨some salt, some iv⟩ = .error e := by
  unfold encrypt
  simp only [generateRandomBytes, h]

theorem toy_encrypt_long_password (plaintext password : List Byte) (salt iv : Nat → Byte)
    (h1 : 2 ^ 31 ≤ password.length) (h2 : password.length + 1 < 2 ^ 32) :
    encrypt toyOpenSSL plaintext password ⟨some salt, some iv⟩ =
      .error "Key derivation failed" :=
  encrypt_of_deriveKey_error _ _ _ _ _ _ (toy_deriveKey_long _ _ _ h1 h2)

theorem toyOpenSSL_lawful : Lawful toyOpenSSL where
  kdf := fun password salt _ _ =>
    ⟨_, (toy_kdf _ _ _ _ _ _).trans (padKey_of_length _ _ _), by simp [AES_KEY_SIZE]⟩
  cipher := by
    intro key iv input _ _ _
    have htag : ((key ++ List.replicate 16 (0 : Byte)).take 16).length = 16 := by simp
    refine ⟨rfl, rfl, input, (key ++ List.replicate 16 (0 : Byte)).take 16, toy_encUpdate _ _ _,
      toy_encFinal _ _ _, ?_, input, [], ?_, ?_, by simp⟩
    · rw [htag]; simp [AES_BLOCK_SIZE]
    · rw [toy_decUpdate, List.length_append, htag, Nat.add_sub_cancel, List.take_left' rfl]
    · rw [toy_decFinal, List.length_append, htag, Nat.add_sub_cancel, List.drop_left' rfl]
      simp
  decryptBound := by
    intro key iv input dec1 dec2 h1 h2
    rw [toy_decUpdate] at h1
    rw [toy_decFinal] at h2
    have e1 : dec1 = input.take (input.length - 16) := by simpa using h1.symm
    have e2 : dec2 = [] := by
      split at h2
      · simpa using h2.symm
      · simp at h2
    rw [e1, e2]
    simp
    omega

end Crypto

/-! ## The claims -/

namespace Crypto

open Vault

/-- C1 (codec round-trip). For every `EncryptedData` whose salt, iv and ciphertext are each
shorter than `2 ^ 32` bytes, `deserialize (serialize b)` succeeds and returns a value whose
salt, iv and ciphertext are those of `b`. -/
theorem codec_roundtrip (b : EncryptedData) (hs : b.salt.length < 2 ^ 32)
    (hi : b.iv.length < 2 ^ 32) (hc : b.ciphertext.length < 2 ^ 32) :
    ∃ r, deserialize (serialize b) = .ok r ∧ r.salt = b.salt ∧ r.iv = b.iv ∧
      r.ciphertext = b.ciphertext :=
  ⟨b, deserialize_serialize b hs hi hc, rfl, rfl, rfl⟩

theorem codec_roundtrip_witness :
    ([1, 2] : List Byte).length < 2 ^ 32 ∧ ([3] : List Byte).length < 2 ^ 32 ∧
      ([4, 5, 6] : List Byte).length < 2 ^ 32 ∧
      ∃ r, deserialize (serialize ⟨[1, 2], [3], [4, 5, 6]⟩) = .ok r ∧ r.salt = [1, 2] ∧
        r.iv = [3] ∧ r.ciphertext = [4, 5, 6] :=
  ⟨by decide, by decide, by decide,
    codec_roundtrip ⟨[1, 2], [3], [4, 5, 6]⟩ (by decide) (by decide) (by decide)⟩

/-- C2 (when `deserialize` fails). `deserialize` throws the format error exactly when the
input is shorter than 12 bytes or a length prefix, read in the order salt, iv, ciphertext,
runs past the end of the input (the prefix itself or the bytes it declares); on every other
input it succeeds. Twelve zero bytes give three empty fields, and a stream whose salt has
1 byte and whose iv has 2 bytes is accepted: no length is required to be 16. -/
theorem deserialize_fails_iff_truncated :
    (∀ data, deserialize data = .error formatError ↔ Truncated data) ∧
    (∀ data, (∃ r, deserialize data = .ok r) ↔ ¬ Truncated data) ∧
    deserialize (List.replicate 12 0) = .ok ⟨[], [], []⟩ ∧
    deserialize [1, 0, 0, 0, 7, 2, 0, 0, 0, 8, 9, 0, 0, 0, 0] = .ok ⟨[7], [8, 9], []⟩ := by
  refine ⟨fun data => ?_, fun data => ?_, by decide, by decide⟩
  · rw [deserialize_eq]
    by_cases h : Truncated data <;> simp [h]
  · rw [deserialize_eq]
    by_cases h : Truncated data <;> simp [h]

/-- C3 (wire format). `serialize b` is `le32 |salt| ++ salt ++ le32 |iv| ++ iv ++
le32 |ciphertext| ++ ciphertext` with `le32` the 4-byte little-endian encoding; its length is
`12 + |salt| + |iv| + |ciphertext|`, and the blob with three empty fields serializes to
exactly 12 zero bytes. -/
theorem serialize_wire_format :
    (∀ b : EncryptedData, serialize b = le32 b.salt.length ++ b.salt ++ le32 b.iv.length ++
      b.iv ++ le32 b.ciphertext.length ++ b.ciphertext) ∧
    (∀ b : EncryptedData, (serialize b).length =
      12 + b.salt.length + b.iv.length + b.ciphertext.length) ∧
    serialize ⟨[], [], []⟩ = List.replicate 12 0 := by
  refine ⟨fun b => ?_, fun b => ?_, by decide⟩
  · rw [serialize_eq]; simp [List.append_assoc]
  · rw [serialize_eq]; simp [le32_length]; omega

end Crypto


namespace Crypto

open Vault

/-- C4, counterexample. A plaintext of `2 ^ 31 - 16` bytes makes the `int max_len` of
`encrypt` negative: `encrypt` throws, so the round trip does not succeed (here with the
stand-in library, which satisfies `Lawful`). And a password of `2 ^ 31` bytes reaches the key
derivation with the negative `int passlen` `-2 ^ 31`, which is refused: `encrypt` throws on a
three-byte plaintext. -/
theorem encrypt_roundtrip_fails_at_two_gib :
    Lawful toyOpenSSL ∧
      (¬ ∃ blob, encrypt toyOpenSSL (List.replicate 2147483632 0) []
          ⟨some (fun _ => 0), some (fun _ => 0)⟩ = .ok blob ∧
        decrypt toyOpenSSL blob [] = .ok (List.replicate 2147483632 0)) ∧
      encrypt toyOpenSSL [1, 2, 3] (List.replicate 2147483648 0)
        ⟨some (fun _ => 0), some (fun _ => 0)⟩ = .error "Key derivation failed" := by
  refine ⟨toyOpenSSL_lawful, ?_, ?_⟩
  · rintro ⟨blob, h, -⟩
    obtain ⟨e, he⟩ := encrypt_error_of_large toyOpenSSL (List.replicate 2147483632 0) []
      ⟨some (fun _ => 0), some (fun _ => 0)⟩
      (by rw [List.length_replicate]; decide) (by rw [List.length_replicate]; decide)
    rw [he] at h
    exact Except.noConfusion h
  · exact toy_encrypt_long_password [1, 2, 3] (List.replicate 2147483648 0) _ _
      (by rw [List.length_replicate]; decide) (by rw [List.length_replicate]; decide)

/-- C4, amended (encryption round-trip). With the library behaving as documented, for every
plaintext with `length + 16 < 2 ^ 31`, every password shorter than `2 ^ 31` bytes and every
salt and iv drawn, `decrypt (encrypt p pw) pw` succeeds and returns exactly `p`. -/
theorem decrypt_encrypt_roundtrip (O : OpenSSL) (hO : Lawful O) (plaintext password : List Byte)
    (salt iv : Nat → Byte) (hlen : plaintext.length + AES_BLOCK_SIZE < 2 ^ 31)
    (hpw : password.length < 2 ^ 31) :
    ∃ blob, encrypt O plaintext password ⟨some salt, some iv⟩ = .ok blob ∧
      decrypt O blob password = .ok plaintext := by
  obtain ⟨blob, h1, h2, -⟩ := decrypt_encrypt O hO plaintext password salt iv hlen hpw
  exact ⟨blob, h1, h2⟩

theorem decrypt_encrypt_roundtrip_witness :
    Lawful toyOpenSSL ∧ ([1, 2, 3] : List Byte).length + AES_BLOCK_SIZE < 2 ^ 31 ∧
      ([9] : List Byte).length < 2 ^ 31 ∧
      ∃ blob, encrypt toyOpenSSL [1, 2, 3] [9] ⟨some (fun _ => 5), some (fun _ => 6)⟩ = .ok blob ∧
        decrypt toyOpenSSL blob [9] = .ok [1, 2, 3] :=
  ⟨toyOpenSSL_lawful, by decide, by decide,
    decrypt_encrypt_roundtrip toyOpenSSL toyOpenSSL_lawful [1, 2, 3] [9] (fun _ => 5)
      (fun _ => 6) (by decide) (by decide)⟩

end Crypto

namespace Vault

open Crypto

theorem secureErase_eq (str : List Byte) : secureErase str = [] := by
  simp [secureErase]

/-- C7 (fail closed while locked). In a locked state `addCredential`, `removeCredential` and
`saveVault` return `false`, `getCredential` returns the empty `Credential`, `getServices`
returns the empty list, and the manager and the vault file are as before (the model returns
the same world; none of these members has a throwing path before the lock test). -/
theorem locked_operations_fail_closed (O : OpenSSL) (env : SaveEnv) (w : World)
    (service username password : List Byte) (hlocked : w.pm.isLocked = true) :
    addCredential O env w service username password = (w, false) ∧
      removeCredential O env w service = (w, false) ∧
      saveVault O env w = (w, false) ∧
      getCredential w.pm service = Credential.empty ∧
      getServices w.pm = [] := by
  simp [addCredential, removeCredential, saveVault, getCredential, getServices, hlocked]

theorem locked_operations_fail_closed_witness :
    (World.mk (PasswordManager.init (ascii "vault.dat")) (some [1, 2, 3])).pm.isLocked = true ∧
      (addCredential toyOpenSSL ⟨⟨none, none⟩, true, true, true, 0⟩
          (World.mk (PasswordManager.init (ascii "vault.dat")) (some [1, 2, 3]))
          (ascii "email") (ascii "alice") (ascii "p@ss") =
        (World.mk (PasswordManager.init (ascii "vault.dat")) (some [1, 2, 3]), false) ∧
      removeCredential toyOpenSSL ⟨⟨none, none⟩, true, true, true, 0⟩
          (World.mk (PasswordManager.init (ascii "vault.dat")) (some [1, 2, 3])) (ascii "email") =
        (World.mk (PasswordManager.init (ascii "vault.dat")) (some [1, 2, 3]), false) ∧
      saveVault toyOpenSSL ⟨⟨none, none⟩, true, true, true, 0⟩
          (World.mk (PasswordManager.init (ascii "vault.dat")) (some [1, 2, 3])) =
        (World.mk (PasswordManager.init (ascii "vault.dat")) (some [1, 2, 3]), false) ∧
      getCredential (World.mk (PasswordManager.init (ascii "vault.dat")) (some [1, 2, 3])).pm
          (ascii "email") = Credential.empty ∧
      getServices (World.mk (PasswordManager.init (ascii "vault.dat")) (some [1, 2, 3])).pm = []) :=
  ⟨rfl, locked_operations_fail_closed toyOpenSSL ⟨⟨none, none⟩, true, true, true, 0⟩
    (World.mk (PasswordManager.init (ascii "vault.dat")) (some [1, 2, 3]))
    (ascii "email") (ascii "alice") (ascii "p@ss") rfl⟩

/-- C8 (`lock` postcondition). From every state, after `lock` the vault is locked, the master
password is the empty string, the credential map is empty (`getCredentialCount` is 0),
`getServices` returns the empty list, and the vault file path, the stored auth blob and the
vault file are unchanged. -/
theorem lock_postcondition (w : World) :
    isVaultLocked (lock w).pm = true ∧ (lock w).pm.masterPassword = [] ∧
      (lock w).pm.credentials = [] ∧ getCredentialCount (lock w).pm = 0 ∧
      getServices (lock w).pm = [] ∧ (lock w).pm.vaultFilePath = w.pm.vaultFilePath ∧
      (lock w).pm.authData = w.pm.authData ∧ (lock w).file = w.file := by
  simp [lock, clearSensitiveData, secureErase_eq, isVaultLocked, getCredentialCount, getServices]

/-- C10 (`initializeVault` on an existing vault). When the vault file exists,
`initializeVault` returns `false` and the lock flag, master password, credential map, auth
blob and vault file are unchanged. -/
theorem initializeVault_rejected_when_vault_exists (O : OpenSSL) (authRnd : Entropy)
    (env : SaveEnv) (w : World) (password : List Byte) (hexists : vaultExists w = true) :
    initializeVault O authRnd env w password = (w, .ok false) := by
  simp [initializeVault, hexists]

theorem initializeVault_rejected_when_vault_exists_witness :
    vaultExists (World.mk (PasswordManager.init (ascii "vault.dat")) (some [])) = true ∧
      initializeVault toyOpenSSL ⟨some (fun _ => 1), some (fun _ => 2)⟩
          ⟨⟨some (fun _ => 3), some (fun _ => 4)⟩, true, true, true, 0⟩
          (World.mk (PasswordManager.init (ascii "vault.dat")) (some [])) (ascii "pw") =
        (World.mk (PasswordManager.init (ascii "vault.dat")) (some []), .ok false) :=
  ⟨rfl, initializeVault_rejected_when_vault_exists toyOpenSSL _ _ _ _ rfl⟩

end Vault


namespace Vault

theorem any_eq_decide (cls : Byte → Bool) (P : Byte → Prop) [DecidablePred P]
    (h : ∀ c, cls c = true ↔ P c) (l : List Byte) : l.any cls = decide (∃ c ∈ l, P c) := by
  rw [Bool.eq_iff_iff]
  simp only [List.any_eq_true, decide_eq_true_eq]
  constructor
  · rintro ⟨c, hc, h1⟩; exact ⟨c, hc, (h c).1 h1⟩
  · rintro ⟨c, hc, h1⟩; exact ⟨c, hc, (h c).2 h1⟩

theorem validatePasswordStrength_eq (password : List Byte) :
    validatePasswordStrength password =
      (rubricScore password,
        band (rubricScore password) ++ ascii ": " ++
          (if unmetFeedback password = [] then ascii "Good password!"
            else unmetFeedback password)) := by
  have hl : regexSearchClass islower password = decide (hasLower password) :=
    any_eq_decide _ _ (fun c => by simp [islower]) password
  have hu : regexSearchClass isupper password = decide (hasUpper password) :=
    any_eq_decide _ _ (fun c => by simp [isupper]) password
  have hd : regexSearchClass isdigit password = decide (hasDigit password) :=
    any_eq_decide _ _ (fun c => by simp [isdigit]) password
  have hs : regexSearchClass (fun c => !(islower c || isupper c || isdigit c)) password =
      decide (hasSymbol password) :=
    any_eq_decide _ _ (fun c => by simp [islower, isupper, isdigit]; omega) password
  unfold validatePasswordStrength rubricScore unmetFeedback
  rw [hl, hu, hd, hs]
  by_cases h8 : password.length ≥ 8 <;> by_cases h12 : password.length ≥ 12 <;>
    by_cases h1 : hasLower password <;> by_cases h2 : hasUpper password <;>
    by_cases h3 : hasDigit password <;> by_cases h4 : hasSymbol password <;>
    simp only [h8, h12, h1, h2, h3, h4, if_true, if_false, decide_True, decide_False] <;>
    decide

end Vault

namespace Vault

theorem rubricScore_bounds (password : List Byte) :
    0 ≤ rubricScore password ∧ rubricScore password ≤ 100 := by
  unfold rubricScore
  split_ifs <;> omega

/-- C18 (strength score). The score of `validatePasswordStrength` is the additive rubric
(20 for length ≥ 8, 10 for length ≥ 12, 15 each for a lower-case letter, an upper-case letter
and a digit, 25 for a character outside `a-zA-Z0-9`), so it lies in `0..100`; the message
begins with the band of that score followed by `": "`; the empty password scores 0, below
40, and `"Aa1!aaaaaaaa"` scores at least 70. -/
theorem strength_score_rubric :
    (∀ password : List Byte,
      (validatePasswordStrength password).1 = rubricScore password ∧
      0 ≤ (validatePasswordStrength password).1 ∧ (validatePasswordStrength password).1 ≤ 100 ∧
      ∃ feedback, (validatePasswordStrength password).2 =
        band (validatePasswordStrength password).1 ++ ascii ": " ++ feedback) ∧
    (validatePasswordStrength []).1 = 0 ∧ (validatePasswordStrength []).1 < 40 ∧
    (validatePasswordStrength (ascii "Aa1!aaaaaaaa")).1 ≥ 70 := by
  refine ⟨fun password => ?_, by decide, by decide, by decide⟩
  rw [validatePasswordStrength_eq]
  exact ⟨rfl, (rubricScore_bounds password).1, (rubricScore_bounds password).2, _, rfl⟩

/-- C19, counterexample. `"Aa1!aaaa"` has 8 characters, so it does not meet the length ≥ 12
criterion, yet its feedback is `"Good password!"`: that criterion has no sentence. -/
theorem feedback_good_below_twelve :
    (ascii "Aa1!aaaa").length < 12 ∧
      validatePasswordStrength (ascii "Aa1!aaaa") = (90, ascii "Very Strong: Good password!") := by
  decide

/-- C19, amended (strength feedback). After the band and `": "`, the message holds the
sentence of every unmet criterion among length ≥ 8, lower case, upper case, digit and symbol
(the length ≥ 12 criterion has no sentence), and it is `"Good password!"` exactly when none of
these five is unmet. -/
theorem strength_feedback_names_unmet (password : List Byte) :
    ∃ feedback, (validatePasswordStrength password).2 =
        band (validatePasswordStrength password).1 ++ ascii ": " ++ feedback ∧
      (password.length ≥ 8 ∨ ascii "Use at least 8 characters. " <:+: feedback) ∧
      (hasLower password ∨ ascii "Add lowercase letters. " <:+: feedback) ∧
      (hasUpper password ∨ ascii "Add uppercase letters. " <:+: feedback) ∧
      (hasDigit password ∨ ascii "Add numbers. " <:+: feedback) ∧
      (hasSymbol password ∨ ascii "Add special characters. " <:+: feedback) ∧
      (feedback = ascii "Good password!" ↔
        (password.length ≥ 8 ∧ hasLower password ∧ hasUpper password ∧ hasDigit password ∧
          hasSymbol password)) := by
  rw [validatePasswordStrength_eq]
  refine ⟨_, rfl, ?_⟩
  unfold unmetFeedback
  by_cases h8 : password.length ≥ 8 <;> by_cases h1 : hasLower password <;>
    by_cases h2 : hasUpper password <;> by_cases h3 : hasDigit password <;>
    by_cases h4 : hasSymbol password <;>
    simp only [h8, h1, h2, h3, h4, if_true, if_false, true_or, false_or, true_and, and_true,
      and_false, false_and, iff_true, iff_false] <;>
    decide

end Vault


/-! ## Lemmas: string order and the map -/

namespace Vault

theorem strLt_irrefl (a : List Byte) : strLt a a = false := by
  induction a with
  | nil => rfl
  | cons x xs ih => simp [strLt, ih]

theorem strLt_asymm : ∀ a b : List Byte, strLt a b = true → strLt b a = false
  | [], [], h => by simp [strLt] at h
  | [], _ :: _, _ => by simp [strLt]
  | _ :: _, [], h => by simp [strLt] at h
  | x :: xs, y :: ys, h => by
    simp only [strLt] at h ⊢
    by_cases h1 : x < y
    · have : ¬ y < x := lt_asymm h1
      simp [h1, this]
    · by_cases h2 : y < x
      · simp [h1, h2] at h
      · simp only [h1, h2, if_false] at h ⊢
        exact strLt_asymm xs ys h

theorem strLt_trans : ∀ a b c : List Byte, strLt a b = true → strLt b c = true →
    strLt a c = true
  | [], [], _, h, _ => by simp [strLt] at h
  | [], _ :: _, [], _, h => by simp [strLt] at h
  | [], _ :: _, _ :: _, _, _ => by simp [strLt]
  | _ :: _, [], _, h, _ => by simp [strLt] at h
  | _ :: _, _ :: _, [], _, h => by simp [strLt] at h
  | x :: xs, y :: ys, z :: zs, h1, h2 => by
    simp only [strLt] at h1 h2 ⊢
    by_cases hxy : x < y
    · by_cases hyz : y < z
      · have : x < z := lt_trans hxy hyz
        simp [this]
      · by_cases hzy : z < y
        · simp [hyz, hzy] at h2
        · have e : y = z := le_antisymm (not_lt.mp hzy) (not_lt.mp hyz)
          have : x < z := e ▸ hxy
          simp [this]
    · by_cases hyx : y < x
      · simp [hxy, hyx] at h1
      · simp only [hxy, hyx, if_false] at h1
        have exy : x = y := le_antisymm (not_lt.mp hyx) (not_lt.mp hxy)
        by_cases hyz : y < z
        · have : x < z := exy ▸ hyz
          simp [this]
        · by_cases hzy : z < y
          · simp [hyz, hzy] at h2
          · simp only [hyz, hzy, if_false] at h2
            have e1 : ¬ x < z := exy ▸ hyz
            have e2 : ¬ z < x := exy ▸ hzy
            simp only [e1, e2, if_false]
            exact strLt_trans xs ys zs h1 h2

theorem strLt_total : ∀ a b : List Byte, strLt a b = false → strLt b a = false → a = b
  | [], [], _, _ => rfl
  | [], _ :: _, h, _ => by simp [strLt] at h
  | _ :: _, [], _, h => by simp [strLt] at h
  | x :: xs, y :: ys, h1, h2 => by
    simp only [strLt] at h1 h2
    by_cases hxy : x < y
    · simp [hxy] at h1
    · by_cases hyx : y < x
      · simp [hyx] at h2
      · simp only [hxy, hyx, if_false] at h1 h2
        have : x = y := le_antisymm (not_lt.mp hyx) (not_lt.mp hxy)
        rw [this, strLt_total xs ys h1 h2]

/-- Two keys are equivalent for the map exactly when they are equal. -/
theorem equiv_iff_eq (a b : List Byte) : (!strLt a b && !strLt b a) = true ↔ a = b := by
  constructor
  · intro h
    simp only [Bool.and_eq_true, Bool.not_eq_true'] at h
    exact strLt_total a b h.1 h.2
  · rintro rfl
    simp [strLt_irrefl]

end Vault

namespace Vault

theorem mapAssign_cons_lt (k0 k : List Byte) (v0 v : Credential) (rest : CredMap)
    (h : strLt k k0 = true) : mapAssign ((k0, v0) :: rest) k v = (k, v) :: (k0, v0) :: rest := by
  simp [mapAssign, h]

theorem mapAssign_cons_gt (k0 k : List Byte) (v0 v : Credential) (rest : CredMap)
    (h1 : strLt k k0 = false) (h2 : strLt k0 k = true) :
    mapAssign ((k0, v0) :: rest) k v = (k0, v0) :: mapAssign rest k v := by
  simp [mapAssign, h1, h2]

theorem mapAssign_cons_eq (k0 k : List Byte) (v0 v : Credential) (rest : CredMap)
    (h1 : strLt k k0 = false) (h2 : strLt k0 k = false) :
    mapAssign ((k0, v0) :: rest) k v = (k0, v) :: rest := by
  simp [mapAssign, h1, h2]

theorem mapFind_cons (k0 k : List Byte) (v0 : Credential) (rest : CredMap) :
    mapFind ((k0, v0) :: rest) k = if k = k0 then some v0 else mapFind rest k := by
  by_cases h : k = k0
  · subst h
    simp [mapFind, strLt_irrefl]
  · have : (!strLt k k0 && !strLt k0 k) = false := by
      rw [Bool.eq_false_iff]
      exact fun hc => h ((equiv_iff_eq k k0).1 hc)
    simp only [mapFind, this, h, if_false, Bool.false_eq_true]

theorem mapErase_cons (k0 k : List Byte) (v0 : Credential) (rest : CredMap) :
    mapErase ((k0, v0) :: rest) k = if k = k0 then rest else (k0, v0) :: mapErase rest k := by
  by_cases h : k = k0
  · subst h
    simp [mapErase, strLt_irrefl]
  · have : (!strLt k k0 && !strLt k0 k) = false := by
      rw [Bool.eq_false_iff]
      exact fun hc => h ((equiv_iff_eq k k0).1 hc)
    simp only [mapErase, this, h, if_false, Bool.false_eq_true]

theorem ne_of_strLt {a b : List Byte} (h : strLt a b = true) : a ≠ b := by
  rintro rfl
  rw [strLt_irrefl] at h
  exact Bool.noConfusion h

theorem mapFind_mapAssign_self (m : CredMap) (k : List Byte) (v : Credential) :
    mapFind (mapAssign m k v) k = some v := by
  induction m with
  | nil => simp [mapAssign, mapFind_cons]
  | cons p rest ih =>
    obtain ⟨k0, v0⟩ := p
    cases h1 : strLt k k0 with
    | true => rw [mapAssign_cons_lt _ _ _ _ _ h1, mapFind_cons, if_pos rfl]
    | false =>
      cases h2 : strLt k0 k with
      | true =>
        rw [mapAssign_cons_gt _ _ _ _ _ h1 h2, mapFind_cons, if_neg (ne_of_strLt h2).symm, ih]
      | false =>
        rw [mapAssign_cons_eq _ _ _ _ _ h1 h2, mapFind_cons, if_pos (strLt_total _ _ h1 h2)]

theorem mapFind_mapAssign_ne (m : CredMap) (k k' : List Byte) (v : Credential) (h : k' ≠ k) :
    mapFind (mapAssign m k v) k' = mapFind m k' := by
  induction m with
  | nil =>
    show mapFind [(k, v)] k' = mapFind [] k'
    rw [mapFind_cons, if_neg h]
  | cons p rest ih =>
    obtain ⟨k0, v0⟩ := p
    cases h1 : strLt k k0 with
    | true => rw [mapAssign_cons_lt _ _ _ _ _ h1, mapFind_cons, if_neg h]
    | false =>
      cases h2 : strLt k0 k with
      | true => rw [mapAssign_cons_gt _ _ _ _ _ h1 h2, mapFind_cons, mapFind_cons, ih]
      | false =>
        have e : k = k0 := strLt_total _ _ h1 h2
        subst e
        rw [mapAssign_cons_eq _ _ _ _ _ h1 h2, mapFind_cons, mapFind_cons, if_neg h, if_neg h]

theorem mapKeys_cons (k0 : List Byte) (v0 : Credential) (rest : CredMap) :
    mapKeys ((k0, v0) :: rest) = k0 :: mapKeys rest := rfl

theorem mem_mapKeys_mapAssign (m : CredMap) (k s : List Byte) (v : Credential) :
    s ∈ mapKeys (mapAssign m k v) ↔ s = k ∨ s ∈ mapKeys m := by
  induction m with
  | nil => simp [mapAssign, mapKeys]
  | cons p rest ih =>
    obtain ⟨k0, v0⟩ := p
    cases h1 : strLt k k0 with
    | true => rw [mapAssign_cons_lt _ _ _ _ _ h1, mapKeys_cons, List.mem_cons]
    | false =>
      cases h2 : strLt k0 k with
      | true =>
        rw [mapAssign_cons_gt _ _ _ _ _ h1 h2, mapKeys_cons, mapKeys_cons, List.mem_cons,
          List.mem_cons, ih]
        tauto
      | false =>
        have e : k = k0 := strLt_total _ _ h1 h2
        subst e
        rw [mapAssign_cons_eq _ _ _ _ _ h1 h2, mapKeys_cons, mapKeys_cons, List.mem_cons]
        tauto

theorem MapOk_cons (k0 : List Byte) (v0 : Credential) (rest : CredMap) :
    MapOk ((k0, v0) :: rest) ↔ (∀ s ∈ mapKeys rest, strLt k0 s = true) ∧ MapOk rest := by
  simp [MapOk, mapKeys, List.pairwise_cons]

theorem MapOk_mapAssign (m : CredMap) (k : List Byte) (v : Credential) (hm : MapOk m) :
    MapOk (mapAssign m k v) := by
  induction m with
  | nil => simp [mapAssign, MapOk, mapKeys]
  | cons p rest ih =>
    obtain ⟨k0, v0⟩ := p
    obtain ⟨hhead, hrest⟩ := (MapOk_cons k0 v0 rest).1 hm
    cases h1 : strLt k k0 with
    | true =>
      rw [mapAssign_cons_lt _ _ _ _ _ h1, MapOk_cons]
      refine ⟨?_, hm⟩
      intro s hs
      rw [mapKeys_cons, List.mem_cons] at hs
      rcases hs with rfl | hs
      · exact h1
      · exact strLt_trans _ _ _ h1 (hhead s hs)
    | false =>
      cases h2 : strLt k0 k with
      | true =>
        rw [mapAssign_cons_gt _ _ _ _ _ h1 h2, MapOk_cons]
        refine ⟨?_, ih hrest⟩
        intro s hs
        rcases (mem_mapKeys_mapAssign rest k s v).1 hs with rfl | hs
        · exact h2
        · exact hhead s hs
      | false =>
        rw [mapAssign_cons_eq _ _ _ _ _ h1 h2, MapOk_cons]
        exact ⟨hhead, hrest⟩

theorem length_mapAssign (m : CredMap) (k : List Byte) (v : Credential) (hm : MapOk m) :
    (mapAssign m k v).length = if k ∈ mapKeys m then m.length else m.length + 1 := by
  induction m with
  | nil => simp [mapAssign, mapKeys]
  | cons p rest ih =>
    obtain ⟨k0, v0⟩ := p
    obtain ⟨hhead, hrest⟩ := (MapOk_cons k0 v0 rest).1 hm
    cases h1 : strLt k k0 with
    | true =>
      have hnot : k ∉ mapKeys ((k0, v0) :: rest) := by
        rw [mapKeys_cons, List.mem_cons, not_or]
        exact ⟨ne_of_strLt h1, fun hk => ne_of_strLt (strLt_trans _ _ _ h1 (hhead k hk)) rfl⟩
      rw [mapAssign_cons_lt _ _ _ _ _ h1, if_neg hnot]
      rfl
    | false =>
      cases h2 : strLt k0 k with
      | true =>
        rw [mapAssign_cons_gt _ _ _ _ _ h1 h2, List.length_cons, ih hrest, mapKeys_cons]
        by_cases hk : k ∈ mapKeys rest
        · rw [if_pos hk, if_pos (List.mem_cons_of_mem _ hk)]
          rfl
        · have hnot : k ∉ k0 :: mapKeys rest := by
            rw [List.mem_cons, not_or]
            exact ⟨(ne_of_strLt h2).symm, hk⟩
          rw [if_neg hk, if_neg hnot]
          rfl
      | false =>
        have e : k = k0 := strLt_total _ _ h1 h2
        subst e
        rw [mapAssign_cons_eq _ _ _ _ _ h1 h2, mapKeys_cons, if_pos (List.mem_cons_self _ _)]
        rfl

theorem mapFind_eq_none_iff (m : CredMap) (k : List Byte) :
    mapFind m k = none ↔ k ∉ mapKeys m := by
  induction m with
  | nil => simp [mapFind, mapKeys]
  | cons p rest ih =>
    obtain ⟨k0, v0⟩ := p
    rw [mapFind_cons, mapKeys_cons, List.mem_cons, not_or]
    by_cases h : k = k0
    · simp [h]
    · rw [if_neg h, ih]
      exact ⟨fun hk => ⟨h, hk⟩, fun hk => hk.2⟩

theorem mapFind_mapErase_ne (m : CredMap) (k k' : List Byte) (h : k' ≠ k) :
    mapFind (mapErase m k) k' = mapFind m k' := by
  induction m with
  | nil => simp [mapErase]
  | cons p rest ih =>
    obtain ⟨k0, v0⟩ := p
    rw [mapErase_cons]
    by_cases he : k = k0
    · subst he
      rw [if_pos rfl, mapFind_cons, if_neg h]
    · rw [if_neg he, mapFind_cons, mapFind_cons, ih]

theorem mapFind_mapErase_self (m : CredMap) (k : List Byte) (hm : MapOk m) :
    mapFind (mapErase m k) k = none := by
  induction m with
  | nil => simp [mapErase, mapFind]
  | cons p rest ih =>
    obtain ⟨k0, v0⟩ := p
    obtain ⟨hhead, hrest⟩ := (MapOk_cons k0 v0 rest).1 hm
    rw [mapErase_cons]
    by_cases he : k = k0
    · subst he
      rw [if_pos rfl, mapFind_eq_none_iff]
      exact fun hk => ne_of_strLt (hhead k hk) rfl
    · rw [if_neg he, mapFind_cons, if_neg he, ih hrest]

theorem saveVault_pm (O : Crypto.OpenSSL) (env : SaveEnv) (w : World) :
    (saveVault O env w).1.pm = w.pm := by
  unfold saveVault
  split
  · rfl
  · simp only
    split
    · rfl
    · split
      · rfl
      · split <;> rfl

end Vault


namespace Vault

open Crypto

theorem insertSorted_of_lt (s : List Byte) (l : List (List Byte))
    (h : ∀ t ∈ l, strLt s t = true) : insertSorted s l = s :: l := by
  cases l with
  | nil => rfl
  | cons t ts =>
    have := strLt_asymm s t (h t (List.mem_cons_self _ _))
    simp [insertSorted, this]

theorem stdSort_of_sorted (l : List (List Byte))
    (h : l.Pairwise (fun a b => strLt a b = true)) : stdSort l = l := by
  induction l with
  | nil => rfl
  | cons s ss ih =>
    rw [List.pairwise_cons] at h
    rw [stdSort, ih h.2, insertSorted_of_lt s ss h.1]

theorem sorted_ext : ∀ l1 l2 : List (List Byte),
    l1.Pairwise (fun a b => strLt a b = true) → l2.Pairwise (fun a b => strLt a b = true) →
    (∀ s, s ∈ l1 ↔ s ∈ l2) → l1 = l2
  | [], [], _, _, _ => rfl
  | [], b :: u, _, _, h => by
    have := (h b).2 (List.mem_cons_self _ _)
    simp at this
  | a :: t, [], _, _, h => by
    have := (h a).1 (List.mem_cons_self _ _)
    simp at this
  | a :: t, b :: u, h1, h2, h => by
    rw [List.pairwise_cons] at h1 h2
    have hab : a = b := by
      by_contra hne
      have ha : a ∈ u := by
        have := (h a).1 (List.mem_cons_self _ _)
        rw [List.mem_cons] at this
        exact this.resolve_left hne
      have hb : b ∈ t := by
        have := (h b).2 (List.mem_cons_self _ _)
        rw [List.mem_cons] at this
        exact this.resolve_left (fun e => hne e.symm)
      have := strLt_asymm _ _ (h2.1 a ha)
      rw [h1.1 b hb] at this
      exact Bool.noConfusion this
    subst hab
    have htu : t = u := by
      apply sorted_ext t u h1.2 h2.2
      intro s
      constructor
      · intro hs
        have := (h s).1 (List.mem_cons_of_mem _ hs)
        rw [List.mem_cons] at this
        exact this.resolve_left (ne_of_strLt (h1.1 s hs)).symm
      · intro hs
        have := (h s).2 (List.mem_cons_of_mem _ hs)
        rw [List.mem_cons] at this
        exact this.resolve_left (ne_of_strLt (h2.1 s hs)).symm
    rw [htu]

theorem insertAll_aux (records : List Credential) (m : CredMap) (hm : MapOk m) :
    MapOk (records.foldl (fun m cred => mapAssign m cred.service cred) m) ∧
      ∀ s, s ∈ mapKeys (records.foldl (fun m cred => mapAssign m cred.service cred) m) ↔
        (s ∈ mapKeys m ∨ ∃ c ∈ records, c.service = s) := by
  induction records generalizing m with
  | nil => simp [hm]
  | cons c cs ih =>
    have h1 := ih (mapAssign m c.service c) (MapOk_mapAssign m c.service c hm)
    refine ⟨h1.1, fun s => ?_⟩
    rw [List.foldl_cons, h1.2 s, mem_mapKeys_mapAssign]
    constructor
    · rintro ((rfl | h) | ⟨d, hd, rfl⟩)
      · exact Or.inr ⟨c, List.mem_cons_self _ _, rfl⟩
      · exact Or.inl h
      · exact Or.inr ⟨d, List.mem_cons_of_mem _ hd, rfl⟩
    · rintro (h | ⟨d, hd, rfl⟩)
      · exact Or.inl (Or.inr h)
      · rw [List.mem_cons] at hd
        rcases hd with rfl | hd
        · exact Or.inl (Or.inl rfl)
        · exact Or.inr ⟨d, hd, rfl⟩

theorem MapOk_insertAll (records : List Credential) : MapOk (insertAll records) :=
  (insertAll_aux records [] (by simp [MapOk, mapKeys])).1

theorem mem_mapKeys_insertAll (records : List Credential) (s : List Byte) :
    s ∈ mapKeys (insertAll records) ↔ ∃ c ∈ records, c.service = s := by
  have := (insertAll_aux records [] (by simp [MapOk, mapKeys])).2 s
  simpa [mapKeys, insertAll] using this

theorem getServices_unlocked (pm : PasswordManager) (h : pm.isLocked = false)
    (hm : MapOk pm.credentials) : getServices pm = mapKeys pm.credentials := by
  simp only [getServices, h, Bool.false_eq_true, if_false]
  exact stdSort_of_sorted _ hm

theorem getCredential_unlocked (pm : PasswordManager) (h : pm.isLocked = false)
    (s : List Byte) :
    getCredential pm s = (mapFind pm.credentials s).getD Credential.empty := by
  simp only [getCredential, h, Bool.false_eq_true, if_false]
  cases mapFind pm.credentials s <;> rfl

end Vault

namespace Vault

open Crypto

theorem getCredential_with (pm : PasswordManager) (m : CredMap) (h : pm.isLocked = false)
    (s : List Byte) :
    getCredential { pm with credentials := m } s = (mapFind m s).getD Credential.empty :=
  getCredential_unlocked { pm with credentials := m } h s

theorem addCredential_pm (O : OpenSSL) (env : SaveEnv) (w : World)
    (service username password : List Byte) (h : w.pm.isLocked = false) :
    (addCredential O env w service username password).1.pm =
      { w.pm with
        credentials := mapAssign w.pm.credentials service ⟨service, username, password⟩ } := by
  simp only [addCredential, h, Bool.false_eq_true, if_false]
  rw [saveVault_pm]

/-- C11 (upsert). In an unlocked state, after `addCredential service username password`,
`getCredential service` returns exactly `(service, username, password)`, `getCredential s`
is unchanged for every other `s`, and the credential count grows by one if `service` was
absent and is unchanged if it was present. -/
theorem addCredential_upsert (O : OpenSSL) (env : SaveEnv) (w : World)
    (service username password : List Byte) (hunlocked : w.pm.isLocked = false)
    (hmap : MapOk w.pm.credentials) :
    getCredential (addCredential O env w service username password).1.pm service =
        { service := service, username := username, password := password } ∧
      (∀ s, s ≠ service →
        getCredential (addCredential O env w service username password).1.pm s =
          getCredential w.pm s) ∧
      getCredentialCount (addCredential O env w service username password).1.pm =
        (if service ∈ mapKeys w.pm.credentials then getCredentialCount w.pm
          else getCredentialCount w.pm + 1) := by
  rw [addCredential_pm O env w service username password hunlocked]
  refine ⟨?_, fun s hs => ?_, ?_⟩
  · rw [getCredential_with _ _ hunlocked]
    simp only [mapFind_mapAssign_self, Option.getD_some]
  · rw [getCredential_with _ _ hunlocked, getCredential_unlocked w.pm hunlocked]
    simp only [mapFind_mapAssign_ne _ _ _ _ hs]
  · simp only [getCredentialCount]
    exact length_mapAssign _ _ _ hmap

theorem addCredential_upsert_witness :
    (World.mk ⟨ascii "vault.dat", ascii "pw",
        [(ascii "bank", ⟨ascii "bank", ascii "bob", ascii "old"⟩)], false, ⟨[], [], []⟩⟩
      none).pm.isLocked = false ∧
    MapOk (World.mk ⟨ascii "vault.dat", ascii "pw",
        [(ascii "bank", ⟨ascii "bank", ascii "bob", ascii "old"⟩)], false, ⟨[], [], []⟩⟩
      none).pm.credentials ∧
    getCredential (addCredential toyOpenSSL ⟨⟨some (fun _ => 1), some (fun _ => 2)⟩, true, true, true, 0⟩
        (World.mk ⟨ascii "vault.dat", ascii "pw",
          [(ascii "bank", ⟨ascii "bank", ascii "bob", ascii "old"⟩)], false, ⟨[], [], []⟩⟩ none)
        (ascii "bank") (ascii "bob") (ascii "new")).1.pm (ascii "bank") =
      { service := ascii "bank", username := ascii "bob", password := ascii "new" } :=
  ⟨rfl, by simp [MapOk, mapKeys],
    (addCredential_upsert toyOpenSSL ⟨⟨some (fun _ => 1), some (fun _ => 2)⟩, true, true, true, 0⟩
      (World.mk ⟨ascii "vault.dat", ascii "pw",
        [(ascii "bank", ⟨ascii "bank", ascii "bob", ascii "old"⟩)], false, ⟨[], [], []⟩⟩ none)
      (ascii "bank") (ascii "bob") (ascii "new") rfl (by simp [MapOk, mapKeys])).1⟩

/-- C12 (remove). In an unlocked state, `removeCredential s` returns `false` and leaves the
store and the vault file unchanged when `s` is absent; when `s` is present the record of `s`
is erased and the store saved: the call returns what `saveVault` returns (`true` when the save
succeeds), `getCredential s` then returns the empty `Credential`, and `getCredential` of every
other service is unchanged. -/
theorem removeCredential_spec (O : OpenSSL) (env : SaveEnv) (w : World) (s : List Byte)
    (hunlocked : w.pm.isLocked = false) (hmap : MapOk w.pm.credentials) :
    (s ∉ mapKeys w.pm.credentials → removeCredential O env w s = (w, false)) ∧
      (s ∈ mapKeys w.pm.credentials →
        removeCredential O env w s =
          saveVault O env { w with pm := { w.pm with credentials := mapErase w.pm.credentials s } } ∧
        getCredential (removeCredential O env w s).1.pm s = Credential.empty ∧
        ∀ s', s' ≠ s →
          getCredential (removeCredential O env w s).1.pm s' = getCredential w.pm s') := by
  constructor
  · intro habsent
    have := (mapFind_eq_none_iff w.pm.credentials s).2 habsent
    simp [removeCredential, hunlocked, this]
  · intro hpresent
    have hsome : ∃ c, mapFind w.pm.credentials s = some c := by
      cases hf : mapFind w.pm.credentials s with
      | none => exact absurd hpresent ((mapFind_eq_none_iff _ _).1 hf)
      | some c => exact ⟨c, rfl⟩
    obtain ⟨c, hc⟩ := hsome
    have heq : removeCredential O env w s =
        saveVault O env { w with pm := { w.pm with credentials := mapErase w.pm.credentials s } } := by
      simp [removeCredential, hunlocked, hc]
    refine ⟨heq, ?_, fun s' hs' => ?_⟩
    · rw [heq, saveVault_pm, getCredential_with _ _ hunlocked]
      simp only [mapFind_mapErase_self _ _ hmap, Option.getD_none]
    · rw [heq, saveVault_pm, getCredential_with _ _ hunlocked,
        getCredential_unlocked w.pm hunlocked]
      simp only [mapFind_mapErase_ne _ _ _ hs']

theorem removeCredential_spec_witness :
    (World.mk ⟨ascii "vault.dat", ascii "pw",
        [(ascii "bank", ⟨ascii "bank", ascii "bob", ascii "old"⟩)], false, ⟨[], [], []⟩⟩
      none).pm.isLocked = false ∧
    MapOk (World.mk ⟨ascii "vault.dat", ascii "pw",
        [(ascii "bank", ⟨ascii "bank", ascii "bob", ascii "old"⟩)], false, ⟨[], [], []⟩⟩
      none).pm.credentials ∧
    removeCredential toyOpenSSL ⟨⟨some (fun _ => 1), some (fun _ => 2)⟩, true, true, true, 0⟩
        (World.mk ⟨ascii "vault.dat", ascii "pw",
          [(ascii "bank", ⟨ascii "bank", ascii "bob", ascii "old"⟩)], false, ⟨[], [], []⟩⟩ none)
        (ascii "mail") =
      (World.mk ⟨ascii "vault.dat", ascii "pw",
          [(ascii "bank", ⟨ascii "bank", ascii "bob", ascii "old"⟩)], false, ⟨[], [], []⟩⟩ none,
        false) :=
  ⟨rfl, by simp [MapOk, mapKeys],
    (removeCredential_spec toyOpenSSL ⟨⟨some (fun _ => 1), some (fun _ => 2)⟩, true, true, true, 0⟩
      (World.mk ⟨ascii "vault.dat", ascii "pw",
        [(ascii "bank", ⟨ascii "bank", ascii "bob", ascii "old"⟩)], false, ⟨[], [], []⟩⟩ none)
      (ascii "mail") rfl (by simp [MapOk, mapKeys])).1 (by decide)⟩

/-- C13 (`getServices` is sorted). In an unlocked state `getServices` returns a list that is
strictly increasing in the byte-wise lexicographic order of `std::string` and whose elements
are exactly the keys of the credential map; hence two stores built from the same records in
different insertion orders give the same list. -/
theorem getServices_sorted_keys (pm : PasswordManager) (hunlocked : pm.isLocked = false)
    (hmap : MapOk pm.credentials) :
    (getServices pm).Pairwise (fun a b => strLt a b = true) ∧
      (∀ s, s ∈ getServices pm ↔ s ∈ mapKeys pm.credentials) ∧
      ∀ records1 records2 : List Credential, records1.Perm records2 →
        getServices { pm with credentials := insertAll records1 } =
          getServices { pm with credentials := insertAll records2 } := by
  refine ⟨?_, fun s => ?_, fun records1 records2 hperm => ?_⟩
  · rw [getServices_unlocked pm hunlocked hmap]
    exact hmap
  · rw [getServices_unlocked pm hunlocked hmap]
  · rw [getServices_unlocked { pm with credentials := insertAll records1 } hunlocked
        (MapOk_insertAll records1),
      getServices_unlocked { pm with credentials := insertAll records2 } hunlocked
        (MapOk_insertAll records2)]
    apply sorted_ext _ _ (MapOk_insertAll records1) (MapOk_insertAll records2)
    intro s
    simp only [mem_mapKeys_insertAll]
    constructor
    · rintro ⟨c, hc, rfl⟩
      exact ⟨c, hperm.mem_iff.1 hc, rfl⟩
    · rintro ⟨c, hc, rfl⟩
      exact ⟨c, hperm.mem_iff.2 hc, rfl⟩

theorem getServices_sorted_keys_witness :
    (PasswordManager.mk (ascii "vault.dat") (ascii "pw")
        (insertAll [⟨ascii "mail", ascii "a", ascii "b"⟩, ⟨ascii "bank", ascii "c", ascii "d"⟩])
        false ⟨[], [], []⟩).isLocked = false ∧
    MapOk (PasswordManager.mk (ascii "vault.dat") (ascii "pw")
        (insertAll [⟨ascii "mail", ascii "a", ascii "b"⟩, ⟨ascii "bank", ascii "c", ascii "d"⟩])
        false ⟨[], [], []⟩).credentials ∧
    (getServices (PasswordManager.mk (ascii "vault.dat") (ascii "pw")
        (insertAll [⟨ascii "mail", ascii "a", ascii "b"⟩, ⟨ascii "bank", ascii "c", ascii "d"⟩])
        false ⟨[], [], []⟩)).Pairwise (fun a b => strLt a b = true) :=
  ⟨rfl, MapOk_insertAll _,
    (getServices_sorted_keys (PasswordManager.mk (ascii "vault.dat") (ascii "pw")
        (insertAll [⟨ascii "mail", ascii "a", ascii "b"⟩, ⟨ascii "bank", ascii "c", ascii "d"⟩])
        false ⟨[], [], []⟩) rfl (MapOk_insertAll _)).1⟩

end Vault


/-! ## Lemmas: decimal text -/

namespace Vault

theorem digitsLE_lt (fuel n : Nat) : ∀ d ∈ digitsLE fuel n, d < 10 := by
  induction fuel generalizing n with
  | zero => simp [digitsLE]
  | succ f ih =>
    intro d hd
    unfold digitsLE at hd
    split at hd
    · simp only [List.mem_singleton] at hd
      omega
    · rw [List.mem_cons] at hd
      rcases hd with rfl | hd
      · omega
      · exact ih _ d hd

theorem digitsLE_value (fuel n : Nat) (h : n < fuel) :
    (digitsLE fuel n).foldr (fun d acc => d + 10 * acc) 0 = n := by
  induction fuel generalizing n with
  | zero => omega
  | succ f ih =>
    unfold digitsLE
    split
    · simp
    · rw [List.foldr_cons, ih (n / 10) (by omega)]
      omega

theorem digitsLE_ne_nil (fuel n : Nat) : digitsLE (fuel + 1) n ≠ [] := by
  unfold digitsLE
  split <;> simp

theorem digitChar_val (d : Nat) (h : d < 10) : (toByte (48 + d)).val = 48 + d := by
  show (48 + d) % 256 = 48 + d
  omega

theorem digitsValue_append (xs : List Byte) (c : Byte) :
    digitsValue (xs ++ [c]) = 10 * digitsValue xs + (c.val - 48) := by
  simp [digitsValue, List.foldl_append]

theorem digitsValue_render (l : List Nat) (h : ∀ d ∈ l, d < 10) :
    digitsValue ((l.reverse).map (fun d => toByte (48 + d))) =
      l.foldr (fun d acc => d + 10 * acc) 0 := by
  induction l with
  | nil => rfl
  | cons d t ih =>
    rw [List.reverse_cons, List.map_append, List.map_singleton, digitsValue_append,
      ih (fun x hx => h x (List.mem_cons_of_mem _ hx)), List.foldr_cons,
      digitChar_val d (h d (List.mem_cons_self _ _))]
    omega

theorem digitsValue_decimal (n : Nat) : digitsValue (decimal n) = n := by
  unfold decimal
  rw [digitsValue_render _ (digitsLE_lt _ _), digitsLE_value _ _ (Nat.lt_succ_self n)]

theorem decimal_ne_nil (n : Nat) : decimal n ≠ [] := by
  unfold decimal
  intro h
  rw [List.map_eq_nil_iff, List.reverse_eq_nil_iff] at h
  exact digitsLE_ne_nil n n h

theorem decimal_digit (n : Nat) : ∀ c ∈ decimal n, 48 ≤ c.val ∧ c.val ≤ 57 := by
  intro c hc
  unfold decimal at hc
  rw [List.mem_map] at hc
  obtain ⟨d, hd, rfl⟩ := hc
  rw [List.mem_reverse] at hd
  have := digitsLE_lt _ _ d hd
  rw [digitChar_val d this]
  omega

theorem decimal_isdigit (n : Nat) : ∀ c ∈ decimal n, isdigit c = true := by
  intro c hc
  have := decimal_digit n c hc
  simp [isdigit, this.1, this.2]

theorem decimal_not_newline (n : Nat) : newline ∉ decimal n := by
  intro h
  have := decimal_digit n newline h
  have hv : newline.val = 10 := rfl
  omega

end Vault

namespace Vault

theorem dropWhile_of_head {p : Byte → Bool} (c : Byte) (t : List Byte) (h : p c = false) :
    (c :: t).dropWhile p = c :: t := by
  simp [List.dropWhile, h]

theorem takeWhile_append_stop {p : Byte → Bool} (l : List Byte) (c : Byte) (rest : List Byte)
    (hl : ∀ x ∈ l, p x = true) (hc : p c = false) : (l ++ c :: rest).takeWhile p = l := by
  induction l with
  | nil => simp [List.takeWhile, hc]
  | cons x xs ih =>
    rw [List.cons_append, List.takeWhile_cons, hl x (List.mem_cons_self _ _), if_pos rfl,
      ih (fun y hy => hl y (List.mem_cons_of_mem _ hy))]

theorem dropWhile_append_stop {p : Byte → Bool} (l : List Byte) (c : Byte) (rest : List Byte)
    (hl : ∀ x ∈ l, p x = true) (hc : p c = false) :
    (l ++ c :: rest).dropWhile p = c :: rest := by
  induction l with
  | nil => simp [List.dropWhile, hc]
  | cons x xs ih =>
    rw [List.cons_append, List.dropWhile_cons, hl x (List.mem_cons_self _ _), if_pos rfl]
    exact ih (fun y hy => hl y (List.mem_cons_of_mem _ hy))

theorem takeWhile_all {p : Byte → Bool} (l : List Byte) (hl : ∀ x ∈ l, p x = true) :
    l.takeWhile p = l := by
  induction l with
  | nil => rfl
  | cons x xs ih =>
    rw [List.takeWhile_cons, hl x (List.mem_cons_self _ _), if_pos rfl,
      ih (fun y hy => hl y (List.mem_cons_of_mem _ hy))]

/-- `std::stoul` reads back what `operator<<` wrote for a `size_t`. -/
theorem stoul_decimal (n : Nat) (h : n < 2 ^ 64) : stoul (decimal n) = .ok n := by
  obtain ⟨c, t, hct⟩ := List.exists_cons_of_ne_nil (decimal_ne_nil n)
  have hc := decimal_digit n c (by rw [hct]; exact List.mem_cons_self _ _)
  have hsp : isspace c = false := by
    simp only [isspace, Bool.or_eq_false_iff, decide_eq_false_iff_not, Bool.and_eq_false_iff]
    omega
  have h45 : ¬ c.val = 45 := by omega
  have h43 : ¬ c.val = 43 := by omega
  have hall : (c :: t).takeWhile isdigit = c :: t := by
    rw [← hct]; exact takeWhile_all _ (decimal_isdigit n)
  unfold stoul
  rw [hct, dropWhile_of_head c t hsp]
  simp only [h45, h43, if_false, hall]
  rw [← hct, digitsValue_decimal]
  have hne : decimal n ≠ [] := decimal_ne_nil n
  have h64 : (2 : Nat) ^ 64 = 18446744073709551616 := by norm_num
  rw [h64] at h
  simp [hne, h]

end Vault

namespace Vault

theorem space_val : (ascii " ") = [(32 : Byte)] := by decide

theorem authLine_cons (b : Byte) (bs : List Byte) :
    authLine (b :: bs) = decimal b.val ++ (32 : Byte) :: authLine bs := by
  simp [authLine, List.flatMap_cons, space_val]

theorem toByteInt_val (b : Byte) : toByteInt (b.val : Int) = b := by
  apply Fin.ext
  have hb := b.isLt
  show ((b.val : Int) % 256).toNat % 256 = b.val
  omega

/-- One extraction reads back one byte value written in decimal and stops at the space. -/
theorem extractInt_decimal (b : Byte) (rest : List Byte) :
    extractInt (decimal b.val ++ (32 : Byte) :: rest) = some ((b.val : Int), (32 : Byte) :: rest) := by
  obtain ⟨c, t, hct⟩ := List.exists_cons_of_ne_nil (decimal_ne_nil b.val)
  have hc := decimal_digit b.val c (by rw [hct]; exact List.mem_cons_self _ _)
  have hsp : isspace c = false := by
    simp only [isspace, Bool.or_eq_false_iff, decide_eq_false_iff_not, Bool.and_eq_false_iff]
    omega
  have h45 : ¬ c.val = 45 := by omega
  have h43 : ¬ c.val = 43 := by omega
  have h32 : isdigit (32 : Byte) = false := by decide
  have htake : (c :: (t ++ (32 : Byte) :: rest)).takeWhile isdigit = decimal b.val := by
    rw [← List.cons_append, ← hct]
    exact takeWhile_append_stop _ _ _ (decimal_isdigit b.val) h32
  have hdrop : (c :: (t ++ (32 : Byte) :: rest)).dropWhile isdigit = (32 : Byte) :: rest := by
    rw [← List.cons_append, ← hct]
    exact dropWhile_append_stop _ _ _ (decimal_isdigit b.val) h32
  have hb := b.isLt
  unfold extractInt
  rw [hct, List.cons_append, dropWhile_of_head c _ hsp]
  simp only [h45, h43, if_false, htake, hdrop, digitsValue_decimal]
  have hne : decimal b.val ≠ [] := decimal_ne_nil b.val
  rw [if_neg hne, if_neg (by simp only [Bool.false_eq_true, if_false]; omega)]
  simp

theorem extractInt_space (s : List Byte) : extractInt ((32 : Byte) :: s) = extractInt s := by
  have h32 : isspace (32 : Byte) = true := by decide
  unfold extractInt
  rw [List.dropWhile_cons, h32, if_pos rfl]

theorem extractInt_nil : extractInt [] = none := by decide

theorem readIntsLoop_space (fuel : Nat) (s : List Byte) :
    readIntsLoop fuel ((32 : Byte) :: s) = readIntsLoop fuel s := by
  cases fuel with
  | zero => rfl
  | succ f => simp only [readIntsLoop, extractInt_space]

/-- The extraction loop reads back the bytes written by `serializeCredentials`. -/
theorem readIntsLoop_authLine (bytes : List Byte) (fuel : Nat) (h : bytes.length ≤ fuel) :
    readIntsLoop fuel (authLine bytes) = bytes := by
  induction bytes generalizing fuel with
  | nil =>
    cases fuel with
    | zero => rfl
    | succ f => simp [readIntsLoop, authLine, extractInt_nil]
  | cons b bs ih =>
    cases fuel with
    | zero => simp at h
    | succ f =>
      rw [authLine_cons, readIntsLoop, extractInt_decimal]
      simp only
      rw [readIntsLoop_space, ih f (by simpa using h), toByteInt_val]

theorem length_le_authLine (bytes : List Byte) : bytes.length ≤ (authLine bytes).length := by
  induction bytes with
  | nil => simp
  | cons b bs ih =>
    rw [authLine_cons]
    simp only [List.length_cons, List.length_append]
    omega

theorem readInts_authLine (bytes : List Byte) : readInts (authLine bytes) = bytes :=
  readIntsLoop_authLine bytes _ (length_le_authLine bytes)

theorem authLine_not_newline (bytes : List Byte) : newline ∉ authLine bytes := by
  induction bytes with
  | nil => simp [authLine]
  | cons b bs ih =>
    rw [authLine_cons, List.mem_append, List.mem_cons]
    rintro (h | h | h)
    · exact decimal_not_newline _ h
    · exact absurd h (by decide)
    · exact ih h

end Vault


/-! ## Lemmas: lines of the payload -/

namespace Vault

open Crypto

theorem ne_newline_iff (x : Byte) : x ≠ newline ↔ ¬ x.val = 10 := by
  constructor
  · intro h hv
    exact h (Fin.ext hv)
  · rintro h rfl
    exact h rfl

theorem splitLinesAux_line (l cur rest : List Byte) (hl : newline ∉ l) :
    splitLinesAux cur (l ++ newline :: rest) = (cur.reverse ++ l) :: splitLinesAux [] rest := by
  induction l generalizing cur with
  | nil =>
    have : (newline : Byte).val = 10 := rfl
    simp [splitLinesAux, this]
  | cons x xs ih =>
    have hx : ¬ x.val = 10 := (ne_newline_iff x).1 (fun e => hl (e ▸ List.mem_cons_self _ _))
    rw [List.cons_append, splitLinesAux, if_neg hx,
      ih (x :: cur) (fun h => hl (List.mem_cons_of_mem _ h))]
    simp

/-- `std::getline` returns the text up to the next newline and leaves the rest. -/
theorem splitLines_line (l rest : List Byte) (hl : newline ∉ l) :
    splitLines (l ++ newline :: rest) = l :: splitLines rest := by
  unfold splitLines
  rw [splitLinesAux_line l [] rest hl]
  simp

theorem splitLinesAux_no_newline (data cur : List Byte) (hcur : newline ∉ cur) :
    ∀ line ∈ splitLinesAux cur data, newline ∉ line := by
  induction data generalizing cur with
  | nil =>
    intro line hline
    unfold splitLinesAux at hline
    split at hline
    · simp at hline
    · rw [List.mem_singleton] at hline
      rw [hline, List.mem_reverse]
      exact hcur
  | cons c cs ih =>
    intro line hline
    unfold splitLinesAux at hline
    split at hline
    · rw [List.mem_cons] at hline
      rcases hline with rfl | hline
      · rw [List.mem_reverse]; exact hcur
      · exact ih [] (by simp) line hline
    · rename_i hc
      refine ih (c :: cur) ?_ line hline
      rw [List.mem_cons, not_or]
      exact ⟨fun e => hc (by rw [← e]; rfl), hcur⟩

/-- No line returned by `std::getline` holds a newline. -/
theorem splitLines_no_newline (data : List Byte) :
    ∀ line ∈ splitLines data, newline ∉ line :=
  splitLinesAux_no_newline data [] (by simp)

theorem serializeCredentials_eq (pm : PasswordManager) :
    serializeCredentials pm =
      ascii "AUTH_DATA_START" ++ newline ::
        (decimal (serialize pm.authData).length ++ newline ::
          (authLine (serialize pm.authData) ++ newline ::
            (ascii "AUTH_DATA_END" ++ newline ::
              (ascii "CREDENTIALS_START" ++ newline ::
                (decimal pm.credentials.length ++ newline ::
                  (recordsText pm.credentials ++ ascii "CREDENTIALS_END\n")))))) := by
  have e1 : ascii "AUTH_DATA_START\n" = ascii "AUTH_DATA_START" ++ [newline] := by decide
  have e2 : ascii "\n" = [newline] := by decide
  have e3 : ascii "\nAUTH_DATA_END\n" = newline :: (ascii "AUTH_DATA_END" ++ [newline]) := by
    decide
  have e4 : ascii "CREDENTIALS_START\n" = ascii "CREDENTIALS_START" ++ [newline] := by decide
  have e5 : (fun pair : List Byte × Credential =>
      ascii "SERVICE:" ++ pair.2.service ++ ascii "\n" ++
      ascii "USERNAME:" ++ pair.2.username ++ ascii "\n" ++
      ascii "PASSWORD:" ++ pair.2.password ++ ascii "\n" ++
      ascii "---\n") = fun pair => recordText pair.2 := rfl
  unfold serializeCredentials
  simp only [e5]
  rw [e1, e2, e3, e4]
  simp only [authLine, recordsText, List.append_assoc, List.singleton_append, List.cons_append,
    List.nil_append]

theorem serializeCredentials_lines (pm : PasswordManager) :
    splitLines (serializeCredentials pm) =
      ascii "AUTH_DATA_START" :: decimal (serialize pm.authData).length ::
        authLine (serialize pm.authData) :: ascii "AUTH_DATA_END" ::
        ascii "CREDENTIALS_START" :: decimal pm.credentials.length ::
        splitLines (recordsText pm.credentials ++ ascii "CREDENTIALS_END\n") := by
  rw [serializeCredentials_eq,
    splitLines_line _ _ (by decide), splitLines_line _ _ (decimal_not_newline _),
    splitLines_line _ _ (authLine_not_newline _), splitLines_line _ _ (by decide),
    splitLines_line _ _ (by decide), splitLines_line _ _ (decimal_not_newline _)]

end Vault

namespace Vault

open Crypto

theorem serialize_length (b : EncryptedData) :
    (serialize b).length = 12 + b.salt.length + b.iv.length + b.ciphertext.length := by
  rw [serialize_eq]; simp [le32_length]; omega

theorem skipPast_head (marker : List Byte) (iss : List (List Byte)) :
    skipPast marker (marker :: iss) = iss := by
  simp [skipPast]

theorem skipPast_skip (marker line : List Byte) (iss : List (List Byte)) (h : line ≠ marker) :
    skipPast marker (line :: iss) = skipPast marker iss := by
  simp [skipPast, h]

/-- What `parseAuthSection` does on the auth lines written by `serializeCredentials`. -/
theorem parseAuthSection_written (pm0 : PasswordManager) (auth : EncryptedData)
    (iss : List (List Byte)) (hblob : BlobOk auth) :
    parseAuthSection pm0
        (decimal (serialize auth).length :: authLine (serialize auth) :: iss) =
      .ok ({ pm0 with authData := auth }, iss) := by
  have hlen : (serialize auth).length < 2 ^ 64 := by
    rw [serialize_length]
    obtain ⟨h1, h2, h3⟩ := hblob
    have : (2 : Nat) ^ 32 = 4294967296 := by norm_num
    have : (2 : Nat) ^ 64 = 18446744073709551616 := by norm_num
    omega
  unfold parseAuthSection
  simp only [stoul_decimal _ hlen, readInts_authLine, if_true,
    deserialize_serialize auth hblob.1 hblob.2.1 hblob.2.2]

/-- What `deserializeCredentials` does on a payload written by `serializeCredentials`: the
auth blob is read back, and the record loop runs over the lines of the records section. -/
theorem deserializeCredentials_written (pm0 pm : PasswordManager) (hblob : BlobOk pm.authData)
    (hcount : pm.credentials.length < 2 ^ 64) :
    deserializeCredentials pm0 (serializeCredentials pm) =
      ({ pm0 with
          credentials := parseRecords pm.credentials.length
            (splitLines (recordsText pm.credentials ++ ascii "CREDENTIALS_END\n")) []
          authData := pm.authData }, .ok ()) := by
  unfold deserializeCredentials
  simp only [serializeCredentials_lines, skipPast_head]
  rw [parseAuthSection_written _ _ _ hblob]
  simp only
  rw [skipPast_skip _ _ _ (by decide), skipPast_head]
  simp only [stoul_decimal _ hcount]

end Vault

namespace Vault

open Crypto

theorem readField_written (pre value : List Byte) (iss : List (List Byte)) :
    readField pre ((pre ++ value) :: iss) = (value, iss) := by
  simp [readField]

theorem recordText_lines (cred : Credential) (rest : List Byte)
    (hs : newline ∉ cred.service) (hu : newline ∉ cred.username)
    (hp : newline ∉ cred.password) :
    splitLines (recordText cred ++ rest) =
      (ascii "SERVICE:" ++ cred.service) :: (ascii "USERNAME:" ++ cred.username) ::
        (ascii "PASSWORD:" ++ cred.password) :: ascii "---" :: splitLines rest := by
  have e1 : ascii "\n" = [newline] := by decide
  have e2 : ascii "---\n" = ascii "---" ++ [newline] := by decide
  have h1 : newline ∉ ascii "SERVICE:" ++ cred.service := by
    rw [List.mem_append, not_or]; exact ⟨by decide, hs⟩
  have h2 : newline ∉ ascii "USERNAME:" ++ cred.username := by
    rw [List.mem_append, not_or]; exact ⟨by decide, hu⟩
  have h3 : newline ∉ ascii "PASSWORD:" ++ cred.password := by
    rw [List.mem_append, not_or]; exact ⟨by decide, hp⟩
  have e : recordText cred ++ rest =
      (ascii "SERVICE:" ++ cred.service) ++ newline ::
        ((ascii "USERNAME:" ++ cred.username) ++ newline ::
          ((ascii "PASSWORD:" ++ cred.password) ++ newline ::
            (ascii "---" ++ newline :: rest))) := by
    unfold recordText
    rw [e1, e2]
    simp only [List.append_assoc, List.singleton_append, List.cons_append, List.nil_append]
  rw [e, splitLines_line _ _ h1, splitLines_line _ _ h2, splitLines_line _ _ h3,
    splitLines_line _ _ (by decide)]

theorem recordsText_cons (pair : List Byte × Credential) (m : CredMap) (rest : List Byte) :
    recordsText (pair :: m) ++ rest = recordText pair.2 ++ (recordsText m ++ rest) := by
  simp [recordsText, List.flatMap_cons]

/-- The record loop reads back the records written by `serializeCredentials` and assigns each
under its service name. -/
theorem parseRecords_written (m : CredMap) (hm : ∀ pair ∈ m, RecordOk pair) (rest : List Byte)
    (acc : CredMap) :
    parseRecords m.length (splitLines (recordsText m ++ rest)) acc =
      m.foldl (fun acc pair => mapAssign acc pair.1 pair.2) acc := by
  induction m generalizing acc with
  | nil => rfl
  | cons pair m ih =>
    obtain ⟨hkey, hne, hs, hu, hp⟩ := hm pair (List.mem_cons_self _ _)
    obtain ⟨key, service, username, password⟩ := pair
    simp only at hkey hne hs hu hp
    subst hkey
    rw [recordsText_cons, recordText_lines _ _ hs hu hp, List.length_cons, parseRecords]
    simp only [readField_written, List.tail_cons, hne, ne_eq, not_false_eq_true, if_true]
    rw [ih (fun p hp => hm p (List.mem_cons_of_mem _ hp)), List.foldl_cons]

theorem mapAssign_append_last (acc : CredMap) (k : List Byte) (v : Credential)
    (h : ∀ s ∈ mapKeys acc, strLt s k = true) : mapAssign acc k v = acc ++ [(k, v)] := by
  induction acc with
  | nil => rfl
  | cons p rest ih =>
    obtain ⟨k0, v0⟩ := p
    have h0 : strLt k0 k = true := h k0 (by rw [mapKeys_cons]; exact List.mem_cons_self _ _)
    rw [mapAssign_cons_gt _ _ _ _ _ (strLt_asymm _ _ h0) h0,
      ih (fun s hs => h s (by rw [mapKeys_cons]; exact List.mem_cons_of_mem _ hs))]
    rfl

theorem mapKeys_append (a b : CredMap) : mapKeys (a ++ b) = mapKeys a ++ mapKeys b := by
  simp [mapKeys]

theorem foldl_mapAssign_sorted (m acc : CredMap) (h : MapOk (acc ++ m)) :
    m.foldl (fun acc pair => mapAssign acc pair.1 pair.2) acc = acc ++ m := by
  induction m generalizing acc with
  | nil => simp
  | cons pair m ih =>
    have hlast : ∀ s ∈ mapKeys acc, strLt s pair.1 = true := by
      intro s hs
      unfold MapOk at h
      rw [mapKeys_append, List.pairwise_append] at h
      exact h.2.2 s hs pair.1 (by simp [mapKeys])
    rw [List.foldl_cons, mapAssign_append_last acc pair.1 pair.2 hlast,
      ih (acc ++ [(pair.1, pair.2)]) (by simpa using h)]
    simp

/-- Reading back the records of a storable map gives the map. -/
theorem parseRecords_storable (m : CredMap) (hm : Storable m) (rest : List Byte) :
    parseRecords m.length (splitLines (recordsText m ++ rest)) [] = m := by
  rw [parseRecords_written m hm.2 rest [], foldl_mapAssign_sorted m [] (by simpa using hm.1)]
  simp

/-- The restricted round trip of the payload. -/
theorem deserializeCredentials_storable (pm0 pm : PasswordManager) (hblob : BlobOk pm.authData)
    (hcount : pm.credentials.length < 2 ^ 64) (hm : Storable pm.credentials) :
    deserializeCredentials pm0 (serializeCredentials pm) =
      ({ pm0 with credentials := pm.credentials, authData := pm.authData }, .ok ()) := by
  rw [deserializeCredentials_written pm0 pm hblob hcount, parseRecords_storable _ hm]

end Vault


/-! ## Lemmas: what the record loop can produce -/

namespace Vault

open Crypto

theorem mem_mapAssign (m : CredMap) (k : List Byte) (v : Credential)
    (p : List Byte × Credential) (h : p ∈ mapAssign m k v) : p.2 = v ∨ p ∈ m := by
  induction m with
  | nil =>
    simp only [mapAssign, List.mem_singleton] at h
    exact Or.inl (by rw [h])
  | cons q rest ih =>
    obtain ⟨k0, v0⟩ := q
    cases h1 : strLt k k0 with
    | true =>
      rw [mapAssign_cons_lt _ _ _ _ _ h1, List.mem_cons] at h
      rcases h with rfl | h
      · exact Or.inl rfl
      · exact Or.inr h
    | false =>
      cases h2 : strLt k0 k with
      | true =>
        rw [mapAssign_cons_gt _ _ _ _ _ h1 h2, List.mem_cons] at h
        rcases h with rfl | h
        · exact Or.inr (List.mem_cons_self _ _)
        · rcases ih h with h | h
          · exact Or.inl h
          · exact Or.inr (List.mem_cons_of_mem _ h)
      | false =>
        rw [mapAssign_cons_eq _ _ _ _ _ h1 h2, List.mem_cons] at h
        rcases h with rfl | h
        · exact Or.inl rfl
        · exact Or.inr (List.mem_cons_of_mem _ h)

theorem readField_no_newline (pre : List Byte) (iss : List (List Byte))
    (h : ∀ line ∈ iss, newline ∉ line) :
    newline ∉ (readField pre iss).1 ∧ ∀ line ∈ (readField pre iss).2, newline ∉ line := by
  cases iss with
  | nil => simp [readField]
  | cons line rest =>
    simp only [readField]
    refine ⟨?_, fun l hl => h l (List.mem_cons_of_mem _ hl)⟩
    split
    · exact fun hc => h line (List.mem_cons_self _ _) (List.mem_of_mem_drop hc)
    · simp

theorem parseRecords_no_newline (n : Nat) (iss : List (List Byte)) (acc : CredMap)
    (hiss : ∀ line ∈ iss, newline ∉ line)
    (hacc : ∀ p ∈ acc, newline ∉ p.2.service ∧ newline ∉ p.2.username ∧
      newline ∉ p.2.password) :
    ∀ p ∈ parseRecords n iss acc,
      newline ∉ p.2.service ∧ newline ∉ p.2.username ∧ newline ∉ p.2.password := by
  induction n generalizing iss acc with
  | zero => exact hacc
  | succ n ih =>
    have f1 := readField_no_newline (ascii "SERVICE:") iss hiss
    have f2 := readField_no_newline (ascii "USERNAME:") _ f1.2
    have f3 := readField_no_newline (ascii "PASSWORD:") _ f2.2
    unfold parseRecords
    apply ih
    · intro line hline
      exact f3.2 line (List.mem_of_mem_tail hline)
    · intro p hp
      split at hp
      · rcases mem_mapAssign _ _ _ p hp with h | h
        · rw [h]
          exact ⟨f1.1, f2.1, f3.1⟩
        · exact hacc p h
      · exact hacc p hp

theorem skipPast_subset (marker : List Byte) (iss : List (List Byte)) :
    ∀ line ∈ skipPast marker iss, line ∈ iss := by
  induction iss with
  | nil => simp [skipPast]
  | cons l rest ih =>
    intro line hline
    unfold skipPast at hline
    split at hline
    · exact List.mem_cons_of_mem _ hline
    · exact List.mem_cons_of_mem _ (ih line hline)

theorem parseAuthSection_ok (pm pm1 : PasswordManager) (iss iss1 : List (List Byte))
    (h : parseAuthSection pm iss = .ok (pm1, iss1)) :
    pm1.credentials = pm.credentials ∧ pm1.isLocked = pm.isLocked ∧
      pm1.masterPassword = pm.masterPassword ∧ pm1.vaultFilePath = pm.vaultFilePath ∧
      ∀ line ∈ iss1, line ∈ iss := by
  unfold parseAuthSection at h
  cases iss with
  | nil =>
    simp only [Except.ok.injEq, Prod.mk.injEq] at h
    obtain ⟨rfl, rfl⟩ := h
    simp
  | cons line rest =>
    simp only at h
    cases hs : stoul line with
    | error e => rw [hs] at h; simp at h
    | ok authSize =>
      rw [hs] at h
      simp only at h
      cases rest with
      | nil =>
        simp only at h
        split at h
        · split at h
          · simp at h
          · simp only [Except.ok.injEq, Prod.mk.injEq] at h
            obtain ⟨rfl, rfl⟩ := h
            simp
        · simp only [Except.ok.injEq, Prod.mk.injEq] at h
          obtain ⟨rfl, rfl⟩ := h
          simp
      | cons line2 rest2 =>
        simp only at h
        split at h
        · split at h
          · simp at h
          · simp only [Except.ok.injEq, Prod.mk.injEq] at h
            obtain ⟨rfl, rfl⟩ := h
            simp only [true_and]
            exact fun l hl => List.mem_cons_of_mem _ (List.mem_cons_of_mem _ hl)
        · simp only [Except.ok.injEq, Prod.mk.injEq] at h
          obtain ⟨rfl, rfl⟩ := h
          simp only [true_and]
          exact fun l hl => List.mem_cons_of_mem _ (List.mem_cons_of_mem _ hl)

/-- Whatever the input, no record left in the store by `deserializeCredentials` holds a
newline in a field. -/
theorem deserializeCredentials_no_newline (pm0 : PasswordManager) (data : List Byte) :
    ∀ p ∈ (deserializeCredentials pm0 data).1.credentials,
      newline ∉ p.2.service ∧ newline ∉ p.2.username ∧ newline ∉ p.2.password := by
  unfold deserializeCredentials
  simp only
  cases hauth : parseAuthSection { pm0 with credentials := [] }
      (skipPast (ascii "AUTH_DATA_START") (splitLines data)) with
  | error e => simp
  | ok r =>
    obtain ⟨pm1, iss1⟩ := r
    obtain ⟨hc, -, -, -, hsub⟩ := parseAuthSection_ok _ _ _ _ hauth
    have hc0 : pm1.credentials = [] := hc
    have hlines : ∀ line ∈ skipPast (ascii "CREDENTIALS_START") iss1, newline ∉ line := by
      intro line hline
      exact splitLines_no_newline data line
        (skipPast_subset _ _ _ (hsub _ (skipPast_subset _ _ _ hline)))
    simp only
    cases hiss : skipPast (ascii "CREDENTIALS_START") iss1 with
    | nil => simp [hc0]
    | cons line rest =>
      rw [hiss] at hlines
      simp only
      cases stoul line with
      | error e => simp [hc0]
      | ok credCount =>
        simp only
        rw [hc0]
        exact parseRecords_no_newline credCount rest []
          (fun l hl => hlines l (List.mem_cons_of_mem _ hl)) (by simp)

end Vault


/-! ## Lemmas: an auth blob with a field of `2 ^ 32` bytes -/

namespace Vault

open Crypto

theorem parseAuthSection_written_any (pm0 : PasswordManager) (auth : EncryptedData)
    (iss : List (List Byte)) (hlen : (serialize auth).length < 2 ^ 64) :
    parseAuthSection pm0
        (decimal (serialize auth).length :: authLine (serialize auth) :: iss) =
      match deserialize (serialize auth) with
      | .error e => .error e
      | .ok a => .ok ({ pm0 with authData := a }, iss) := by
  unfold parseAuthSection
  simp only [stoul_decimal _ hlen, readInts_authLine, if_true]

/-- What `deserializeCredentials` does on a written payload, whatever the size of the auth
blob: it stands or falls with `Crypto::deserialize` on the serialized blob. -/
theorem deserializeCredentials_written_any (pm0 pm : PasswordManager)
    (hlen : (serialize pm.authData).length < 2 ^ 64) (hcount : pm.credentials.length < 2 ^ 64) :
    deserializeCredentials pm0 (serializeCredentials pm) =
      match deserialize (serialize pm.authData) with
      | .error e => ({ pm0 with credentials := [] }, .error e)
      | .ok a =>
        ({ pm0 with
            credentials := parseRecords pm.credentials.length
              (splitLines (recordsText pm.credentials ++ ascii "CREDENTIALS_END\n")) []
            authData := a }, .ok ()) := by
  unfold deserializeCredentials
  simp only [serializeCredentials_lines, skipPast_head]
  rw [parseAuthSection_written_any _ _ _ hlen]
  cases deserialize (serialize pm.authData) with
  | error e => rfl
  | ok a =>
    simp only
    rw [skipPast_skip _ _ _ (by decide), skipPast_head]
    simp only [stoul_decimal _ hcount]

theorem getD_replicate_zero (n k : Nat) : (List.replicate n (0 : Byte)).getD k 0 = 0 := by
  rw [List.getD_eq_getElem?_getD, List.getElem?_replicate]
  split <;> rfl

theorem le32At_replicate_zero (n k : Nat) : le32At (List.replicate n (0 : Byte)) k = 0 := by
  simp only [le32At, getD_replicate_zero]
  rfl

theorem serialize_zero_blob (n : Nat) (hn : le32 n = [0, 0, 0, 0]) :
    serialize ⟨List.replicate n 0, [], []⟩ = List.replicate (n + 12) 0 := by
  have h0 : le32 0 = List.replicate 4 (0 : Byte) := by decide
  have h4 : ([0, 0, 0, 0] : List Byte) = List.replicate 4 0 := rfl
  rw [serialize_eq]
  simp only [List.length_replicate, List.length_nil, hn, h0, h4, List.nil_append,
    List.append_nil, List.append_replicate_replicate]
  congr 1
  omega

/-- A salt of `n` zero bytes with `n` a multiple of `2 ^ 32` is written with length prefix 0,
and `Crypto::deserialize` returns three empty fields. -/
theorem deserialize_zero_blob (n : Nat) (hn : le32 n = [0, 0, 0, 0]) :
    deserialize (serialize ⟨List.replicate n 0, [], []⟩) = .ok ⟨[], [], []⟩ := by
  rw [serialize_zero_blob n hn, deserialize_eq]
  have hT : ¬ Truncated (List.replicate (n + 12) (0 : Byte)) := by
    unfold Truncated runsPastEnd fieldEnd
    simp only [le32At_replicate_zero, List.length_replicate]
    omega
  rw [if_neg hT]
  simp only [le32At_replicate_zero, List.take_zero]

theorem deserializeCredentials_zero_blob (pm0 : PasswordManager) (path password : List Byte)
    (n : Nat) (hn : le32 n = [0, 0, 0, 0]) (hbig : n + 12 < 2 ^ 64) :
    (deserializeCredentials pm0
      (serializeCredentials ⟨path, password, [], false, ⟨List.replicate n 0, [], []⟩⟩)).1.authData =
      ⟨[], [], []⟩ := by
  rw [deserializeCredentials_written_any _ _
    (by rw [serialize_zero_blob n hn, List.length_replicate]; exact hbig)
    (by show (0 : Nat) < 2 ^ 64; norm_num)]
  simp only [deserialize_zero_blob n hn]

theorem empty_blob_ne (n : Nat) (hn : 0 < n) :
    (⟨[], [], []⟩ : EncryptedData) ≠ ⟨List.replicate n 0, [], []⟩ := by
  intro h
  have h1 : ([] : List Byte) = List.replicate n 0 := congrArg EncryptedData.salt h
  have h2 := congrArg List.length h1
  rw [List.length_replicate, List.length_nil] at h2
  omega

end Vault

namespace Vault

open Crypto

theorem serialize_ff_blob (n : Nat) (hn : le32 n = [0, 0, 0, 0]) :
    serialize ⟨List.replicate n 255, [], [7]⟩ =
      [0, 0, 0, 0] ++ (List.replicate n 255 ++ [0, 0, 0, 0, 1, 0, 0, 0, 7]) := by
  have h0 : le32 0 = [0, 0, 0, 0] := by decide
  have h1 : le32 1 = [1, 0, 0, 0] := by decide
  rw [serialize_eq]
  simp only [List.length_replicate, List.length_nil, List.length_singleton, hn, h0, h1,
    List.nil_append, List.cons_append]

theorem getD_ff_low (n k : Nat) (tail : List Byte) (hk : k < n) :
    ([0, 0, 0, 0] ++ (List.replicate n (255 : Byte) ++ tail)).getD (4 + k) 0 = 255 := by
  have h4 : ([0, 0, 0, 0] : List Byte).length = 4 := rfl
  rw [← h4, getD_append_add, List.getD_append _ _ _ _ (by rw [List.length_replicate]; exact hk),
    List.getD_eq_getElem?_getD, List.getElem?_replicate, if_pos hk]
  rfl

theorem getD_ff_high (n k : Nat) (tail : List Byte) :
    ([0, 0, 0, 0] ++ (List.replicate n (255 : Byte) ++ tail)).getD (4 + (n + k)) 0 =
      tail.getD k 0 := by
  have h4 : ([0, 0, 0, 0] : List Byte).length = 4 := rfl
  have hn : (List.replicate n (255 : Byte)).length = n := List.length_replicate _ _
  rw [← h4, getD_append_add]
  have := getD_append_add (List.replicate n (255 : Byte)) tail k 0
  rw [hn] at this
  exact this

/-- A salt of `2 ^ 32` bytes `0xff` with a one-byte ciphertext is written with salt length 0;
read back, the iv length comes out of the salt bytes and the ciphertext length runs past the
end: `Crypto::deserialize` throws. -/
theorem deserialize_ff_blob (n : Nat) (hn : n = 4294967296) :
    deserialize (serialize ⟨List.replicate n 255, [], [7]⟩) = .error formatError := by
  have hle : le32 n = [0, 0, 0, 0] := by rw [hn]; decide
  rw [serialize_ff_blob n hle, deserialize_eq]
  set data := ([0, 0, 0, 0] : List Byte) ++
    (List.replicate n (255 : Byte) ++ [0, 0, 0, 0, 1, 0, 0, 0, 7]) with hdata
  have hlen : data.length = n + 13 := by
    rw [hdata]
    simp only [List.length_append, List.length_replicate, List.length_cons, List.length_nil]
    omega
  have e0 : le32At data 0 = 0 := by
    rw [hdata]
    rfl
  have e1 : le32At data 4 = 4294967295 := by
    have a0 := getD_ff_low n 0 [0, 0, 0, 0, 1, 0, 0, 0, 7] (by omega)
    have a1 := getD_ff_low n 1 [0, 0, 0, 0, 1, 0, 0, 0, 7] (by omega)
    have a2 := getD_ff_low n 2 [0, 0, 0, 0, 1, 0, 0, 0, 7] (by omega)
    have a3 := getD_ff_low n 3 [0, 0, 0, 0, 1, 0, 0, 0, 7] (by omega)
    unfold le32At
    rw [hdata]
    rw [show (4 : Nat) = 4 + 0 from rfl, a0, show 4 + 0 + 1 = 4 + 1 from rfl, a1,
      show 4 + 0 + 2 = 4 + 2 from rfl, a2, show 4 + 0 + 3 = 4 + 3 from rfl, a3]
    rfl
  have e2 : le32At data (n + 7) = 256 := by
    have a0 := getD_ff_high n 3 [0, 0, 0, 0, 1, 0, 0, 0, 7]
    have a1 := getD_ff_high n 4 [0, 0, 0, 0, 1, 0, 0, 0, 7]
    have a2 := getD_ff_high n 5 [0, 0, 0, 0, 1, 0, 0, 0, 7]
    have a3 := getD_ff_high n 6 [0, 0, 0, 0, 1, 0, 0, 0, 7]
    unfold le32At
    rw [hdata]
    rw [show n + 7 = 4 + (n + 3) by omega, a0, show 4 + (n + 3) + 1 = 4 + (n + 4) by omega, a1,
      show 4 + (n + 3) + 2 = 4 + (n + 5) by omega, a2,
      show 4 + (n + 3) + 3 = 4 + (n + 6) by omega, a3]
    rfl
  have f0 : fieldEnd data 0 = 4 := by rw [fieldEnd, e0]
  have f1 : fieldEnd data 4 = n + 7 := by rw [fieldEnd, e1]; omega
  have hT : Truncated data := by
    unfold Truncated
    refine Or.inr (Or.inr (Or.inr ?_))
    rw [f0, f1]
    unfold runsPastEnd
    rw [e2, hlen]
    omega
  rw [if_pos hT]

theorem deserializeCredentials_ff_blob (pm0 : PasswordManager) (path password : List Byte)
    (m : CredMap) (hm : m.length < 2 ^ 64) (n : Nat) (hn : n = 4294967296) :
    (deserializeCredentials pm0 (serializeCredentials
      (PasswordManager.mk path password m false
        (EncryptedData.mk (List.replicate n (255 : Byte)) [] [7])))).1.credentials = [] := by
  have hlen : (serialize ⟨List.replicate n 255, [], [7]⟩).length < 2 ^ 64 := by
    rw [serialize_length]
    simp only [List.length_replicate, List.length_nil, List.length_singleton]
    have : (2 : Nat) ^ 64 = 18446744073709551616 := by norm_num
    omega
  have h1 := deserializeCredentials_written_any pm0 (PasswordManager.mk path password m false
        (EncryptedData.mk (List.replicate n (255 : Byte)) [] [7])) hlen hm
  have h2 := deserialize_ff_blob n hn
  dsimp only at h1
  rw [h2] at h1
  rw [h1]

end Vault


namespace Vault

open Crypto

/-- C21, counterexample. An auth blob whose salt has `2 ^ 32` zero bytes is written with salt
length 0 by `Crypto::serialize`; `deserializeCredentials` then leaves the blob with three
empty fields in the store, not the blob that was written. -/
theorem auth_blob_four_gib_not_restored :
    (deserializeCredentials (PasswordManager.init [])
        (serializeCredentials
          ⟨[], [], [], false, ⟨List.replicate 4294967296 0, [], []⟩⟩)).1.authData =
      ⟨[], [], []⟩ ∧
    (⟨[], [], []⟩ : EncryptedData) ≠ ⟨List.replicate 4294967296 0, [], []⟩ :=
  ⟨deserializeCredentials_zero_blob (PasswordManager.init []) [] [] 4294967296 (by decide)
      (by norm_num),
    empty_blob_ne 4294967296 (by norm_num)⟩

/-- C21, amended (restricted payload round trip). For every auth blob whose salt, iv and
ciphertext are each shorter than `2 ^ 32` bytes and every credential map (a `std::map`, of
fewer than `2 ^ 64` records) in which each key equals its record's service field, every
service is non-empty and no service, username or password holds a newline,
`deserializeCredentials (serializeCredentials (a, m))` does not throw and leaves exactly the
map `m` and the blob `a` in the store, whatever the store held before. -/
theorem payload_roundtrip_restricted (pm0 pm : PasswordManager) (hblob : BlobOk pm.authData)
    (hcount : pm.credentials.length < 2 ^ 64) (hm : Storable pm.credentials) :
    deserializeCredentials pm0 (serializeCredentials pm) =
      ({ pm0 with credentials := pm.credentials, authData := pm.authData }, .ok ()) :=
  deserializeCredentials_storable pm0 pm hblob hcount hm

theorem payload_roundtrip_restricted_witness :
    BlobOk (PasswordManager.mk (ascii "vault.dat") (ascii "pw")
        [(ascii "mail", ⟨ascii "mail", ascii "SERVICE:", ascii "---"⟩)] false
        ⟨[1], [2], [3, 4]⟩).authData ∧
    (PasswordManager.mk (ascii "vault.dat") (ascii "pw")
        [(ascii "mail", ⟨ascii "mail", ascii "SERVICE:", ascii "---"⟩)] false
        ⟨[1], [2], [3, 4]⟩).credentials.length < 2 ^ 64 ∧
    Storable (PasswordManager.mk (ascii "vault.dat") (ascii "pw")
        [(ascii "mail", ⟨ascii "mail", ascii "SERVICE:", ascii "---"⟩)] false
        ⟨[1], [2], [3, 4]⟩).credentials ∧
    deserializeCredentials (PasswordManager.init (ascii "vault.dat"))
        (serializeCredentials (PasswordManager.mk (ascii "vault.dat") (ascii "pw")
          [(ascii "mail", ⟨ascii "mail", ascii "SERVICE:", ascii "---"⟩)] false
          ⟨[1], [2], [3, 4]⟩)) =
      ({ PasswordManager.init (ascii "vault.dat") with
          credentials := [(ascii "mail", ⟨ascii "mail", ascii "SERVICE:", ascii "---"⟩)]
          authData := ⟨[1], [2], [3, 4]⟩ }, .ok ()) :=
  ⟨⟨by decide, by decide, by decide⟩, by decide,
    ⟨by simp [MapOk, mapKeys], by
      intro pair hpair
      rw [List.mem_singleton] at hpair
      subst hpair
      exact ⟨rfl, by decide, by decide, by decide, by decide⟩⟩,
    payload_roundtrip_restricted (PasswordManager.init (ascii "vault.dat"))
      (PasswordManager.mk (ascii "vault.dat") (ascii "pw")
        [(ascii "mail", ⟨ascii "mail", ascii "SERVICE:", ascii "---"⟩)] false
        ⟨[1], [2], [3, 4]⟩)
      ⟨by decide, by decide, by decide⟩ (by decide)
      ⟨by simp [MapOk, mapKeys], by
        intro pair hpair
        rw [List.mem_singleton] at hpair
        subst hpair
        exact ⟨rfl, by decide, by decide, by decide, by decide⟩⟩⟩

end Vault

namespace Vault

open Crypto

/-- C20, counterexample. A record whose service, username and password hold the literal
strings `SERVICE:` and `---` (and no newline) is read back unchanged: the parser takes lines
by position and only strips the expected field name. -/
theorem literal_anchors_survive :
    (deserializeCredentials (PasswordManager.init [])
        (serializeCredentials
          ⟨[], [], [(ascii "SERVICE:---", ⟨ascii "SERVICE:---", ascii "SERVICE:", ascii "---"⟩)],
            false, ⟨[], [], []⟩⟩)).1.credentials =
      [(ascii "SERVICE:---", ⟨ascii "SERVICE:---", ascii "SERVICE:", ascii "---"⟩)] := by
  decide

/-- C20, amended (escaping gap). For every store holding a credential whose service, username
or password contains a newline character, `deserializeCredentials (serializeCredentials
store)` does not reproduce the store's credential map, whatever the store held before. -/
theorem newline_corrupts_payload (pm0 pm : PasswordManager)
    (h : ∃ pair ∈ pm.credentials,
      newline ∈ pair.2.service ∨ newline ∈ pair.2.username ∨ newline ∈ pair.2.password) :
    (deserializeCredentials pm0 (serializeCredentials pm)).1.credentials ≠ pm.credentials := by
  intro heq
  obtain ⟨pair, hpair, hnl⟩ := h
  rw [← heq] at hpair
  obtain ⟨h1, h2, h3⟩ := deserializeCredentials_no_newline pm0 _ pair hpair
  rcases hnl with h | h | h
  · exact h1 h
  · exact h2 h
  · exact h3 h

theorem newline_corrupts_payload_witness :
    (∃ pair ∈ (PasswordManager.mk [] [] [(ascii "x", ⟨ascii "x", ascii "u", ascii "a\nb"⟩)]
        false ⟨[], [], []⟩).credentials,
      newline ∈ pair.2.service ∨ newline ∈ pair.2.username ∨ newline ∈ pair.2.password) ∧
    (deserializeCredentials (PasswordManager.init [])
        (serializeCredentials (PasswordManager.mk [] []
          [(ascii "x", ⟨ascii "x", ascii "u", ascii "a\nb"⟩)] false ⟨[], [], []⟩))).1.credentials ≠
      (PasswordManager.mk [] [] [(ascii "x", ⟨ascii "x", ascii "u", ascii "a\nb"⟩)]
        false ⟨[], [], []⟩).credentials :=
  ⟨⟨_, List.mem_singleton.2 rfl, Or.inr (Or.inr (by decide))⟩,
    newline_corrupts_payload (PasswordManager.init [])
      (PasswordManager.mk [] [] [(ascii "x", ⟨ascii "x", ascii "u", ascii "a\nb"⟩)]
        false ⟨[], [], []⟩)
      ⟨_, List.mem_singleton.2 rfl, Or.inr (Or.inr (by decide))⟩⟩

/-- C14, counterexample. Four stores that are not read back: a password with a newline is cut
at the newline; a record with the empty service name is dropped; a record whose key differs
from its service field comes back under the service field; and with an auth blob whose salt
has `2 ^ 32` bytes `Crypto::deserialize` throws and the store is left empty. -/
theorem payload_decode_loses_records :
    (deserializeCredentials (PasswordManager.init [])
        (serializeCredentials
          ⟨[], [], [(ascii "x", ⟨ascii "x", ascii "u", ascii "a\nb"⟩)], false,
            ⟨[], [], []⟩⟩)).1.credentials =
      [(ascii "x", ⟨ascii "x", ascii "u", ascii "a"⟩)] ∧
    (deserializeCredentials (PasswordManager.init [])
        (serializeCredentials
          ⟨[], [], [([], ⟨[], ascii "u", ascii "p"⟩)], false, ⟨[], [], []⟩⟩)).1.credentials =
      [] ∧
    (deserializeCredentials (PasswordManager.init [])
        (serializeCredentials
          ⟨[], [], [(ascii "k", ⟨ascii "s", ascii "u", ascii "p"⟩)], false,
            ⟨[], [], []⟩⟩)).1.credentials =
      [(ascii "s", ⟨ascii "s", ascii "u", ascii "p"⟩)] ∧
    (deserializeCredentials (PasswordManager.init []) (serializeCredentials
      (PasswordManager.mk [] [] [(ascii "x", ⟨ascii "x", ascii "u", ascii "p"⟩)] false
        (EncryptedData.mk (List.replicate 4294967296 (255 : Byte)) [] [7])))).1.credentials =
      [] :=
  ⟨by decide, by decide, by decide,
    deserializeCredentials_ff_blob (PasswordManager.init []) [] []
      [(ascii "x", ⟨ascii "x", ascii "u", ascii "p"⟩)] (by decide) 4294967296 rfl⟩

/-- C14, amended (decode inverts encode). For every auth blob whose fields are each shorter
than `2 ^ 32` bytes and every credential map (a `std::map`, of fewer than `2 ^ 64` records)
in which each key equals its record's service field, every service is non-empty and no
field holds a newline, running `deserializeCredentials` on `serializeCredentials (a, m)`
leaves the store's credential map equal to `m`, whatever the store held before. -/
theorem payload_decode_inverts_encode (pm0 pm : PasswordManager) (hblob : BlobOk pm.authData)
    (hcount : pm.credentials.length < 2 ^ 64) (hm : Storable pm.credentials) :
    (deserializeCredentials pm0 (serializeCredentials pm)).1.credentials = pm.credentials := by
  rw [deserializeCredentials_storable pm0 pm hblob hcount hm]

theorem payload_decode_inverts_encode_witness :
    BlobOk (PasswordManager.mk [] [] [(ascii "bank", ⟨ascii "bank", ascii "bob", ascii "x y"⟩)]
        false ⟨[], [], []⟩).authData ∧
    (PasswordManager.mk [] [] [(ascii "bank", ⟨ascii "bank", ascii "bob", ascii "x y"⟩)]
        false ⟨[], [], []⟩).credentials.length < 2 ^ 64 ∧
    Storable (PasswordManager.mk [] [] [(ascii "bank", ⟨ascii "bank", ascii "bob", ascii "x y"⟩)]
        false ⟨[], [], []⟩).credentials ∧
    (deserializeCredentials
        (PasswordManager.mk [] [] [(ascii "old", ⟨ascii "old", [], []⟩)] false ⟨[], [], []⟩)
        (serializeCredentials
          (PasswordManager.mk [] [] [(ascii "bank", ⟨ascii "bank", ascii "bob", ascii "x y"⟩)]
            false ⟨[], [], []⟩))).1.credentials =
      (PasswordManager.mk [] [] [(ascii "bank", ⟨ascii "bank", ascii "bob", ascii "x y"⟩)]
        false ⟨[], [], []⟩).credentials :=
  ⟨⟨by decide, by decide, by decide⟩, by decide,
    ⟨by simp [MapOk, mapKeys], by
      intro pair hpair
      rw [List.mem_singleton] at hpair
      subst hpair
      exact ⟨rfl, by decide, by decide, by decide, by decide⟩⟩,
    payload_decode_inverts_encode
      (PasswordManager.mk [] [] [(ascii "old", ⟨ascii "old", [], []⟩)] false ⟨[], [], []⟩)
      (PasswordManager.mk [] [] [(ascii "bank", ⟨ascii "bank", ascii "bob", ascii "x y"⟩)]
        false ⟨[], [], []⟩)
      ⟨by decide, by decide, by decide⟩ (by decide)
      ⟨by simp [MapOk, mapKeys], by
        intro pair hpair
        rw [List.mem_singleton] at hpair
        subst hpair
        exact ⟨rfl, by decide, by decide, by decide, by decide⟩⟩⟩

end Vault


/-! ## Lemmas: saving and loading -/

namespace Vault

open Crypto

theorem BlobOk_of_encrypt (O : OpenSSL) (hO : Lawful O) (plaintext password : List Byte)
    (salt iv : Nat → Byte) (hlen : plaintext.length + AES_BLOCK_SIZE < 2 ^ 31)
    (hpw : password.length < 2 ^ 31) :
    ∃ blob, encrypt O plaintext password ⟨some salt, some iv⟩ = .ok blob ∧
      decrypt O blob password = .ok plaintext ∧ BlobOk blob ∧
      blob.ciphertext.length ≤ plaintext.length + AES_BLOCK_SIZE ∧
      blob.salt.length = 16 ∧ blob.iv.length = 16 := by
  obtain ⟨blob, h1, h2, h3, h4, h5⟩ := decrypt_encrypt O hO plaintext password salt iv hlen hpw
  refine ⟨blob, h1, h2, ⟨?_, ?_, ?_⟩, h5, ?_, ?_⟩
  · rw [h3]; simp [SALT_SIZE]
  · rw [h4]; simp [AES_IV_SIZE]
  · have h31 : (2 : Nat) ^ 31 = 2147483648 := by norm_num
    have h32 : (2 : Nat) ^ 32 = 4294967296 := by norm_num
    omega
  · rw [h3]; simp [SALT_SIZE]
  · rw [h4]; simp [AES_IV_SIZE]

/-- A save with successful draws and writes, under a lawful library, a payload that fits
an `int` and a master password whose length fits an `int`: the file then holds the serialized
encryption of the payload. -/
theorem saveVault_success (O : OpenSSL) (hO : Lawful O) (w : World) (salt iv : Nat → Byte)
    (written : Nat) (hunlocked : w.pm.isLocked = false)
    (hlen : (serializeCredentials w.pm).length + AES_BLOCK_SIZE < 2 ^ 31)
    (hpw : w.pm.masterPassword.length < 2 ^ 31) :
    ∃ blob, encrypt O (serializeCredentials w.pm) w.pm.masterPassword ⟨some salt, some iv⟩ =
          .ok blob ∧
      decrypt O blob w.pm.masterPassword = .ok (serializeCredentials w.pm) ∧ BlobOk blob ∧
      saveVault O ⟨⟨some salt, some iv⟩, true, true, true, written⟩ w =
        ({ w with file := some (serialize blob) }, true) := by
  obtain ⟨blob, h1, h2, h3, -⟩ :=
    BlobOk_of_encrypt O hO (serializeCredentials w.pm) w.pm.masterPassword salt iv hlen hpw
  refine ⟨blob, h1, h2, h3, ?_⟩
  simp [saveVault, hunlocked, h1]

theorem loadVault_locked (O : OpenSSL) (w : World) (blob : EncryptedData)
    (hlocked : w.pm.isLocked = true) (hfile : w.file = some (serialize blob))
    (hblob : BlobOk blob) :
    loadVault O w = ({ w with pm := { w.pm with authData := blob } }, true) := by
  simp [loadVault, hfile, deserialize_serialize blob hblob.1 hblob.2.1 hblob.2.2, hlocked]

theorem loadVault_unlocked (O : OpenSSL) (w : World) (blob : EncryptedData)
    (payload : List Byte) (hunlocked : w.pm.isLocked = false)
    (hfile : w.file = some (serialize blob)) (hblob : BlobOk blob)
    (hdec : decrypt O blob w.pm.masterPassword = .ok payload) :
    loadVault O w =
      ({ w with pm := (deserializeCredentials w.pm payload).1 },
        match (deserializeCredentials w.pm payload).2 with
        | .ok _ => true
        | .error _ => false) := by
  simp only [loadVault, hfile, deserialize_serialize blob hblob.1 hblob.2.1 hblob.2.2,
    hunlocked, hdec, Bool.false_eq_true, if_false]
  rcases hd : deserializeCredentials w.pm payload with ⟨pm, r⟩
  cases r <;> rfl

theorem verifyPassword_of_decrypt (O : OpenSSL) (blob : EncryptedData)
    (password payload : List Byte) (h : decrypt O blob password = .ok payload) :
    verifyPassword O blob password = true := by
  simp [verifyPassword, h]

/-- `unlock` of a locked manager on a file whose blob decrypts under the password: the result
is that of the second `loadVault`, run unlocked with the password stored. -/
theorem unlock_locked_eq (O : OpenSSL) (w : World) (blob : EncryptedData)
    (password payload : List Byte) (hlocked : w.pm.isLocked = true)
    (hfile : w.file = some (serialize blob)) (hblob : BlobOk blob)
    (hdec : decrypt O blob password = .ok payload) :
    unlock O w password =
      ({ w with pm := (deserializeCredentials
            { w.pm with authData := blob, masterPassword := password, isLocked := false }
            payload).1 },
        match (deserializeCredentials
            { w.pm with authData := blob, masterPassword := password, isLocked := false }
            payload).2 with
        | .ok _ => true
        | .error _ => false) := by
  have hex : vaultExists w = true := by simp [vaultExists, hfile]
  have hl := loadVault_locked O w blob hlocked hfile hblob
  have hv := verifyPassword_of_decrypt O blob password payload hdec
  have h2 := loadVault_unlocked O
    { w with pm := { w.pm with authData := blob, masterPassword := password, isLocked := false } }
    blob payload rfl hfile hblob hdec
  simp only [unlock, hex, hl, hv, Bool.not_true, Bool.false_eq_true, if_false]
  exact h2

/-- `unlock` of a locked manager stops at the verification when the blob on disk does not
decrypt under the password: the manager stays locked. -/
theorem unlock_locked_rejected (O : OpenSSL) (w : World) (blob : EncryptedData)
    (password : List Byte) (hlocked : w.pm.isLocked = true)
    (hfile : w.file = some (serialize blob)) (hblob : BlobOk blob)
    (hver : verifyPassword O blob password = false) :
    unlock O w password = ({ w with pm := { w.pm with authData := blob } }, false) := by
  have hex : vaultExists w = true := by simp [vaultExists, hfile]
  have hl := loadVault_locked O w blob hlocked hfile hblob
  simp [unlock, hex, hl, hver]

end Vault


namespace Vault

open Crypto

theorem deserializeCredentials_bad_count (pm : PasswordManager) :
    deserializeCredentials pm (ascii "AUTH_DATA_START\nx\n") =
      ({ pm with credentials := [] }, .error "stoul") := by
  have h : splitLines (ascii "AUTH_DATA_START\nx\n") = [ascii "AUTH_DATA_START", ascii "x"] := by
    decide
  have hs : stoul (ascii "x") = .error "stoul" := by decide
  unfold deserializeCredentials
  simp only [h, skipPast_head, parseAuthSection, hs]

/-- C6 (the code at the failing input). A locked manager, a vault file whose blob decrypts
under the attempted password to the text `AUTH_DATA_START`, newline, `x`, newline: the
verification passes, the password is stored and the lock flag cleared, and then the second
`loadVault` fails on `std::stoul("x")`. `unlock` returns `false`, yet the vault is unlocked
and holds the attempted password. -/
theorem unlock_false_but_unlocked (O : OpenSSL) (w : World) (blob : EncryptedData)
    (password : List Byte) (hlocked : w.pm.isLocked = true)
    (hfile : w.file = some (serialize blob)) (hblob : BlobOk blob)
    (hdec : decrypt O blob password = .ok (ascii "AUTH_DATA_START\nx\n")) :
    (unlock O w password).2 = false ∧ isVaultLocked (unlock O w password).1.pm = false ∧
      (unlock O w password).1.pm.masterPassword = password := by
  rw [unlock_locked_eq O w blob password _ hlocked hfile hblob hdec,
    deserializeCredentials_bad_count]
  exact ⟨rfl, rfl, rfl⟩

theorem unlock_false_but_unlocked_witness :
    (World.mk (PasswordManager.init (ascii "vault.dat"))
      (some (serialize ⟨[], [], ascii "AUTH_DATA_START\nx\n" ++ ascii "pw" ++
        List.replicate 14 0⟩))).pm.isLocked = true ∧
    BlobOk ⟨[], [], ascii "AUTH_DATA_START\nx\n" ++ ascii "pw" ++ List.replicate 14 0⟩ ∧
    decrypt toyOpenSSL ⟨[], [], ascii "AUTH_DATA_START\nx\n" ++ ascii "pw" ++
        List.replicate 14 0⟩ (ascii "pw") = .ok (ascii "AUTH_DATA_START\nx\n") ∧
    ((unlock toyOpenSSL (World.mk (PasswordManager.init (ascii "vault.dat"))
        (some (serialize ⟨[], [], ascii "AUTH_DATA_START\nx\n" ++ ascii "pw" ++
          List.replicate 14 0⟩))) (ascii "pw")).2 = false ∧
      isVaultLocked (unlock toyOpenSSL (World.mk (PasswordManager.init (ascii "vault.dat"))
        (some (serialize ⟨[], [], ascii "AUTH_DATA_START\nx\n" ++ ascii "pw" ++
          List.replicate 14 0⟩))) (ascii "pw")).1.pm = false ∧
      (unlock toyOpenSSL (World.mk (PasswordManager.init (ascii "vault.dat"))
        (some (serialize ⟨[], [], ascii "AUTH_DATA_START\nx\n" ++ ascii "pw" ++
          List.replicate 14 0⟩))) (ascii "pw")).1.pm.masterPassword = ascii "pw") :=
  ⟨rfl, ⟨by decide, by decide, by decide⟩, by decide,
    unlock_false_but_unlocked toyOpenSSL
      (World.mk (PasswordManager.init (ascii "vault.dat"))
        (some (serialize ⟨[], [], ascii "AUTH_DATA_START\nx\n" ++ ascii "pw" ++
          List.replicate 14 0⟩)))
      ⟨[], [], ascii "AUTH_DATA_START\nx\n" ++ ascii "pw" ++ List.replicate 14 0⟩ (ascii "pw")
      rfl rfl ⟨by decide, by decide, by decide⟩ (by decide)⟩

end Vault


namespace Vault

open Crypto

/-- When `deserializeCredentials` throws, the credential map has been cleared; the lock flag,
the master password and the path are as before. -/
theorem deserializeCredentials_error (pm : PasswordManager) (data : List Byte) (e : String)
    (h : (deserializeCredentials pm data).2 = .error e) :
    (deserializeCredentials pm data).1.credentials = [] ∧
      (deserializeCredentials pm data).1.isLocked = pm.isLocked ∧
      (deserializeCredentials pm data).1.masterPassword = pm.masterPassword ∧
      (deserializeCredentials pm data).1.vaultFilePath = pm.vaultFilePath := by
  unfold deserializeCredentials at h ⊢
  simp only at h ⊢
  cases hauth : parseAuthSection { pm with credentials := [] }
      (skipPast (ascii "AUTH_DATA_START") (splitLines data)) with
  | error e1 => exact ⟨rfl, rfl, rfl, rfl⟩
  | ok r =>
    obtain ⟨pm1, iss1⟩ := r
    obtain ⟨hc, hl, hp, hv, -⟩ := parseAuthSection_ok _ _ _ _ hauth
    rw [hauth] at h
    simp only at h ⊢
    cases hiss : skipPast (ascii "CREDENTIALS_START") iss1 with
    | nil =>
      rw [hiss] at h
      simp at h
    | cons line rest =>
      rw [hiss] at h
      simp only at h ⊢
      cases hs : stoul line with
      | error e2 => exact ⟨hc, hl, hp, hv⟩
      | ok credCount =>
        rw [hs] at h
        simp at h

/-- The members other than the credential map and the auth blob are never touched by
`deserializeCredentials`. -/
theorem deserializeCredentials_frame (pm : PasswordManager) (data : List Byte) :
    (deserializeCredentials pm data).1.isLocked = pm.isLocked ∧
      (deserializeCredentials pm data).1.masterPassword = pm.masterPassword ∧
      (deserializeCredentials pm data).1.vaultFilePath = pm.vaultFilePath := by
  unfold deserializeCredentials
  simp only
  cases hauth : parseAuthSection { pm with credentials := [] }
      (skipPast (ascii "AUTH_DATA_START") (splitLines data)) with
  | error e1 => exact ⟨rfl, rfl, rfl⟩
  | ok r =>
    obtain ⟨pm1, iss1⟩ := r
    obtain ⟨-, hl, hp, hv, -⟩ := parseAuthSection_ok _ _ _ _ hauth
    simp only
    cases skipPast (ascii "CREDENTIALS_START") iss1 with
    | nil => exact ⟨hl, hp, hv⟩
    | cons line rest =>
      simp only
      cases stoul line with
      | error e2 => exact ⟨hl, hp, hv⟩
      | ok credCount => exact ⟨hl, hp, hv⟩

end Vault

namespace Vault

open Crypto

/-- C16, counterexample. An unlocked manager holding one record, and a vault file whose blob
decrypts under the master password to a payload with an unparsable count header:
`loadVault` returns `false` and the credential map, which held a record, is now empty. -/
theorem loadVault_failure_clears_store :
    (loadVault toyOpenSSL
      (World.mk ⟨ascii "vault.dat", ascii "pw",
          [(ascii "mail", ⟨ascii "mail", ascii "u", ascii "p"⟩)], false, ⟨[], [], []⟩⟩
        (some (serialize ⟨[], [], ascii "AUTH_DATA_START\nx\n" ++ ascii "pw" ++
          List.replicate 14 0⟩)))).2 = false ∧
    (loadVault toyOpenSSL
      (World.mk ⟨ascii "vault.dat", ascii "pw",
          [(ascii "mail", ⟨ascii "mail", ascii "u", ascii "p"⟩)], false, ⟨[], [], []⟩⟩
        (some (serialize ⟨[], [], ascii "AUTH_DATA_START\nx\n" ++ ascii "pw" ++
          List.replicate 14 0⟩)))).1.pm.credentials = [] := by
  decide

/-- C16, amended (format errors). `loadVault` never throws. If the serialized blob is
malformed, it returns `false` and the whole state is as before. If the blob is read and
decrypted but `deserializeCredentials` throws on the text payload, it returns `false`, the
vault file, the lock flag, the master password and the path are as before, and the credential
map is left empty. -/
theorem loadVault_format_error (O : OpenSSL) (w : World) (fileData : List Byte)
    (hfile : w.file = some fileData) :
    (∀ e, deserialize fileData = .error e → loadVault O w = (w, false)) ∧
    (∀ blob payload e, deserialize fileData = .ok blob → w.pm.isLocked = false →
      decrypt O blob w.pm.masterPassword = .ok payload →
      (deserializeCredentials w.pm payload).2 = .error e →
      (loadVault O w).2 = false ∧ (loadVault O w).1.file = w.file ∧
        (loadVault O w).1.pm.isLocked = w.pm.isLocked ∧
        (loadVault O w).1.pm.masterPassword = w.pm.masterPassword ∧
        (loadVault O w).1.pm.vaultFilePath = w.pm.vaultFilePath ∧
        (loadVault O w).1.pm.credentials = []) := by
  constructor
  · intro e he
    simp [loadVault, hfile, he]
  · intro blob payload e hblob hunlocked hdec herr
    obtain ⟨h1, h2, h3, h4⟩ := deserializeCredentials_error w.pm payload e herr
    have hl : loadVault O w = ({ w with pm := (deserializeCredentials w.pm payload).1 }, false) := by
      simp only [loadVault, hfile, hblob, hunlocked, hdec, Bool.false_eq_true, if_false]
      rcases hd : deserializeCredentials w.pm payload with ⟨pm, r⟩
      rw [hd] at herr
      simp only at herr
      subst herr
      rfl
    rw [hl]
    exact ⟨rfl, rfl, h2, h3, h4, h1⟩

theorem loadVault_format_error_witness :
    (World.mk (PasswordManager.init (ascii "vault.dat")) (some [1, 2, 3])).file =
        some [1, 2, 3] ∧
      loadVault toyOpenSSL (World.mk (PasswordManager.init (ascii "vault.dat")) (some [1, 2, 3])) =
        (World.mk (PasswordManager.init (ascii "vault.dat")) (some [1, 2, 3]), false) :=
  ⟨rfl, (loadVault_format_error toyOpenSSL
      (World.mk (PasswordManager.init (ascii "vault.dat")) (some [1, 2, 3])) [1, 2, 3] rfl).1
      formatError (by decide)⟩

end Vault


/-! ## Lemmas: the size of the payload -/

namespace Vault

open Crypto

theorem digitsLE_length (fuel n : Nat) : (digitsLE fuel n).length ≤ fuel := by
  induction fuel generalizing n with
  | zero => simp [digitsLE]
  | succ f ih =>
    unfold digitsLE
    split
    · simp
    · have := ih (n / 10)
      simp only [List.length_cons]
      omega

theorem decimal_length (n : Nat) : (decimal n).length ≤ n + 1 := by
  unfold decimal
  rw [List.length_map, List.length_reverse]
  exact digitsLE_length _ _

theorem authLine_length (bytes : List Byte) : (authLine bytes).length ≤ 257 * bytes.length := by
  induction bytes with
  | nil => simp [authLine]
  | cons b bs ih =>
    rw [authLine_cons]
    have h1 := decimal_length b.val
    have h2 := b.isLt
    simp only [List.length_append, List.length_cons]
    omega

theorem serializeCredentials_length (pm : PasswordManager) :
    (serializeCredentials pm).length ≤
      69 + 258 * (serialize pm.authData).length + pm.credentials.length +
        (recordsText pm.credentials).length := by
  have h1 := decimal_length (serialize pm.authData).length
  have h2 := authLine_length (serialize pm.authData)
  have h3 := decimal_length pm.credentials.length
  have e1 : (ascii "AUTH_DATA_START").length = 15 := by decide
  have e2 : (ascii "AUTH_DATA_END").length = 13 := by decide
  have e3 : (ascii "CREDENTIALS_START").length = 17 := by decide
  have e4 : (ascii "CREDENTIALS_END\n").length = 16 := by decide
  rw [serializeCredentials_eq]
  simp only [List.length_append, List.length_cons, e1, e2, e3, e4]
  omega

end Vault


/-! ## Lemmas: a fresh vault -/

namespace Vault

open Crypto

/-- The state after a successful `initializeVault` on a missing file. -/
theorem initializeVault_fresh (O : OpenSSL) (hO : Lawful O) (path mp : List Byte) (lk : Bool)
    (au : EncryptedData) (password : List Byte) (s1 i1 s2 i2 : Nat → Byte)
    (hpw : password.length < 2 ^ 31) :
    ∃ auth blob, encrypt O (ascii "VAULT_AUTH_CHECK") password ⟨some s1, some i1⟩ = .ok auth ∧
      BlobOk auth ∧ (serialize auth).length ≤ 76 ∧
      encrypt O (serializeCredentials ⟨path, password, [], false, auth⟩) password
        ⟨some s2, some i2⟩ = .ok blob ∧
      decrypt O blob password = .ok (serializeCredentials ⟨path, password, [], false, auth⟩) ∧
      BlobOk blob ∧
      initializeVault O ⟨some s1, some i1⟩ (okEnv s2 i2) ⟨⟨path, mp, [], lk, au⟩, none⟩ password =
        (⟨⟨path, password, [], false, auth⟩, some (serialize blob)⟩, .ok true) := by
  obtain ⟨auth, ha1, -, ha3, ha4, ha5, ha6⟩ :=
    BlobOk_of_encrypt O hO (ascii "VAULT_AUTH_CHECK") password s1 i1 (by decide) hpw
  have hlen16 : (ascii "VAULT_AUTH_CHECK").length = 16 := by decide
  have hser : (serialize auth).length ≤ 76 := by
    rw [serialize_length, ha5, ha6]
    have : AES_BLOCK_SIZE = 16 := rfl
    omega
  have hpay : (serializeCredentials ⟨path, password, [], false, auth⟩).length +
      AES_BLOCK_SIZE < 2 ^ 31 := by
    have h := serializeCredentials_length ⟨path, password, [], false, auth⟩
    simp only [List.length_nil, recordsText, List.flatMap_nil] at h
    have : AES_BLOCK_SIZE = 16 := rfl
    have h31 : (2 : Nat) ^ 31 = 2147483648 := by norm_num
    omega
  obtain ⟨blob, hb1, hb2, hb3, hb4⟩ := saveVault_success O hO
    ⟨⟨path, password, [], false, auth⟩, none⟩ s2 i2 0 rfl hpay hpw
  refine ⟨auth, blob, ha1, ha3, hser, hb1, hb2, hb3, ?_⟩
  have hb4' : saveVault O (okEnv s2 i2) ⟨⟨path, password, [], false, auth⟩, none⟩ =
      (⟨⟨path, password, [], false, auth⟩, some (serialize blob)⟩, true) := hb4
  simp only [initializeVault, vaultExists, Option.isSome_none, Bool.false_eq_true, if_false,
    createAuthData, ha1, hb4']

end Vault

namespace Vault

open Crypto

/-- C5 (end-to-end scenario). With the library behaving as documented, every random draw and
write succeeding, and nothing encrypted under `CorrectHorse1!` decrypting under `wrong`:
starting with no vault file, `initializeVault("CorrectHorse1!")` and
`addCredential("email", "alice", "p@ss")` return `true`; after `lock()`,
`unlock("CorrectHorse1!")` returns `true` and `getCredential("email")` returns
`("email", "alice", "p@ss")`; whereas `unlock("wrong")` returns `false`, the vault stays
locked and `getServices()` is empty. -/
theorem end_to_end_scenario (O : OpenSSL) (hO : Lawful O)
    (hwrong : WrongPasswordFails O (ascii "CorrectHorse1!") (ascii "wrong"))
    (path : List Byte) (s1 i1 s2 i2 s3 i3 : Nat → Byte) :
    (initializeVault O ⟨some s1, some i1⟩ (okEnv s2 i2) ⟨PasswordManager.init path, none⟩
        (ascii "CorrectHorse1!")).2 = .ok true ∧
    (addCredential O (okEnv s3 i3)
        (initializeVault O ⟨some s1, some i1⟩ (okEnv s2 i2) ⟨PasswordManager.init path, none⟩
          (ascii "CorrectHorse1!")).1
        (ascii "email") (ascii "alice") (ascii "p@ss")).2 = true ∧
    (unlock O (lock (addCredential O (okEnv s3 i3)
        (initializeVault O ⟨some s1, some i1⟩ (okEnv s2 i2) ⟨PasswordManager.init path, none⟩
          (ascii "CorrectHorse1!")).1
        (ascii "email") (ascii "alice") (ascii "p@ss")).1) (ascii "CorrectHorse1!")).2 = true ∧
    getCredential (unlock O (lock (addCredential O (okEnv s3 i3)
        (initializeVault O ⟨some s1, some i1⟩ (okEnv s2 i2) ⟨PasswordManager.init path, none⟩
          (ascii "CorrectHorse1!")).1
        (ascii "email") (ascii "alice") (ascii "p@ss")).1) (ascii "CorrectHorse1!")).1.pm
        (ascii "email") = ⟨ascii "email", ascii "alice", ascii "p@ss"⟩ ∧
    (unlock O (lock (addCredential O (okEnv s3 i3)
        (initializeVault O ⟨some s1, some i1⟩ (okEnv s2 i2) ⟨PasswordManager.init path, none⟩
          (ascii "CorrectHorse1!")).1
        (ascii "email") (ascii "alice") (ascii "p@ss")).1) (ascii "wrong")).2 = false ∧
    isVaultLocked (unlock O (lock (addCredential O (okEnv s3 i3)
        (initializeVault O ⟨some s1, some i1⟩ (okEnv s2 i2) ⟨PasswordManager.init path, none⟩
          (ascii "CorrectHorse1!")).1
        (ascii "email") (ascii "alice") (ascii "p@ss")).1) (ascii "wrong")).1.pm = true ∧
    getServices (unlock O (lock (addCredential O (okEnv s3 i3)
        (initializeVault O ⟨some s1, some i1⟩ (okEnv s2 i2) ⟨PasswordManager.init path, none⟩
          (ascii "CorrectHorse1!")).1
        (ascii "email") (ascii "alice") (ascii "p@ss")).1) (ascii "wrong")).1.pm = [] := by
  obtain ⟨auth, blob1, ha, hauth, hser, -, -, -, hinit⟩ :=
    initializeVault_fresh O hO path [] true ⟨[], [], []⟩ (ascii "CorrectHorse1!") s1 i1 s2 i2
      (by decide)
  have hinit' : initializeVault O ⟨some s1, some i1⟩ (okEnv s2 i2)
      ⟨PasswordManager.init path, none⟩ (ascii "CorrectHorse1!") =
      (⟨⟨path, ascii "CorrectHorse1!", [], false, auth⟩, some (serialize blob1)⟩, .ok true) :=
    hinit
  rw [hinit']
  -- the store with the record, and its payload
  have hrec : (recordsText [(ascii "email", ⟨ascii "email", ascii "alice", ascii "p@ss"⟩)]).length
      = 47 := by decide
  have hpay : (serializeCredentials ⟨path, ascii "CorrectHorse1!",
      [(ascii "email", ⟨ascii "email", ascii "alice", ascii "p@ss"⟩)], false, auth⟩).length +
      AES_BLOCK_SIZE < 2 ^ 31 := by
    have h := serializeCredentials_length ⟨path, ascii "CorrectHorse1!",
      [(ascii "email", ⟨ascii "email", ascii "alice", ascii "p@ss"⟩)], false, auth⟩
    simp only [hrec, List.length_singleton] at h
    have : AES_BLOCK_SIZE = 16 := rfl
    have h31 : (2 : Nat) ^ 31 = 2147483648 := by norm_num
    omega
  obtain ⟨blob2, hb1, hb2, hb3, hb4⟩ := saveVault_success O hO
    ⟨⟨path, ascii "CorrectHorse1!",
      [(ascii "email", ⟨ascii "email", ascii "alice", ascii "p@ss"⟩)], false, auth⟩,
      some (serialize blob1)⟩ s3 i3 0 rfl hpay
    (by show (ascii "CorrectHorse1!").length < 2 ^ 31; decide)
  have hadd : addCredential O (okEnv s3 i3)
      ⟨⟨path, ascii "CorrectHorse1!", [], false, auth⟩, some (serialize blob1)⟩
      (ascii "email") (ascii "alice") (ascii "p@ss") =
      (⟨⟨path, ascii "CorrectHorse1!",
        [(ascii "email", ⟨ascii "email", ascii "alice", ascii "p@ss"⟩)], false, auth⟩,
        some (serialize blob2)⟩, true) := by
    simp only [addCredential, Bool.false_eq_true, if_false, mapAssign]
    exact hb4
  rw [hadd]
  have hlock : lock ⟨⟨path, ascii "CorrectHorse1!",
        [(ascii "email", ⟨ascii "email", ascii "alice", ascii "p@ss"⟩)], false, auth⟩,
        some (serialize blob2)⟩ =
      ⟨⟨path, [], [], true, auth⟩, some (serialize blob2)⟩ := by
    simp [lock, clearSensitiveData, secureErase_eq]
  rw [hlock]
  have hstor : Storable [(ascii "email", (⟨ascii "email", ascii "alice", ascii "p@ss"⟩ : Credential))] := by
    refine ⟨by simp [MapOk, mapKeys], ?_⟩
    intro pair hpair
    rw [List.mem_singleton] at hpair
    subst hpair
    exact ⟨rfl, by decide, by decide, by decide, by decide⟩
  have hgood := unlock_locked_eq O ⟨⟨path, [], [], true, auth⟩, some (serialize blob2)⟩ blob2
    (ascii "CorrectHorse1!") _ rfl rfl hb3 hb2
  have hround := deserializeCredentials_storable
    ⟨path, ascii "CorrectHorse1!", [], false, blob2⟩
    ⟨path, ascii "CorrectHorse1!",
      [(ascii "email", ⟨ascii "email", ascii "alice", ascii "p@ss"⟩)], false, auth⟩
    hauth (by show (1 : Nat) < 2 ^ 64; norm_num) hstor
  have hbad := unlock_locked_rejected O ⟨⟨path, [], [], true, auth⟩, some (serialize blob2)⟩ blob2
    (ascii "wrong") rfl rfl hb3 (hwrong _ _ _ hb1)
  rw [hgood, hbad]
  dsimp only
  rw [hround]
  refine ⟨rfl, rfl, rfl, ?_, rfl, rfl, rfl⟩
  show getCredential ⟨path, ascii "CorrectHorse1!",
      [(ascii "email", ⟨ascii "email", ascii "alice", ascii "p@ss"⟩)], false, auth⟩
      (ascii "email") = _
  rw [getCredential_unlocked _ rfl, mapFind_cons, if_pos rfl]
  rfl

end Vault

namespace Vault

open Crypto

/-- What a successful `encrypt` has gone through. -/
theorem encrypt_ok_inv (O : OpenSSL) (plaintext password : List Byte) (rnd : Entropy)
    (blob : EncryptedData) (h : encrypt O plaintext password rnd = .ok blob) :
    ∃ salt iv key out1 out2, generateRandomBytes SALT_SIZE rnd.salt = .ok salt ∧
      generateRandomBytes AES_IV_SIZE rnd.iv = .ok iv ∧
      deriveKey O password salt PBKDF2_ITERATIONS = .ok key ∧
      O.EVP_EncryptUpdate key iv plaintext = some out1 ∧
      O.EVP_EncryptFinal_ex key iv plaintext = some out2 ∧
      blob = ⟨salt, iv, out1 ++ out2⟩ := by
  unfold encrypt at h
  cases hs : generateRandomBytes SALT_SIZE rnd.salt with
  | error e => rw [hs] at h; simp at h
  | ok salt =>
    rw [hs] at h
    simp only at h
    cases hi : generateRandomBytes AES_IV_SIZE rnd.iv with
    | error e => rw [hi] at h; simp at h
    | ok iv =>
      rw [hi] at h
      simp only at h
      cases hk : deriveKey O password salt PBKDF2_ITERATIONS with
      | error e => rw [hk] at h; simp at h
      | ok key =>
        rw [hk] at h
        simp only at h
        split at h
        · simp at h
        · split at h
          · simp at h
          · cases h1 : O.EVP_EncryptUpdate key iv plaintext with
            | none => rw [h1] at h; simp at h
            | some out1 =>
              rw [h1] at h
              simp only at h
              cases h2 : O.EVP_EncryptFinal_ex key iv plaintext with
              | none => rw [h2] at h; simp at h
              | some out2 =>
                rw [h2] at h
                simp only at h
                split at h
                · simp at h
                · simp only [Except.ok.injEq] at h
                  exact ⟨salt, iv, key, out1, out2, rfl, rfl, hk, h1, h2, h.symm⟩

/-- What a successful `decrypt` has gone through. -/
theorem decrypt_ok_inv (O : OpenSSL) (blob : EncryptedData) (password payload : List Byte)
    (h : decrypt O blob password = .ok payload) :
    ∃ key out1 out2, deriveKey O password blob.salt PBKDF2_ITERATIONS = .ok key ∧
      O.EVP_DecryptUpdate key blob.iv blob.ciphertext = some out1 ∧
      O.EVP_DecryptFinal_ex key blob.iv blob.ciphertext = some out2 ∧
      payload = out1 ++ out2 := by
  unfold decrypt at h
  cases hk : deriveKey O password blob.salt PBKDF2_ITERATIONS with
  | error e => rw [hk] at h; simp at h
  | ok key =>
    rw [hk] at h
    simp only at h
    split at h
    · simp at h
    · cases h1 : O.EVP_DecryptUpdate key blob.iv blob.ciphertext with
      | none => rw [h1] at h; simp at h
      | some out1 =>
        rw [h1] at h
        simp only at h
        cases h2 : O.EVP_DecryptFinal_ex key blob.iv blob.ciphertext with
        | none => rw [h2] at h; simp at h
        | some out2 =>
          rw [h2] at h
          simp only at h
          split at h
          · simp at h
          · simp only [Except.ok.injEq] at h
            exact ⟨key, out1, out2, rfl, h1, h2, h.symm⟩

theorem toy_encrypt_ciphertext (plaintext password : List Byte) (rnd : Entropy)
    (blob : EncryptedData) (hpw : password.length < 2 ^ 31)
    (h : encrypt toyOpenSSL plaintext password rnd = .ok blob) :
    blob.ciphertext =
        plaintext ++
          (((password ++ List.replicate 32 0).take 32) ++ List.replicate 16 0).take 16 ∧
      blob.salt.length = 16 := by
  obtain ⟨salt, iv, key, out1, out2, hs, -, hk, h1, h2, hb⟩ := encrypt_ok_inv _ _ _ _ _ h
  have hsl : salt.length = 16 := generateRandomBytes_length _ _ _ hs
  rw [toy_deriveKey password salt _ hpw (by rw [hsl]; decide)] at hk
  rw [toy_encUpdate] at h1
  rw [toy_encFinal] at h2
  cases hk
  cases h1
  cases h2
  rw [hb]
  exact ⟨rfl, hsl⟩

theorem verifyPassword_eq (O : OpenSSL) (blob : EncryptedData) (password : List Byte) :
    verifyPassword O blob password = true ↔
      ∃ payload, decrypt O blob password = .ok payload := by
  unfold verifyPassword
  cases decrypt O blob password <;> simp

theorem toy_verifyPassword_false (blob : EncryptedData) (password : List Byte)
    (hpw : password.length < 2 ^ 31) (hs : blob.salt.length < 2 ^ 31)
    (h : blob.ciphertext.drop (blob.ciphertext.length - 16) ≠
      (((password ++ List.replicate 32 0).take 32) ++ List.replicate 16 0).take 16) :
    verifyPassword toyOpenSSL blob password = false := by
  rw [← Bool.not_eq_true, verifyPassword_eq]
  rintro ⟨payload, hd⟩
  obtain ⟨key, out1, out2, hk, -, h2, -⟩ := decrypt_ok_inv _ _ _ _ hd
  rw [toy_deriveKey password blob.salt _ hpw hs] at hk
  cases hk
  rw [toy_decFinal] at h2
  by_cases hc : 16 ≤ blob.ciphertext.length ∧
      blob.ciphertext.drop (blob.ciphertext.length - 16) =
        ((password ++ List.replicate AES_KEY_SIZE 0).take AES_KEY_SIZE ++
          List.replicate 16 0).take 16
  · exact h hc.2
  · rw [if_neg hc] at h2
    cases h2

theorem toy_wrong_password_fails :
    WrongPasswordFails toyOpenSSL (ascii "CorrectHorse1!") (ascii "wrong") := by
  intro plaintext rnd blob h
  obtain ⟨hct, hsl⟩ := toy_encrypt_ciphertext _ _ _ _ (by decide) h
  apply toy_verifyPassword_false _ _ (by decide) (by rw [hsl]; decide)
  rw [hct]
  have htag : ((((ascii "CorrectHorse1!") ++ List.replicate 32 (0 : Byte)).take 32) ++
      List.replicate 16 0).take 16 = ascii "CorrectHorse1!" ++ [0, 0] := by decide
  rw [htag, List.length_append]
  have hl : (ascii "CorrectHorse1!" ++ [(0 : Byte), 0]).length = 16 := by decide
  rw [hl, Nat.add_sub_cancel, List.drop_left' rfl]
  decide

theorem end_to_end_scenario_witness :
    Lawful toyOpenSSL ∧
    WrongPasswordFails toyOpenSSL (ascii "CorrectHorse1!") (ascii "wrong") ∧
    (unlock toyOpenSSL (lock (addCredential toyOpenSSL (okEnv (fun _ => 5) (fun _ => 6))
        (initializeVault toyOpenSSL ⟨some (fun _ => 1), some (fun _ => 2)⟩
          (okEnv (fun _ => 3) (fun _ => 4)) ⟨PasswordManager.init (ascii "vault.dat"), none⟩
          (ascii "CorrectHorse1!")).1
        (ascii "email") (ascii "alice") (ascii "p@ss")).1) (ascii "CorrectHorse1!")).2 = true :=
  ⟨toyOpenSSL_lawful, toy_wrong_password_fails,
    (end_to_end_scenario toyOpenSSL toyOpenSSL_lawful toy_wrong_password_fails
      (ascii "vault.dat") (fun _ => 1) (fun _ => 2) (fun _ => 3) (fun _ => 4) (fun _ => 5)
      (fun _ => 6)).2.2.1⟩

end Vault


/-! ## Lemmas: the file after a save -/

namespace Vault

open Crypto

theorem encrypt_ok_draws (O : OpenSSL) (plaintext password : List Byte) (rnd : Entropy)
    (blob : EncryptedData) (h : encrypt O plaintext password rnd = .ok blob) :
    ∃ salt iv, rnd = ⟨some salt, some iv⟩ := by
  obtain ⟨ds, di⟩ := rnd
  cases ds with
  | none => simp [encrypt, generateRandomBytes] at h
  | some salt =>
    cases di with
    | none => simp [encrypt, generateRandomBytes] at h
    | some iv => exact ⟨salt, iv, rfl⟩

end Vault

namespace Vault

open Crypto

set_option maxRecDepth 100000

end Vault


/-! ## Lemmas: what a locked manager holds -/

namespace Vault

open Crypto

theorem loadVault_isLocked (O : OpenSSL) (w : World) :
    (loadVault O w).1.pm.isLocked = w.pm.isLocked := by
  unfold loadVault
  cases w.file with
  | none => rfl
  | some fileData =>
    simp only
    cases deserialize fileData with
    | error e => rfl
    | ok encrypted =>
      simp only
      cases hl : w.pm.isLocked with
      | true => simp [hl]
      | false =>
        simp only [Bool.false_eq_true, if_false]
        cases decrypt O encrypted w.pm.masterPassword with
        | error e => exact hl
        | ok decrypted =>
          simp only
          have hf := (deserializeCredentials_frame w.pm decrypted).1
          rcases hd : deserializeCredentials w.pm decrypted with ⟨pm, r⟩
          rw [hd] at hf
          cases r with
          | error e => exact hf.trans hl
          | ok u => exact hf.trans hl

/-- On a locked manager `loadVault` touches nothing but the auth blob. -/
theorem loadVault_locked_frame (O : OpenSSL) (w : World) (hl : w.pm.isLocked = true) :
    (loadVault O w).1.pm.credentials = w.pm.credentials ∧
      (loadVault O w).1.pm.masterPassword = w.pm.masterPassword := by
  unfold loadVault
  cases w.file with
  | none => exact ⟨rfl, rfl⟩
  | some fileData =>
    simp only
    cases deserialize fileData with
    | error e => exact ⟨rfl, rfl⟩
    | ok encrypted => simp [hl]

/-- Once a manager is unlocked, `unlock` leaves it unlocked. -/
theorem unlock_of_unlocked (O : OpenSSL) (w : World) (password : List Byte)
    (hl : w.pm.isLocked = false) : (unlock O w password).1.pm.isLocked = false := by
  have h1 : (loadVault O w).1.pm.isLocked = false := (loadVault_isLocked O w).trans hl
  unfold unlock
  split
  · exact hl
  · simp only
    split
    · exact h1
    · split
      · exact h1
      · rw [loadVault_isLocked]

/-- A locked manager that `unlock` leaves locked holds the credentials and the master password
it held before. -/
theorem unlock_still_locked (O : OpenSSL) (w : World) (password : List Byte)
    (hl : w.pm.isLocked = true) (h : (unlock O w password).1.pm.isLocked = true) :
    (unlock O w password).1.pm.credentials = w.pm.credentials ∧
      (unlock O w password).1.pm.masterPassword = w.pm.masterPassword := by
  have h1 := loadVault_locked_frame O w hl
  unfold unlock at h ⊢
  split
  · exact ⟨rfl, rfl⟩
  · rename_i hv
    simp only [hv] at h
    simp only at h ⊢
    split
    · exact h1
    · rename_i h2
      simp only [h2] at h
      split
      · exact h1
      · rename_i h3
        simp only [h3, Bool.false_eq_true, if_false, loadVault_isLocked] at h

theorem initializeVault_unlocks (O : OpenSSL) (authRnd : Entropy) (env : SaveEnv) (w : World)
    (password : List Byte) (hv : vaultExists w = false) :
    (initializeVault O authRnd env w password).1.pm.isLocked = false := by
  unfold initializeVault
  simp only [hv, Bool.false_eq_true, if_false]
  cases createAuthData O password authRnd with
  | error e => rfl
  | ok auth => simp only [saveVault_pm]

theorem removeCredential_isLocked (O : OpenSSL) (env : SaveEnv) (w : World)
    (service : List Byte) :
    (removeCredential O env w service).1.pm.isLocked = w.pm.isLocked := by
  unfold removeCredential
  cases hl : w.pm.isLocked with
  | true => simp [hl]
  | false =>
    simp only [Bool.false_eq_true, if_false]
    cases mapFind w.pm.credentials service with
    | none => exact hl
    | some c =>
      simp only [saveVault_pm]
      exact hl

/-- Every call keeps this true: a locked manager holds no credential and no master
password. -/
theorem step_locked_empty (O : OpenSSL) (op : Op) (w : World)
    (hw : w.pm.isLocked = true → w.pm.credentials = [] ∧ w.pm.masterPassword = [])
    (h : (op.run O w).pm.isLocked = true) :
    (op.run O w).pm.credentials = [] ∧ (op.run O w).pm.masterPassword = [] := by
  cases op with
  | initializeVault authRnd env password =>
    simp only [Op.run] at h ⊢
    cases hv : vaultExists w with
    | true =>
      have e : Vault.initializeVault O authRnd env w password = (w, .ok false) := by
        simp [Vault.initializeVault, hv]
      rw [e] at h ⊢
      exact hw h
    | false =>
      rw [initializeVault_unlocks O authRnd env w password hv] at h
      cases h
  | unlock password =>
    simp only [Op.run] at h ⊢
    cases hl : w.pm.isLocked with
    | false =>
      rw [unlock_of_unlocked O w password hl] at h
      simp at h
    | true =>
      obtain ⟨h1, h2⟩ := unlock_still_locked O w password hl h
      rw [h1, h2]
      exact hw hl
  | lock =>
    simp only [Op.run, lock, clearSensitiveData, secureErase_eq, and_self]
  | addCredential env service username password =>
    simp only [Op.run] at h ⊢
    cases hl : w.pm.isLocked with
    | false =>
      rw [addCredential_pm O env w service username password hl] at h
      simp only at h
      rw [hl] at h
      simp at h
    | true =>
      have e : addCredential O env w service username password = (w, false) := by
        simp [addCredential, hl]
      rw [e]
      exact hw hl
  | removeCredential env service =>
    simp only [Op.run] at h ⊢
    rw [removeCredential_isLocked] at h
    have e : Vault.removeCredential O env w service = (w, false) := by
      simp [Vault.removeCredential, h]
    rw [e]
    exact hw h
  | saveVault env =>
    simp only [Op.run, saveVault_pm] at h ⊢
    exact hw h
  | loadVault =>
    simp only [Op.run] at h ⊢
    rw [loadVault_isLocked] at h
    obtain ⟨h1, h2⟩ := loadVault_locked_frame O w h
    rw [h1, h2]
    exact hw h
  | clearSensitiveData =>
    simp only [Op.run, clearSensitiveData, secureErase_eq, and_self]

theorem runOps_locked_empty (O : OpenSSL) (ops : List Op) (w : World)
    (hw : w.pm.isLocked = true → w.pm.credentials = [] ∧ w.pm.masterPassword = [])
    (h : (runOps O ops w).pm.isLocked = true) :
    (runOps O ops w).pm.credentials = [] ∧ (runOps O ops w).pm.masterPassword = [] := by
  induction ops generalizing w with
  | nil => exact hw h
  | cons op ops ih =>
    simp only [runOps, List.foldl_cons] at h ⊢
    exact ih (op.run O w) (fun hl => step_locked_empty O op w hw hl) h

/-- C9 (lock on a locked vault is a no-op). Take a manager as the constructor leaves it, with
any vault file or none, and make any sequence of calls of `initializeVault`, `unlock`, `lock`,
`addCredential`, `removeCredential`, `saveVault`, `loadVault` and `clearSensitiveData`, with
any arguments and any behaviour of the library, the random source and the file writes. If the
manager is locked afterwards, its credential map and master password are empty and `lock`
leaves the whole state as it is. -/
theorem lock_noop_when_locked (O : OpenSSL) (path : List Byte) (file : Option (List Byte))
    (ops : List Op)
    (hlocked : (runOps O ops ⟨PasswordManager.init path, file⟩).pm.isLocked = true) :
    (runOps O ops ⟨PasswordManager.init path, file⟩).pm.credentials = [] ∧
      (runOps O ops ⟨PasswordManager.init path, file⟩).pm.masterPassword = [] ∧
      lock (runOps O ops ⟨PasswordManager.init path, file⟩) =
        runOps O ops ⟨PasswordManager.init path, file⟩ := by
  obtain ⟨h1, h2⟩ := runOps_locked_empty O ops ⟨PasswordManager.init path, file⟩
    (fun _ => ⟨rfl, rfl⟩) hlocked
  refine ⟨h1, h2, ?_⟩
  rcases hr : runOps O ops ⟨PasswordManager.init path, file⟩ with ⟨⟨p, mp, cr, lk, au⟩, f⟩
  rw [hr] at h1 h2 hlocked
  simp only at h1 h2 hlocked
  subst h1 h2 hlocked
  simp only [lock, clearSensitiveData, secureErase_eq]

set_option maxRecDepth 100000

theorem lock_noop_when_locked_witness :
    (runOps toyOpenSSL
        [Op.initializeVault ⟨some (fun _ => 1), some (fun _ => 2)⟩
            (okEnv (fun _ => 3) (fun _ => 4)) (ascii "pw"),
          Op.addCredential (okEnv (fun _ => 5) (fun _ => 6)) (ascii "mail") (ascii "u")
            (ascii "p"),
          Op.lock, Op.unlock (ascii "no")]
        ⟨PasswordManager.init (ascii "vault.dat"), none⟩).pm.isLocked = true ∧
    lock (runOps toyOpenSSL
        [Op.initializeVault ⟨some (fun _ => 1), some (fun _ => 2)⟩
            (okEnv (fun _ => 3) (fun _ => 4)) (ascii "pw"),
          Op.addCredential (okEnv (fun _ => 5) (fun _ => 6)) (ascii "mail") (ascii "u")
            (ascii "p"),
          Op.lock, Op.unlock (ascii "no")]
        ⟨PasswordManager.init (ascii "vault.dat"), none⟩) =
      runOps toyOpenSSL
        [Op.initializeVault ⟨some (fun _ => 1), some (fun _ => 2)⟩
            (okEnv (fun _ => 3) (fun _ => 4)) (ascii "pw"),
          Op.addCredential (okEnv (fun _ => 5) (fun _ => 6)) (ascii "mail") (ascii "u")
            (ascii "p"),
          Op.lock, Op.unlock (ascii "no")]
        ⟨PasswordManager.init (ascii "vault.dat"), none⟩ :=
  ⟨by decide,
    (lock_noop_when_locked toyOpenSSL (ascii "vault.dat") none
      [Op.initializeVault ⟨some (fun _ => 1), some (fun _ => 2)⟩
          (okEnv (fun _ => 3) (fun _ => 4)) (ascii "pw"),
        Op.addCredential (okEnv (fun _ => 5) (fun _ => 6)) (ascii "mail") (ascii "u")
          (ascii "p"),
        Op.lock, Op.unlock (ascii "no")]
      (by decide)).2.2⟩

end Vault


/-! ## Lemmas: the auth blob through a session -/

namespace Vault

open Crypto

theorem length_le_recordsText (m : CredMap) : m.length ≤ (recordsText m).length := by
  induction m with
  | nil => exact Nat.zero_le _
  | cons pair m ih =>
    have h := recordsText_cons pair m []
    simp only [List.append_nil] at h
    rw [h]
    have e : 1 ≤ (recordText pair.2).length := by
      simp only [recordText, List.length_append]
      have : (ascii "---\n").length = 4 := by decide
      omega
    simp only [List.length_cons, List.length_append]
    omega

theorem length_le_serializeCredentials (pm : PasswordManager) :
    pm.credentials.length ≤ (serializeCredentials pm).length := by
  have h := length_le_recordsText pm.credentials
  rw [serializeCredentials_eq]
  simp only [List.length_append, List.length_cons]
  omega

theorem AuthKept_disk (O : OpenSSL) (password : List Byte) (auth : EncryptedData) (w : World)
    (hA : BlobOk auth) (h : AuthKept O password auth w) :
    diskAuthData O password w = some auth := by
  obtain ⟨pm, blob, hfile, hb, hdec, hauth, hcount, _⟩ := h
  subst hauth
  unfold diskAuthData
  rw [hfile]
  simp only
  rw [deserialize_serialize blob hb.1 hb.2.1 hb.2.2]
  simp only
  rw [hdec]
  simp only
  rw [deserializeCredentials_written _ pm hA hcount]

theorem AuthKept_lock (O : OpenSSL) (password : List Byte) (auth : EncryptedData) (w : World)
    (h : AuthKept O password auth w) : AuthKept O password auth (lock w) := by
  obtain ⟨pm, blob, hfile, hb, hdec, hauth, hcount, _⟩ := h
  refine ⟨pm, blob, hfile, hb, hdec, hauth, hcount, ?_⟩
  intro hl
  simp [lock] at hl

/-- A `saveVault` during which the file opens and every byte reaches it keeps `AuthKept`. -/
theorem AuthKept_saveVault (O : OpenSSL) (hO : Lawful O) (password : List Byte)
    (auth : EncryptedData) (env : SaveEnv) (w : World)
    (hopen : env.openOk = true) (hwrite : env.writeOk = true) (hflush : env.flushOk = true)
    (hpw : password.length < 2 ^ 31)
    (hfile : ∃ pm blob, w.file = some (serialize blob) ∧ BlobOk blob ∧
      decrypt O blob password = .ok (serializeCredentials pm) ∧
      pm.authData = auth ∧ pm.credentials.length < 2 ^ 64)
    (hl : w.pm.isLocked = false) (hauth : w.pm.authData = auth)
    (hmp : w.pm.masterPassword = password)
    (hsize : (serializeCredentials w.pm).length + AES_BLOCK_SIZE < 2 ^ 32) :
    AuthKept O password auth (saveVault O env w).1 := by
  obtain ⟨pm, blob, hf, hb, hdec, hau, hcount⟩ := hfile
  unfold saveVault
  simp only [hl, Bool.false_eq_true, if_false, hopen, hwrite, hflush, Bool.not_true, if_true,
    hmp, Bool.and_self]
  cases he : encrypt O (serializeCredentials w.pm) password env.rnd with
  | error e =>
    exact ⟨pm, blob, hf, hb, hdec, hau, hcount, fun _ => ⟨hauth, hmp⟩⟩
  | ok encrypted =>
    simp only
    obtain ⟨salt, iv, hrnd⟩ := encrypt_ok_draws O _ _ _ _ he
    have hlen : (serializeCredentials w.pm).length + AES_BLOCK_SIZE < 2 ^ 31 := by
      by_contra hc
      obtain ⟨e, hE⟩ := encrypt_error_of_large O (serializeCredentials w.pm) password env.rnd
        (Nat.le_of_not_lt hc) hsize
      rw [hE] at he
      cases he
    obtain ⟨blob2, h1, h2, h3, _, _, _⟩ :=
      BlobOk_of_encrypt O hO (serializeCredentials w.pm) password salt iv hlen hpw
    rw [hrnd] at he
    rw [he] at h1
    cases h1
    refine ⟨w.pm, encrypted, rfl, h3, h2, hauth, ?_, fun _ => ⟨hauth, hmp⟩⟩
    have h4 := length_le_serializeCredentials w.pm
    have : AES_BLOCK_SIZE = 16 := rfl
    have : (2 : Nat) ^ 31 < 2 ^ 64 := by norm_num
    omega

theorem AuthKept_addCredential (O : OpenSSL) (hO : Lawful O) (pw0 : List Byte)
    (auth : EncryptedData) (env : SaveEnv) (w : World) (service username password : List Byte)
    (hopen : env.openOk = true) (hwrite : env.writeOk = true) (hflush : env.flushOk = true)
    (hpw : pw0.length < 2 ^ 31)
    (hsize : (addCredential O env w service username password).1.pm.isLocked = false →
      (serializeCredentials (addCredential O env w service username password).1.pm).length +
        AES_BLOCK_SIZE < 2 ^ 32)
    (h : AuthKept O pw0 auth w) :
    AuthKept O pw0 auth (addCredential O env w service username password).1 := by
  cases hl : w.pm.isLocked with
  | true =>
    have e : addCredential O env w service username password = (w, false) := by
      simp [addCredential, hl]
    rw [e]
    exact h
  | false =>
    have e : addCredential O env w service username password =
        saveVault O env { w with pm := { w.pm with
          credentials := mapAssign w.pm.credentials service ⟨service, username, password⟩ } } := by
      simp [addCredential, hl]
    rw [e] at hsize ⊢
    rw [saveVault_pm] at hsize
    obtain ⟨pm, blob, hf, hb, hdec, hau, hcount, hun⟩ := h
    exact AuthKept_saveVault O hO pw0 auth env _ hopen hwrite hflush hpw
      ⟨pm, blob, hf, hb, hdec, hau, hcount⟩ hl (hun hl).1 (hun hl).2 (hsize hl)

theorem AuthKept_removeCredential (O : OpenSSL) (hO : Lawful O) (pw0 : List Byte)
    (auth : EncryptedData) (env : SaveEnv) (w : World) (service : List Byte)
    (hopen : env.openOk = true) (hwrite : env.writeOk = true) (hflush : env.flushOk = true)
    (hpw : pw0.length < 2 ^ 31)
    (hsize : (removeCredential O env w service).1.pm.isLocked = false →
      (serializeCredentials (removeCredential O env w service).1.pm).length +
        AES_BLOCK_SIZE < 2 ^ 32)
    (h : AuthKept O pw0 auth w) :
    AuthKept O pw0 auth (removeCredential O env w service).1 := by
  cases hl : w.pm.isLocked with
  | true =>
    have e : removeCredential O env w service = (w, false) := by
      simp [removeCredential, hl]
    rw [e]
    exact h
  | false =>
    cases hf : mapFind w.pm.credentials service with
    | none =>
      have e : removeCredential O env w service = (w, false) := by
        simp [removeCredential, hl, hf]
      rw [e]
      exact h
    | some c =>
      have e : removeCredential O env w service =
          saveVault O env { w with pm := { w.pm with
            credentials := mapErase w.pm.credentials service } } := by
        simp [removeCredential, hl, hf]
      rw [e] at hsize ⊢
      rw [saveVault_pm] at hsize
      obtain ⟨pm, blob, hf, hb, hdec, hau, hcount, hun⟩ := h
      exact AuthKept_saveVault O hO pw0 auth env _ hopen hwrite hflush hpw
        ⟨pm, blob, hf, hb, hdec, hau, hcount⟩ hl (hun hl).1 (hun hl).2 (hsize hl)

theorem AuthKept_loadVault (O : OpenSSL) (pw0 : List Byte) (auth : EncryptedData)
    (hA : BlobOk auth) (w : World) (hl : w.pm.isLocked = false)
    (hmp : w.pm.masterPassword = pw0)
    (hfile : ∃ pm blob, w.file = some (serialize blob) ∧ BlobOk blob ∧
      decrypt O blob pw0 = .ok (serializeCredentials pm) ∧
      pm.authData = auth ∧ pm.credentials.length < 2 ^ 64) :
    AuthKept O pw0 auth (loadVault O w).1 := by
  obtain ⟨pm, blob, hf, hb, hdec, hau, hcount⟩ := hfile
  subst hau
  rw [loadVault_unlocked O w blob (serializeCredentials pm) hl hf hb (by rw [hmp]; exact hdec),
    deserializeCredentials_written _ pm hA hcount]
  exact ⟨pm, blob, hf, hb, hdec, rfl, hcount, fun _ => ⟨rfl, hmp⟩⟩

/-- `unlock` after a first `loadVault` that succeeded. -/
theorem unlock_after_load (O : OpenSSL) (w w1 : World) (password : List Byte)
    (hv : vaultExists w = true) (hload : loadVault O w = (w1, true)) :
    unlock O w password =
      if verifyPassword O w1.pm.authData password then
        loadVault O { w1 with pm := { w1.pm with masterPassword := password, isLocked := false } }
      else (w1, false) := by
  unfold unlock
  simp only [hv, hload, Bool.not_true, Bool.false_eq_true, if_false]
  cases verifyPassword O w1.pm.authData password <;> simp

/-- An `unlock` with the master password, or with a password that its check refuses, keeps
`AuthKept`. -/
theorem AuthKept_unlock (O : OpenSSL) (pw0 : List Byte) (auth : EncryptedData)
    (hA : BlobOk auth) (w : World) (password : List Byte)
    (hpw : password = pw0 ∨
      verifyPassword O (loadVault O w).1.pm.authData password = false)
    (h : AuthKept O pw0 auth w) : AuthKept O pw0 auth (unlock O w password).1 := by
  obtain ⟨pm, blob, hf, hb, hdec, hau, hcount, hun⟩ := h
  subst hau
  cases hl : w.pm.isLocked with
  | true =>
    rcases hpw with hpw | hpw
    · subst hpw
      rw [unlock_locked_eq O w blob password _ hl hf hb hdec,
        deserializeCredentials_written _ pm hA hcount]
      exact ⟨pm, blob, hf, hb, hdec, rfl, hcount, fun _ => ⟨rfl, rfl⟩⟩
    · rw [loadVault_locked O w blob hl hf hb] at hpw
      rw [unlock_locked_rejected O w blob password hl hf hb hpw]
      refine ⟨pm, blob, hf, hb, hdec, rfl, hcount, ?_⟩
      intro h2
      simp only at h2
      rw [hl] at h2
      cases h2
  | false =>
    obtain ⟨hau, hmp⟩ := hun hl
    have hv : vaultExists w = true := by simp [vaultExists, hf]
    have hload := loadVault_unlocked O w blob (serializeCredentials pm) hl hf hb
      (by rw [hmp]; exact hdec)
    rw [deserializeCredentials_written _ pm hA hcount] at hload
    simp only at hload
    rw [hload] at hpw
    rw [unlock_after_load O w _ password hv hload]
    simp only at hpw ⊢
    cases hver : verifyPassword O pm.authData password with
    | false =>
      simp only [Bool.false_eq_true, if_false]
      exact ⟨pm, blob, hf, hb, hdec, rfl, hcount, fun _ => ⟨rfl, hmp⟩⟩
    | true =>
      simp only [if_true]
      rcases hpw with hpw | hpw
      · subst hpw
        exact AuthKept_loadVault O password pm.authData hA _ rfl rfl
          ⟨pm, blob, hf, hb, hdec, rfl, hcount⟩
      · rw [hpw] at hver
        cases hver

theorem runOps_AuthKept (O : OpenSSL) (hO : Lawful O) (pw0 : List Byte) (auth : EncryptedData)
    (hA : BlobOk auth) (hlen : pw0.length < 2 ^ 31) (ops : List Op)
    (w : World) (hw : AuthKept O pw0 auth w)
    (hcalls : ∀ op ∈ ops, Op.isSessionCall op = true)
    (hrej : WrongPasswordsRejected O pw0 w ops)
    (hsize : PayloadsFit O w ops) : AuthKept O pw0 auth (runOps O ops w) := by
  induction ops generalizing w with
  | nil => exact hw
  | cons op ops ih =>
    simp only [runOps, List.foldl_cons]
    obtain ⟨hs1, hs2⟩ := hsize
    obtain ⟨hr1, hr2⟩ := hrej
    have hc := hcalls op (List.mem_cons_self _ _)
    refine ih (op.run O w) ?_ (fun o ho => hcalls o (List.mem_cons_of_mem _ ho)) hr2 hs2
    cases op with
    | initializeVault authRnd env password => cases hc
    | saveVault env => cases hc
    | loadVault => cases hc
    | clearSensitiveData => cases hc
    | lock => exact AuthKept_lock O pw0 auth w hw
    | unlock password => exact AuthKept_unlock O pw0 auth hA w password hr1 hw
    | addCredential env service username password =>
      simp only [Op.isSessionCall, Bool.and_eq_true] at hc
      exact AuthKept_addCredential O hO pw0 auth env w service username password hc.1.1
        hc.1.2 hc.2 hlen hs1 hw
    | removeCredential env service =>
      simp only [Op.isSessionCall, Bool.and_eq_true] at hc
      exact AuthKept_removeCredential O hO pw0 auth env w service hc.1.1 hc.1.2 hc.2 hlen
        hs1 hw

/-- The auth blob is kept through a session in which `unlock` refuses every password other
than the master password. The library behaves as documented. A newly constructed manager with
no vault file is initialised with a master password shorter than `2 ^ 31` bytes, the random
draws succeeding and every byte written reaching the file: `initializeVault` returns `true`
and `createAuthData` made a blob. Then any sequence of `lock`, `unlock`, `addCredential` and
`removeCredential` calls is made, in which every byte written reaches the file, the payload
of an unlocked vault stays shorter than `2 ^ 32 - 16` bytes, and in every `unlock` the
password is the master password or is refused by the check of that call. Afterwards, if the
vault is unlocked the manager holds that blob, and the payload in the vault file embeds that
blob. -/
theorem auth_blob_kept_in_session (O : OpenSSL) (hO : Lawful O) (path pw0 : List Byte)
    (s1 i1 s2 i2 : Nat → Byte) (ops : List Op) (hlen : pw0.length < 2 ^ 31)
    (hcalls : ∀ op ∈ ops, Op.isSessionCall op = true)
    (hrej : WrongPasswordsRejected O pw0 (initializeVault O ⟨some s1, some i1⟩ (okEnv s2 i2)
      ⟨PasswordManager.init path, none⟩ pw0).1 ops)
    (hsize : PayloadsFit O (initializeVault O ⟨some s1, some i1⟩ (okEnv s2 i2)
      ⟨PasswordManager.init path, none⟩ pw0).1 ops) :
    ∃ auth, createAuthData O pw0 ⟨some s1, some i1⟩ = .ok auth ∧
      (initializeVault O ⟨some s1, some i1⟩ (okEnv s2 i2)
        ⟨PasswordManager.init path, none⟩ pw0).2 = .ok true ∧
      ((runOps O ops (initializeVault O ⟨some s1, some i1⟩ (okEnv s2 i2)
          ⟨PasswordManager.init path, none⟩ pw0).1).pm.isLocked = false →
        (runOps O ops (initializeVault O ⟨some s1, some i1⟩ (okEnv s2 i2)
          ⟨PasswordManager.init path, none⟩ pw0).1).pm.authData = auth) ∧
      diskAuthData O pw0 (runOps O ops (initializeVault O ⟨some s1, some i1⟩ (okEnv s2 i2)
        ⟨PasswordManager.init path, none⟩ pw0).1) = some auth := by
  obtain ⟨auth, blob, hencA, hA, _, henc, hdec, hb, hinit⟩ :=
    initializeVault_fresh O hO path [] true ⟨[], [], []⟩ pw0 s1 i1 s2 i2 hlen
  have hinit2 : initializeVault O ⟨some s1, some i1⟩ (okEnv s2 i2)
      ⟨PasswordManager.init path, none⟩ pw0 =
      (⟨⟨path, pw0, [], false, auth⟩, some (serialize blob)⟩, .ok true) := hinit
  rw [hinit2] at hrej hsize ⊢
  have hk := runOps_AuthKept O hO pw0 auth hA hlen ops
    ⟨⟨path, pw0, [], false, auth⟩, some (serialize blob)⟩
    ⟨⟨path, pw0, [], false, auth⟩, blob, rfl, hb, hdec, rfl,
      by show (0 : Nat) < 2 ^ 64; norm_num, fun _ => ⟨rfl, rfl⟩⟩
    hcalls hrej hsize
  refine ⟨auth, hencA, rfl, ?_, AuthKept_disk O pw0 auth _ hA hk⟩
  obtain ⟨_, _, _, _, _, _, _, hun⟩ := hk
  exact fun hl => (hun hl).1

theorem shift_decFinal (key iv input : List Byte) :
    shiftOpenSSL.EVP_DecryptFinal_ex key iv input =
      if 16 ≤ input.length then some [] else none := rfl

theorem shift_kdf (password : List Byte) (passlen : Int) (salt : List Byte) (saltlen : Int)
    (iter keylen : Nat) :
    shiftOpenSSL.PKCS5_PBKDF2_HMAC password passlen salt saltlen iter keylen =
      padKey password passlen saltlen keylen := rfl

theorem shiftOpenSSL_lawful : Lawful shiftOpenSSL where
  kdf := fun password salt _ _ =>
    ⟨_, (shift_kdf _ _ _ _ _ _).trans (padKey_of_length _ _ _), by simp [AES_KEY_SIZE]⟩
  cipher := by
    intro key iv input _ _ _
    refine ⟨rfl, rfl, _, _, rfl, rfl, ?_, _, [], rfl, ?_, ?_⟩
    · simp [AES_BLOCK_SIZE]
    · rw [shift_decFinal, if_pos (by simp)]
    · have hl : (input.map (fun b => b + key.headD 0) ++ List.replicate 16 (0 : Byte)).length - 16
          = (input.map (fun b => b + key.headD 0)).length := by simp
      rw [hl, List.take_left', List.append_nil, List.map_map]
      · have : ((fun b : Byte => b - key.headD 0) ∘ fun b => b + key.headD 0) = id := by
          funext b
          simp
        rw [this, List.map_id]
      · rfl
  decryptBound := by
    intro key iv input dec1 dec2 h1 h2
    have e1 : dec1 = (input.take (input.length - 16)).map (fun b => b - key.headD 0) :=
      (Option.some.inj h1).symm
    have e2 : dec2 = [] := by
      have h2b : (if 16 ≤ input.length then some [] else none) = some dec2 := h2
      split at h2b
      · exact (Option.some.inj h2b).symm
      · cases h2b
    subst e1 e2
    simp only [List.length_map, List.length_take, List.length_nil]
    omega

theorem skipPast_of_not_mem (marker : List Byte) (iss : List (List Byte)) (h : marker ∉ iss) :
    skipPast marker iss = [] := by
  induction iss with
  | nil => rfl
  | cons line iss ih =>
    rw [List.mem_cons, not_or] at h
    rw [skipPast, if_neg (fun e => h.1 e.symm)]
    exact ih h.2

/-- A payload without the line `AUTH_DATA_START` is accepted by `deserializeCredentials`,
which reads nothing from it: every `getline` after the first loop fails and is guarded. -/
theorem deserializeCredentials_no_marker (pm : PasswordManager) (data : List Byte)
    (h : ascii "AUTH_DATA_START" ∉ splitLines data) :
    deserializeCredentials pm data = ({ pm with credentials := [] }, .ok ()) := by
  unfold deserializeCredentials
  simp only [skipPast_of_not_mem _ _ h]
  rfl

end Vault

namespace Vault

open Crypto

/-- C17 (how the auth blob comes to be replaced). A locked manager and a vault file holding a
blob. If `decrypt` of that blob under the password given to `unlock` does not throw, whatever
the password, and the bytes it returns have no line `AUTH_DATA_START`, then `unlock` returns
`true`, the vault is unlocked with that password as master password and with no credential,
the file is as before, and the auth blob held by the manager is the blob of the file, not one
read from a payload. -/
theorem unlock_accepts_decrypting_password (O : OpenSSL) (w : World) (blob : EncryptedData)
    (password payload : List Byte) (hlocked : w.pm.isLocked = true)
    (hfile : w.file = some (serialize blob)) (hblob : BlobOk blob)
    (hdec : decrypt O blob password = .ok payload)
    (hmarker : ascii "AUTH_DATA_START" ∉ splitLines payload) :
    (unlock O w password).2 = true ∧
      isVaultLocked (unlock O w password).1.pm = false ∧
      (unlock O w password).1.pm.authData = blob ∧
      (unlock O w password).1.pm.masterPassword = password ∧
      (unlock O w password).1.pm.credentials = [] ∧
      (unlock O w password).1.file = w.file := by
  rw [unlock_locked_eq O w blob password payload hlocked hfile hblob hdec,
    deserializeCredentials_no_marker _ _ hmarker]
  exact ⟨rfl, rfl, rfl, rfl, rfl, rfl⟩

end Vault

namespace Vault

open Crypto

set_option maxRecDepth 100000

theorem unlock_accepts_decrypting_password_witness :
    Lawful shiftOpenSSL ∧
    (initializeVault shiftOpenSSL ⟨some (fun _ => 1), some (fun _ => 2)⟩
      (okEnv (fun _ => 3) (fun _ => 4)) ⟨PasswordManager.init (ascii "vault.dat"), none⟩
      (ascii "a")).2 = .ok true ∧
    (unlock shiftOpenSSL (lock (initializeVault shiftOpenSSL
      ⟨some (fun _ => 1), some (fun _ => 2)⟩ (okEnv (fun _ => 3) (fun _ => 4))
      ⟨PasswordManager.init (ascii "vault.dat"), none⟩ (ascii "a")).1) (ascii "b")).2 = true ∧
    isVaultLocked (unlock shiftOpenSSL (lock (initializeVault shiftOpenSSL
      ⟨some (fun _ => 1), some (fun _ => 2)⟩ (okEnv (fun _ => 3) (fun _ => 4))
      ⟨PasswordManager.init (ascii "vault.dat"), none⟩ (ascii "a")).1) (ascii "b")).1.pm = false ∧
    Except.ok (unlock shiftOpenSSL (lock (initializeVault shiftOpenSSL
      ⟨some (fun _ => 1), some (fun _ => 2)⟩ (okEnv (fun _ => 3) (fun _ => 4))
      ⟨PasswordManager.init (ascii "vault.dat"), none⟩ (ascii "a")).1) (ascii "b")).1.pm.authData ≠
      createAuthData shiftOpenSSL (ascii "a") ⟨some (fun _ => 1), some (fun _ => 2)⟩ ∧
    (diskAuthData shiftOpenSSL (ascii "b")
      (addCredential shiftOpenSSL (okEnv (fun _ => 5) (fun _ => 6))
        (unlock shiftOpenSSL (lock (initializeVault shiftOpenSSL
          ⟨some (fun _ => 1), some (fun _ => 2)⟩ (okEnv (fun _ => 3) (fun _ => 4))
          ⟨PasswordManager.init (ascii "vault.dat"), none⟩ (ascii "a")).1) (ascii "b")).1
        (ascii "m") (ascii "u") (ascii "p")).1).map Except.ok ≠
      some (createAuthData shiftOpenSSL (ascii "a") ⟨some (fun _ => 1), some (fun _ => 2)⟩) := by
  have h := unlock_accepts_decrypting_password shiftOpenSSL
    (lock (initializeVault shiftOpenSSL ⟨some (fun _ => 1), some (fun _ => 2)⟩
      (okEnv (fun _ => 3) (fun _ => 4)) ⟨PasswordManager.init (ascii "vault.dat"), none⟩
      (ascii "a")).1)
    (loadVault shiftOpenSSL (lock (initializeVault shiftOpenSSL
      ⟨some (fun _ => 1), some (fun _ => 2)⟩ (okEnv (fun _ => 3) (fun _ => 4))
      ⟨PasswordManager.init (ascii "vault.dat"), none⟩ (ascii "a")).1)).1.pm.authData
    (ascii "b")
    ((serializeCredentials (initializeVault shiftOpenSSL
      ⟨some (fun _ => 1), some (fun _ => 2)⟩ (okEnv (fun _ => 3) (fun _ => 4))
      ⟨PasswordManager.init (ascii "vault.dat"), none⟩ (ascii "a")).1.pm).map (fun c => c - 1))
    (by decide) (by decide) ⟨by decide, by decide, by decide⟩ (by decide) (by decide)
  exact ⟨shiftOpenSSL_lawful, by decide, h.1, h.2.1, by decide, by decide⟩

end Vault

namespace Vault

open Crypto

set_option maxRecDepth 100000

/-- An instance of `auth_blob_kept_in_session` on the stand-in library: a record is added,
the vault is locked, `unlock("wrong")` is refused and `unlock` with the master password
follows. -/
theorem auth_blob_kept_in_session_example :
    ∃ auth, createAuthData toyOpenSSL (ascii "CorrectHorse1!")
        ⟨some (fun _ => 1), some (fun _ => 2)⟩ = .ok auth ∧
      (runOps toyOpenSSL
          [Op.addCredential (okEnv (fun _ => 5) (fun _ => 6)) (ascii "email") (ascii "alice")
              (ascii "p@ss"),
            Op.lock, Op.unlock (ascii "wrong"), Op.unlock (ascii "CorrectHorse1!")]
          (initializeVault toyOpenSSL ⟨some (fun _ => 1), some (fun _ => 2)⟩
            (okEnv (fun _ => 3) (fun _ => 4)) ⟨PasswordManager.init (ascii "vault.dat"), none⟩
            (ascii "CorrectHorse1!")).1).pm.authData = auth ∧
      diskAuthData toyOpenSSL (ascii "CorrectHorse1!")
        (runOps toyOpenSSL
          [Op.addCredential (okEnv (fun _ => 5) (fun _ => 6)) (ascii "email") (ascii "alice")
              (ascii "p@ss"),
            Op.lock, Op.unlock (ascii "wrong"), Op.unlock (ascii "CorrectHorse1!")]
          (initializeVault toyOpenSSL ⟨some (fun _ => 1), some (fun _ => 2)⟩
            (okEnv (fun _ => 3) (fun _ => 4)) ⟨PasswordManager.init (ascii "vault.dat"), none⟩
            (ascii "CorrectHorse1!")).1) = some auth := by
  obtain ⟨auth, h1, _, h3, h4⟩ := auth_blob_kept_in_session toyOpenSSL toyOpenSSL_lawful
    (ascii "vault.dat") (ascii "CorrectHorse1!") (fun _ => 1) (fun _ => 2) (fun _ => 3)
    (fun _ => 4)
    [Op.addCredential (okEnv (fun _ => 5) (fun _ => 6)) (ascii "email") (ascii "alice")
        (ascii "p@ss"),
      Op.lock, Op.unlock (ascii "wrong"), Op.unlock (ascii "CorrectHorse1!")]
    (by decide) (by decide)
    ⟨trivial, trivial, Or.inr (by decide), Or.inl rfl, trivial⟩
    ⟨fun _ => by decide, fun _ => by decide, fun _ => by decide, fun _ => by decide, trivial⟩
  exact ⟨auth, h1, h3 (by decide), h4⟩

end Vault
